import Mathlib

/-!
# Mesh adaptation control of `CommBlock` (src/Cello/charm_adapt.cpp)

A shallow embedding of the adaptation entry methods of `CommBlock`:
`p_adapt_enter`, `p_adapt`, `is_leaf`, `determine_refine`, `update_adapt_`,
`p_update_depth`, `refine` and `coarsen`.

Conventions of the embedding.

* C++ `int` values that may become negative (`count_adapt_`, depths, the
  adapt codes, the per-axis child selectors) are `Int`; signed overflow is
  undefined in C++ and is not modelled.  `level_` and loop counters, which the
  code only ever increases from `0`, are `Nat`.
* A method that mutates the block returns the new block together with the
  list of externally visible effects it produced, in program order.
* `depth_` is a list; a read or write outside the list is undefined in C++;
  the theorems below only speak about slots inside the vector.
-/

namespace Cello

/-! ## Adapt codes -/

/-- The four adapt actions, in the order of the table `adapt_name[]`. -/
inductive AdaptAction where
  | unknown
  | unchanged
  | refine
  | coarsen
  deriving DecidableEq, Repr

/-- Code `adapt_unknown`, entry 0 of `adapt_name[]`. -/
def adapt_unknown : Int := 0
/-- Code `adapt_same`, entry 1 of `adapt_name[]`. -/
def adapt_same : Int := 1
/-- Code `adapt_refine`, entry 2 of `adapt_name[]`. -/
def adapt_refine : Int := 2
/-- Code `adapt_coarsen`, entry 3 of `adapt_name[]`. -/
def adapt_coarsen : Int := 3

/-- The `int` code of an adapt action. -/
def AdaptAction.code : AdaptAction → Int
  | .unknown => adapt_unknown
  | .unchanged => adapt_same
  | .refine => adapt_refine
  | .coarsen => adapt_coarsen

/-- `CommBlock::update_adapt_(int a1, int a2)`. -/
def update_adapt_ (a1 a2 : Int) : Int :=
  if a1 = adapt_unknown then a2
  else if a2 = adapt_unknown then a1
  else if a1 = adapt_coarsen ∧ a2 = adapt_coarsen then adapt_coarsen
  else if a1 = adapt_refine ∨ a2 = adapt_refine then adapt_refine
  else adapt_same

/-- The combination table as the specification words it: `unknown ⊕ x = x`,
`x ⊕ unknown = x`, `coarsen ⊕ coarsen = coarsen`, `refine ⊕ x = x ⊕ refine =
refine` for `x ≠ unknown`, and `unchanged` for every remaining pair. -/
def combine_spec : AdaptAction → AdaptAction → AdaptAction
  | .unknown, x => x
  | x, .unknown => x
  | .coarsen, .coarsen => .coarsen
  | .refine, _ => .refine
  | _, .refine => .refine
  | _, _ => .unchanged

/-! ## Macros -/

/-- Macro `IC(icx,icy,icz)`; `%` is the truncating remainder of C. -/
def IC (icx icy icz : Int) : Int :=
  ((icx + 2).tmod 2) + 2 * (((icy + 2).tmod 2) + 2 * ((icz + 2).tmod 2))

/-- Macro `NC(rank)`. -/
def NC (rank : Nat) : Nat :=
  if rank = 1 then 2 else (if rank = 2 then 4 else 8)

/-! ## Index -/

/-- Modelled from the spec: the class `Index` (its header is not part of the
sources at hand).  A block index is a level and the path of per-level child
selectors; `tree[k]` is the selector of tree level `k+1`. -/
structure Index where
  level : Nat
  tree : List (Int × Int × Int)
  deriving DecidableEq, Repr

/-- Modelled from the spec: `Index::set_level(level)`. -/
def Index.set_level (index : Index) (level : Nat) : Index :=
  { index with level := level }

/-- Modelled from the spec: `Index::set_tree(level,icx,icy,icz)` stores the
child selector of tree level `level`, padding missing levels with zero bits. -/
def Index.set_tree (index : Index) (level : Nat) (icx icy icz : Int) : Index :=
  { index with
    tree := (index.tree ++ List.replicate (level - index.tree.length) (0, 0, 0)).set
      (level - 1) (icx, icy, icz) }

/-- Modelled from the spec: `Index::child(level,&icx,&icy,&icz)` reads the
child selector of tree level `level`. -/
def Index.child (index : Index) (level : Nat) : Int × Int × Int :=
  index.tree.getD (level - 1) (0, 0, 0)

/-- Modelled from the spec: `Index::clean()` drops every selector above the
own level of the index, so that `len(path) == level`. -/
def Index.clean (index : Index) : Index :=
  { index with
    tree := (index.tree ++ List.replicate (index.level - index.tree.length) (0, 0, 0)).take
      index.level }

/-- Modelled from the spec: the index of the single root block. -/
def Index.root : Index := { level := 0, tree := [] }

/-- Modelled from the spec: `Index::is_root()`, true for the designated root
index (level 0, empty path) only. -/
def Index.is_root (index : Index) : Bool :=
  decide (index = Index.root)

/-- Modelled from the spec: `child(selector)` appends a selector. -/
def Index.child_of (index : Index) (sel : Int × Int × Int) : Index :=
  { level := index.level + 1, tree := index.tree ++ [sel] }

/-! ## Blocks, the simulation context and effects -/

/-- The members of `CommBlock` that the adaptation methods read or write.
`nx`, `ny`, `nz` stand for `block()->field_block()->size(&nx,&ny,&nz)` and
`cycle_` for `cycle()`. -/
structure CommBlock where
  thisIndex : Index
  level_ : Nat
  count_adapt_ : Int
  depth_ : List Int
  cycle_ : Int
  nx : Int
  ny : Int
  nz : Int
  deriving DecidableEq, Repr

/-- What the methods read through `simulation()`: the dimension (rank), the
two configuration values and the ordered refinement criteria
(`problem()->refine(i)`), each criterion being its `apply` on a block. -/
structure Simulation where
  dimension : Nat
  initial_cycle : Int
  initial_max_level : Int
  refine_list : List (CommBlock → Int)

/-- `simulation()->problem()->refine(i)`: the `i`-th criterion, or null. -/
def Simulation.refine (sim : Simulation) (i : Nat) : Option (CommBlock → Int) :=
  sim.refine_list[i]?

/-- The two quiescence callbacks. -/
inductive Callback where
  | q_adapt
  | q_adapt_exit
  deriving DecidableEq, Repr

/-- Externally visible effects of the adaptation methods, in program order.
`determine_refine`, `refine` and `coarsen` record the entry of the method of
that name (where the source has its `TRACE`), `apply i` the call of
`refine->apply` of criterion `i`.  `doneInserting` is
`thisProxy.doneInserting()`, `print c` is `thisIndex.print(buffer)` with the
buffer `q_adapt(c)`, and the three `bcast_` effects are the broadcasts
`thisProxy.p_print(buffer)`, `thisProxy.p_adapt(c)` and
`thisProxy.p_refresh()` to every block. -/
inductive Effect where
  | determine_refine
  | apply (i : Nat)
  | refine
  | coarsen
  | create_block (index : Index) (nx ny nz : Int) (level : Nat)
      (num_field_blocks : Int) (count_adapt : Int) (testing : Bool)
  | p_update_depth (index : Index) (ic : Int) (depth : Int)
  | startQD (cb : Callback) (index : Index)
  | doneInserting
  | print (count : Int)
  | bcast_p_print (count : Int)
  | bcast_p_adapt (count : Int)
  | bcast_p_refresh
  | p_balance
  deriving DecidableEq, Repr

/-! ## Methods -/

/-- `CommBlock::is_leaf() const`. -/
def is_leaf (sim : Simulation) (b : CommBlock) : Bool :=
  let rank := sim.dimension
  let nc := NC rank
  (List.range nc).foldl (fun leaf ic => leaf && (b.depth_.getD ic 0 == 0)) true

/-- The `while` loop of `determine_refine`: `fuel` bounds the number of
iterations, `i` is the loop counter and `adapt` the running result. -/
def determine_refine_loop (sim : Simulation) (b : CommBlock) :
    Nat → Nat → Int → List Effect → Int × List Effect
  | 0, _, adapt, es => (adapt, es)
  | fuel + 1, i, adapt, es =>
    match sim.refine i with
    | none => (adapt, es)
    | some refine =>
      determine_refine_loop sim b fuel (i + 1) (update_adapt_ adapt (refine b))
        (es ++ [Effect.apply i])

/-- `CommBlock::determine_refine()`.  The loop runs until `refine(i)` is null,
which happens after `refine_list.length` iterations. -/
def determine_refine (sim : Simulation) (b : CommBlock) : Int × List Effect :=
  if is_leaf sim b then
    determine_refine_loop sim b (sim.refine_list.length + 1) 0 adapt_unknown
      [Effect.determine_refine]
  else
    (adapt_same, [Effect.determine_refine])

/-- `CommBlock::p_update_depth(int ic, int depth)`.  An index `ic` outside the
depth vector (negative, or beyond its last slot) is undefined in C++; here
such a write changes nothing.  The sum `depth + 1` is the mathematical one,
which is the C++ sum for every `depth` below `INT_MAX`;
`p_update_depth_int32` has the sum on `int`. -/
def p_update_depth (b : CommBlock) (ic : Int) (depth : Int) : CommBlock × List Effect :=
  let b1 := { b with
    depth_ :=
      if 0 ≤ ic then b.depth_.set ic.toNat (max (b.depth_.getD ic.toNat 0) depth)
      else b.depth_ }
  if b1.level_ > 0 then
    let index := b1.thisIndex
    let (icx, icy, icz) := index.child b1.level_
    let index := index.set_level (b1.level_ - 1)
    let index := index.clean
    (b1, [Effect.p_update_depth index (IC icx icy icz) (depth + 1)])
  else
    (b1, [])

/-- One iteration of the `for` loop of `refine`, for child slot `ic`. -/
def refine_body (nx ny nz : Int) (num_field_blocks : Int) (testing : Bool)
    (st : CommBlock × List Effect) (ic : Nat) : CommBlock × List Effect :=
  let b := st.1
  let icx : Int := ((ic &&& 1) >>> 0 : Nat)
  let icy : Int := ((ic &&& 2) >>> 1 : Nat)
  let icz : Int := ((ic &&& 4) >>> 2 : Nat)
  let index := b.thisIndex
  let index := index.set_level (b.level_ + 1)
  let index := index.set_tree (b.level_ + 1) icx icy icz
  let index := index.clean
  let e := Effect.create_block index nx ny nz (b.level_ + 1) num_field_blocks
    b.count_adapt_ testing
  let r := p_update_depth b (ic : Int) 1
  (r.1, st.2 ++ [e] ++ r.2)

/-- `CommBlock::refine()`. -/
def refine (sim : Simulation) (b : CommBlock) : CommBlock × List Effect :=
  let rank := sim.dimension
  let nx := b.nx
  let ny := b.ny
  let nz := b.nz
  let num_field_blocks : Int := 1
  let testing := false
  let nc := NC rank
  (List.range nc).foldl (refine_body nx ny nz num_field_blocks testing) (b, [Effect.refine])

/-- `CommBlock::coarsen()`. -/
def coarsen (b : CommBlock) : CommBlock × List Effect :=
  (b, [Effect.coarsen])

/-- `CommBlock::p_adapt(int count)`.  The test is on the member
`count_adapt_`, which is decremented whatever the outcome of the test. -/
def p_adapt (sim : Simulation) (_count : Int) (b : CommBlock) : CommBlock × List Effect :=
  let c := b.count_adapt_
  let b := { b with count_adapt_ := c - 1 }
  if c > 0 then
    let (adapt, e1) := determine_refine sim b
    let (b, e2) :=
      if adapt = adapt_refine then refine sim b
      else if adapt = adapt_coarsen then coarsen b
      else (b, [])
    (b, e1 ++ e2 ++ [Effect.startQD Callback.q_adapt b.thisIndex])
  else
    (b, [Effect.startQD Callback.q_adapt_exit b.thisIndex])

/-- `CommBlock::p_adapt_enter()`. -/
def p_adapt_enter (sim : Simulation) (b : CommBlock) : CommBlock × List Effect :=
  let initial_cycle := sim.initial_cycle
  let initial_max_level := sim.initial_max_level
  let b := { b with
    count_adapt_ := if b.cycle_ = initial_cycle then initial_max_level else 1 }
  p_adapt sim b.count_adapt_ b

/-- `CommBlock::q_adapt()`. -/
def q_adapt (b : CommBlock) : CommBlock × List Effect :=
  if b.thisIndex.is_root then
    (b, [Effect.doneInserting, Effect.print b.count_adapt_,
         Effect.bcast_p_print b.count_adapt_, Effect.bcast_p_adapt b.count_adapt_])
  else
    (b, [Effect.doneInserting])

/-- `CommBlock::p_balance()`. -/
def p_balance (b : CommBlock) : CommBlock × List Effect :=
  (b, [Effect.p_balance])

/-- `CommBlock::q_adapt_exit()`. -/
def q_adapt_exit (b : CommBlock) : CommBlock × List Effect :=
  if b.thisIndex.is_root then
    (b, [Effect.doneInserting, Effect.bcast_p_refresh])
  else
    (b, [Effect.doneInserting])

/-! ## Reference definitions and observers -/

/-- The reference definition of `determine_refine` in the words of the
specification: `unchanged` for a block that is not a leaf, otherwise the left
fold of the criteria results with the combination rule, seeded with
`unknown`. -/
def determine_refine_spec (leaf : Bool) (results : List Int) : Int :=
  if leaf then results.foldl update_adapt_ adapt_unknown else adapt_same

/-- The left fold of a list of adapt actions with `update_adapt_`, seeded
with `unknown`. -/
def fold_adapt (l : List AdaptAction) : Int :=
  (l.map AdaptAction.code).foldl update_adapt_ adapt_unknown

/-- Recognises the registration of quiescence callback `cb`, whatever the
index it is registered for. -/
def Effect.is_startQD (cb : Callback) : Effect → Bool
  | .startQD cb1 _ => decide (cb1 = cb)
  | _ => false

/-- Recognises a criterion application. -/
def Effect.is_apply : Effect → Bool
  | .apply _ => true
  | _ => false

/-- Recognises a block creation request. -/
def Effect.is_create_block : Effect → Bool
  | .create_block .. => true
  | _ => false

/-- An effect produced inside `refine` apart from its entry record: a block
creation request or a depth message. -/
def Effect.is_refine_output : Effect → Bool
  | .create_block .. => true
  | .p_update_depth .. => true
  | _ => false

/-- The child selector that the loop of `refine` computes for slot `ic`:
`((ic & 1) >> 0, (ic & 2) >> 1, (ic & 4) >> 2)`. -/
def child_selector (ic : Nat) : Int × Int × Int :=
  ((((ic &&& 1) >>> 0 : Nat) : Int), (((ic &&& 2) >>> 1 : Nat) : Int),
    (((ic &&& 4) >>> 2 : Nat) : Int))

/-- The index that `refine` builds for the child in slot `ic`. -/
def refine_child_index (b : CommBlock) (ic : Nat) : Index :=
  (((b.thisIndex.set_level (b.level_ + 1)).set_tree (b.level_ + 1)
    (child_selector ic).1 (child_selector ic).2.1 (child_selector ic).2.2)).clean

/-- The index that `p_update_depth` builds for the parent. -/
def parent_index (b : CommBlock) : Index :=
  (b.thisIndex.set_level (b.level_ - 1)).clean

/-- The slot of a block in its parent, as `p_update_depth` computes it. -/
def own_slot (b : CommBlock) : Int :=
  IC (b.thisIndex.child b.level_).1 (b.thisIndex.child b.level_).2.1
    (b.thisIndex.child b.level_).2.2

/-- The message that `p_update_depth` with argument `depth` sends on. -/
def forward_effects (b : CommBlock) (depth : Int) : List Effect :=
  if b.level_ > 0 then [Effect.p_update_depth (parent_index b) (own_slot b) (depth + 1)] else []

/-- The depth vector after `depth_[ic] = std::max(depth_[ic],depth)`. -/
def depth_max (depth_ : List Int) (ic : Nat) (depth : Int) : List Int :=
  depth_.set ic (max (depth_.getD ic 0) depth)

/-- Recognises a broadcast of `p_adapt`, whatever its argument. -/
def Effect.is_bcast_p_adapt : Effect → Bool
  | .bcast_p_adapt _ => true
  | _ => false

/-- Recognises a broadcast of `p_refresh`. -/
def Effect.is_bcast_p_refresh : Effect → Bool
  | .bcast_p_refresh => true
  | _ => false

/-- The value that `p_adapt_enter` stores in `count_adapt_`. -/
def enter_count (sim : Simulation) (b : CommBlock) : Int :=
  if b.cycle_ = sim.initial_cycle then sim.initial_max_level else 1

/-- A value lies outside the four adapt codes. -/
def out_of_domain (x : Int) : Prop :=
  x ≠ adapt_unknown ∧ x ≠ adapt_same ∧ x ≠ adapt_refine ∧ x ≠ adapt_coarsen

/-! ## The mesh: blocks and messages in flight -/

/-- A `p_update_depth(ic, depth)` message on its way to the block `target`. -/
structure Msg where
  target : Index
  ic : Int
  depth : Int
  deriving DecidableEq, Repr

/-- The state of the whole mesh: the live blocks and the `p_update_depth`
messages that have been sent and not yet delivered. -/
structure Mesh where
  blocks : List CommBlock
  inflight : List Msg
  deriving DecidableEq, Repr

/-- Modelled from the spec: the block that `Factory::create_block` inserts (the
factory and the constructor of `CommBlock` are not part of the sources at
hand).  A freshly created block has an all-zero depth vector of `NC(rank)`
slots; it carries the index, size, level and counter of the request and lives
in the cycle of the block that created it. -/
def fresh_block (sim : Simulation) (cycle : Int) (index : Index) (nx ny nz : Int)
    (level : Nat) (count_adapt : Int) : CommBlock :=
  { thisIndex := index, level_ := level, count_adapt_ := count_adapt,
    depth_ := List.replicate (NC sim.dimension) 0, cycle_ := cycle,
    nx := nx, ny := ny, nz := nz }

/-- The block that a `create_block` effect inserts, if the effect is one. -/
def Effect.to_block (sim : Simulation) (cycle : Int) : Effect → Option CommBlock
  | .create_block index nx ny nz level _ count_adapt _ =>
    some (fresh_block sim cycle index nx ny nz level count_adapt)
  | _ => none

/-- The message that a `p_update_depth` effect sends, if the effect is one. -/
def Effect.to_msg : Effect → Option Msg
  | .p_update_depth index ic depth => some { target := index, ic := ic, depth := depth }
  | _ => none

/-- The mesh after one effect of a block living in cycle `cycle`: a block
creation inserts the fresh block, a `p_update_depth` send puts the message in
flight; the other effects do not touch blocks or depth messages. -/
def apply_effect (sim : Simulation) (cycle : Int) (m : Mesh) (e : Effect) : Mesh :=
  { blocks := m.blocks ++ (e.to_block sim cycle).toList,
    inflight := m.inflight ++ e.to_msg.toList }

/-- The block with index `i` runs the entry method `handler`: its new state
replaces the old one and its effects are applied in program order.  Nothing
happens when no block has index `i`. -/
def Mesh.run_handler (sim : Simulation) (m : Mesh) (i : Index)
    (handler : CommBlock → CommBlock × List Effect) : Mesh :=
  match m.blocks.find? (fun b => decide (b.thisIndex = i)) with
  | none => m
  | some b =>
    let r := handler b
    r.2.foldl (apply_effect sim b.cycle_)
      { m with blocks := m.blocks.map (fun x => if x.thisIndex = i then r.1 else x) }

/-- What the scheduler may do next: let block `i` run `p_adapt_enter`, let
block `i` run `p_adapt(n)`, or deliver the `k`-th message in flight. -/
inductive Event where
  | enter (i : Index)
  | step (i : Index) (n : Int)
  | deliver (k : Nat)
  deriving DecidableEq, Repr

/-- One scheduler step.  A message whose target does not exist (yet) stays in
flight. -/
def Mesh.step (sim : Simulation) (m : Mesh) : Event → Mesh
  | .enter i => m.run_handler sim i (p_adapt_enter sim)
  | .step i n => m.run_handler sim i (p_adapt sim n)
  | .deliver k =>
    match m.inflight[k]? with
    | none => m
    | some msg =>
      if (m.blocks.find? (fun b => decide (b.thisIndex = msg.target))).isSome then
        Mesh.run_handler sim { m with inflight := m.inflight.eraseIdx k } msg.target
          (fun b => p_update_depth b msg.ic msg.depth)
      else m

/-- The mesh after a finite schedule. -/
def Mesh.run (sim : Simulation) (events : List Event) (m : Mesh) : Mesh :=
  events.foldl (Mesh.step sim) m

/-- The largest entry of a depth vector (0 for the empty vector). -/
def max_entry (l : List Int) : Int :=
  l.foldl max (l.headD 0)

/-- A block is well formed for rank `rank`: its index is at its level, the
path of the index has one selector per level, and the depth vector has
`NC(rank)` slots. -/
def CommBlock.wf (sim : Simulation) (b : CommBlock) : Prop :=
  b.thisIndex.level = b.level_ ∧ b.thisIndex.tree.length = b.level_ ∧
    b.depth_.length = NC sim.dimension

/-- The invariant of the mesh that holds in every reachable state, quiescent
or not. -/
structure Mesh.Inv (sim : Simulation) (m : Mesh) : Prop where
  wf : ∀ b ∈ m.blocks, b.wf sim
  uniq : ∀ x ∈ m.blocks, ∀ y ∈ m.blocks, x.thisIndex = y.thisIndex → x = y
  parent : ∀ c ∈ m.blocks, 0 < c.level_ →
    ∃ p ∈ m.blocks, ∃ s, s < NC sim.dimension ∧ c.thisIndex = refine_child_index p s
  nonneg : ∀ b ∈ m.blocks, ∀ s, s < NC sim.dimension → 0 ≤ b.depth_.getD s 0
  zero_no_child : ∀ b ∈ m.blocks, ∀ s, s < NC sim.dimension → b.depth_.getD s 0 = 0 →
    ∀ c ∈ m.blocks, c.thisIndex ≠ refine_child_index b s
  pos_child : ∀ b ∈ m.blocks, ∀ s, s < NC sim.dimension → b.depth_.getD s 0 ≠ 0 →
    ∃ c ∈ m.blocks, c.thisIndex = refine_child_index b s
  upper : ∀ b ∈ m.blocks, ∀ s, s < NC sim.dimension →
    ∀ c ∈ m.blocks, c.thisIndex = refine_child_index b s →
      ∃ t, t < NC sim.dimension ∧ b.depth_.getD s 0 ≤ 1 + c.depth_.getD t 0
  lower : ∀ b ∈ m.blocks, ∀ s, s < NC sim.dimension →
    ∀ c ∈ m.blocks, c.thisIndex = refine_child_index b s →
      ∀ t, t < NC sim.dimension →
        c.depth_.getD t 0 + 1 ≤ b.depth_.getD s 0 ∨
        ∃ msg ∈ m.inflight, msg.target = b.thisIndex ∧ msg.ic = (s : Int) ∧
          c.depth_.getD t 0 + 1 ≤ msg.depth
  msgs : ∀ msg ∈ m.inflight, ∃ b ∈ m.blocks, b.thisIndex = msg.target ∧
    ∃ s, s < NC sim.dimension ∧ msg.ic = (s : Int) ∧
      ∃ c ∈ m.blocks, c.thisIndex = refine_child_index b s ∧
        ∃ t, t < NC sim.dimension ∧ msg.depth ≤ 1 + c.depth_.getD t 0

/-! ## The protocol: control messages and the quiescence barrier -/

/-- A control message on its way to the block `target`: an entry-method call
other than `p_update_depth` (those are the `Msg` of the mesh). -/
inductive Ctl where
  | p_adapt_enter (target : Index)
  | p_adapt (target : Index) (count : Int)
  | q_adapt (target : Index)
  | q_adapt_exit (target : Index)
  | p_print (target : Index) (count : Int)
  | p_refresh (target : Index)
  deriving DecidableEq, Repr

/-- The block that a control message is addressed to. -/
def Ctl.target : Ctl → Index
  | .p_adapt_enter i => i
  | .p_adapt i _ => i
  | .q_adapt i => i
  | .q_adapt_exit i => i
  | .p_print i _ => i
  | .p_refresh i => i

/-- Modelled from the spec: the entry method that a control message invokes.
The bodies of `p_print` and `p_refresh` are not part of the sources at hand:
`p_print` only prints, and `p_refresh` is the cycle-finished notification that
starts the next simulation phase; neither touches the adaptation state.  The
other four methods are the ones of `charm_adapt.cpp`. -/
def Ctl.handler (sim : Simulation) : Ctl → CommBlock → CommBlock × List Effect
  | .p_adapt_enter _ => Cello.p_adapt_enter sim
  | .p_adapt _ count => Cello.p_adapt sim count
  | .q_adapt _ => Cello.q_adapt
  | .q_adapt_exit _ => Cello.q_adapt_exit
  | .p_print _ _ => fun b => (b, [])
  | .p_refresh _ => fun b => (b, [])

/-- The state of the protocol: the mesh (blocks and depth messages in
flight), the control messages in flight, the callbacks registered with the
quiescence detector, and three records of the history: the arguments of the
`p_adapt` broadcasts so far, the number of `p_refresh` broadcasts so far, and
for every time the quiescence detector has fired the callbacks it has sent. -/
structure Proto where
  mesh : Mesh
  ctl : List Ctl
  qd : List (Callback × Index)
  broadcasts : List Int
  refreshes : Nat
  barriers : List (List (Callback × Index))
  deriving DecidableEq, Repr

/-- The control message that the quiescence detector sends for a registered
callback. -/
def callback_msg : Callback × Index → Ctl
  | (Callback.q_adapt, i) => Ctl.q_adapt i
  | (Callback.q_adapt_exit, i) => Ctl.q_adapt_exit i

/-- Modelled from the spec: what the runtime does with an effect that is
neither a block creation nor a depth message (the Charm++ runtime is not part
of the sources at hand).  `CkStartQD` registers the callback with the
quiescence detector; a broadcast puts one message per live block in flight. -/
def apply_control (s : Proto) : Effect → Proto
  | .startQD cb i => { s with qd := s.qd ++ [(cb, i)] }
  | .bcast_p_print c =>
    { s with ctl := s.ctl ++ s.mesh.blocks.map (fun x => Ctl.p_print x.thisIndex c) }
  | .bcast_p_adapt c =>
    { s with
      ctl := s.ctl ++ s.mesh.blocks.map (fun x => Ctl.p_adapt x.thisIndex c),
      broadcasts := s.broadcasts ++ [c] }
  | .bcast_p_refresh =>
    { s with
      ctl := s.ctl ++ s.mesh.blocks.map (fun x => Ctl.p_refresh x.thisIndex),
      refreshes := s.refreshes + 1 }
  | _ => s

/-- What the scheduler of the protocol may do next: deliver the `k`-th depth
message, deliver the `k`-th control message, or let the quiescence detector
fire. -/
inductive PEvent where
  | depth (k : Nat)
  | ctl (k : Nat)
  | quiesce
  deriving DecidableEq, Repr

/-- Modelled from the spec: one step of the protocol under the Charm++ runtime
(which is not part of the sources at hand).  A control message whose target
does not exist stays in flight.  The quiescence detector fires only when no
message at all is in flight and a callback is registered, and then sends every
registered callback, once. -/
def Proto.step (sim : Simulation) (s : Proto) : PEvent → Proto
  | .depth k => { s with mesh := s.mesh.step sim (Event.deliver k) }
  | .ctl k =>
    match s.ctl[k]? with
    | none => s
    | some msg =>
      match s.mesh.blocks.find? (fun b => decide (b.thisIndex = msg.target)) with
      | none => s
      | some b =>
        (msg.handler sim b).2.foldl apply_control
          { s with
            mesh := s.mesh.run_handler sim msg.target (msg.handler sim),
            ctl := s.ctl.eraseIdx k }
  | .quiesce =>
    if s.mesh.inflight = [] ∧ s.ctl = [] ∧ s.qd ≠ [] then
      { s with ctl := s.qd.map callback_msg, qd := [], barriers := s.barriers ++ [s.qd] }
    else s

/-- The protocol after a finite schedule. -/
def Proto.run (sim : Simulation) (events : List PEvent) (s : Proto) : Proto :=
  events.foldl (Proto.step sim) s

/-- The start of an adaptation cycle on a mesh that consists of the block
`root`: the call of `p_adapt_enter` on it is in flight. -/
def Proto.init (root : CommBlock) : Proto :=
  { mesh := { blocks := [root], inflight := [] },
    ctl := [Ctl.p_adapt_enter root.thisIndex], qd := [], broadcasts := [], refreshes := 0,
    barriers := [] }

/-- An effect that `apply_control` acts on: a callback registration or a
broadcast. -/
def Effect.is_control : Effect → Bool
  | .startQD _ _ => true
  | .bcast_p_print _ => true
  | .bcast_p_adapt _ => true
  | .bcast_p_refresh => true
  | _ => false

/-- The block `b` refines when it runs `p_adapt`: its counter is positive and
its criteria combine to `adapt_refine`. -/
def refines (sim : Simulation) (b : CommBlock) : Prop :=
  0 < b.count_adapt_ ∧
    (determine_refine sim { b with count_adapt_ := b.count_adapt_ - 1 }).1 = adapt_refine

instance refines_decidable (sim : Simulation) (b : CommBlock) : Decidable (refines sim b) :=
  instDecidableAnd

/-- The indices and counters of the blocks that `b` creates when it runs
`p_adapt`. -/
def kids_view (sim : Simulation) (b : CommBlock) (refining : Bool) : List (Index × Int) :=
  if refining then
    (List.range (NC sim.dimension)).map (fun ic => (refine_child_index b ic, b.count_adapt_ - 1))
  else []

/-- An event is enabled when `Proto.step` acts on it: the message exists and
its target is a live block, or, for the quiescence detector, nothing is in
flight and a callback is registered. -/
def Proto.enabled (s : Proto) : PEvent → Bool
  | .depth k =>
    match s.mesh.inflight[k]? with
    | none => false
    | some msg => (s.mesh.blocks.find? (fun b => decide (b.thisIndex = msg.target))).isSome
  | .ctl k =>
    match s.ctl[k]? with
    | none => false
    | some msg => (s.mesh.blocks.find? (fun b => decide (b.thisIndex = msg.target))).isSome
  | .quiesce => decide (s.mesh.inflight = [] ∧ s.ctl = [] ∧ s.qd ≠ [])

/-- The index and the stored counter of every live block. -/
def Mesh.view (m : Mesh) : List (Index × Int) :=
  m.blocks.map (fun b => (b.thisIndex, b.count_adapt_))

/-- The view after the counter of block `i` has become `c`. -/
def view_set (v : List (Index × Int)) (i : Index) (c : Int) : List (Index × Int) :=
  v.map (fun p => if p.1 = i then (i, c) else p)

/-- The target of a `p_adapt` message. -/
def Ctl.adapt_target : Ctl → Option Index
  | .p_adapt i _ => some i
  | _ => none

/-- The targets of the `p_adapt` messages in flight. -/
def adapt_targets (ctl : List Ctl) : List Index :=
  ctl.filterMap Ctl.adapt_target

/-- A call of `p_adapt` or `p_adapt_enter` in flight. -/
def Ctl.is_step : Ctl → Bool
  | .p_adapt _ _ => true
  | .p_adapt_enter _ => true
  | _ => false

/-- The callback that `p_adapt` registers on a block whose stored counter is
`v`. -/
def callback_of (v : Int) : Callback :=
  if 0 < v then Callback.q_adapt else Callback.q_adapt_exit

/-- The list `N-1, N-2, ..., v`. -/
def countdown (N v : Int) : List Int :=
  (List.range (N - v).toNat).map (fun (j : Nat) => N - 1 - (j : Int))

/-- The phases of an adaptation cycle: the call of `p_adapt_enter` is in
flight; the blocks are stepping with counter `v`; the quiescence detector has
fired for counter `v` and the callback of the root is in flight; the root has
broadcast `p_refresh`. -/
inductive Phase where
  | entering
  | stepping (v : Int)
  | fired (v : Int)
  | finished (v : Int)

/-- What holds of the protocol state in each phase of a cycle that starts
with counter `N`. -/
def PhaseOK (sim : Simulation) (N : Int) (s : Proto) : Phase → Prop
  | .entering =>
    (∃ r, s.mesh.blocks = [r] ∧ r.thisIndex = Index.root ∧ enter_count sim r = N) ∧
    s.mesh.inflight = [] ∧ s.ctl = [Ctl.p_adapt_enter Index.root] ∧ s.qd = [] ∧
    s.broadcasts = [] ∧ s.refreshes = 0 ∧ s.barriers = []
  | .stepping v =>
    v ≤ N ∧ (0 ≤ v ∨ v = N) ∧ s.broadcasts = countdown N v ∧ s.refreshes = 0 ∧
    (∀ p ∈ s.mesh.view, p.2 = v ∨ p.2 = v - 1) ∧
    (adapt_targets s.ctl).Nodup ∧
    (∀ i, i ∈ adapt_targets s.ctl ↔ (i, v) ∈ s.mesh.view) ∧
    (∀ m ∈ s.ctl, (∃ i, m = Ctl.p_adapt i v) ∨ (∃ i c, m = Ctl.p_print i c) ∨
      (∃ i, i ≠ Index.root ∧ m = Ctl.q_adapt i)) ∧
    (s.qd.map Prod.snd).Nodup ∧
    (∀ e ∈ s.qd, e.1 = callback_of v ∧ (e.2, v - 1) ∈ s.mesh.view) ∧
    ((Index.root, v - 1) ∈ s.mesh.view → Index.root ∈ s.qd.map Prod.snd) ∧
    (v ≤ 0 → ∀ i, (i, v - 1) ∈ s.mesh.view → i ∈ s.qd.map Prod.snd) ∧
    s.barriers.length = (N - v).toNat ∧
    (∀ batch ∈ s.barriers, ∀ e ∈ batch, e.1 = Callback.q_adapt)
  | .fired v =>
    v ≤ N ∧ (0 ≤ v ∨ v = N) ∧ s.broadcasts = countdown N v ∧ s.refreshes = 0 ∧
    s.mesh.inflight = [] ∧ s.qd = [] ∧
    (∀ p ∈ s.mesh.view, p.2 = v - 1) ∧
    (∀ m ∈ s.ctl, ∃ i, m = callback_msg (callback_of v, i)) ∧
    s.ctl.count (callback_msg (callback_of v, Index.root)) = 1 ∧
    (∃ pre batch, s.barriers = pre ++ [batch] ∧ pre.length = (N - v).toNat ∧
      (∀ b ∈ pre, ∀ e ∈ b, e.1 = Callback.q_adapt) ∧
      (∀ e ∈ batch, e.1 = callback_of v) ∧
      (v ≤ 0 → (batch.map Prod.snd).Perm (s.mesh.view.map Prod.fst)))
  | .finished v =>
    v ≤ 0 ∧ v ≤ N ∧ (0 ≤ v ∨ v = N) ∧ s.broadcasts = countdown N v ∧ s.refreshes = 1 ∧
    s.mesh.inflight = [] ∧ s.qd = [] ∧
    (∀ p ∈ s.mesh.view, p.2 = v - 1) ∧
    (∀ m ∈ s.ctl, (∃ i, m = Ctl.p_refresh i) ∨
      (∃ i, i ≠ Index.root ∧ m = Ctl.q_adapt_exit i)) ∧
    (∃ pre batch, s.barriers = pre ++ [batch] ∧ pre.length = (N - v).toNat ∧
      (∀ b ∈ pre, ∀ e ∈ b, e.1 = Callback.q_adapt) ∧
      (∀ e ∈ batch, e.1 = Callback.q_adapt_exit) ∧
      (batch.map Prod.snd).Perm (s.mesh.view.map Prod.fst))

/-- The invariant of the protocol in a cycle that starts with counter `N`:
the mesh invariant, pairwise distinct block indices, a live root, live targets
for all control messages, and the facts of one of the phases. -/
structure PhaseInv (sim : Simulation) (N : Int) (s : Proto) : Prop where
  mesh : s.mesh.Inv sim
  nodup : (s.mesh.view.map Prod.fst).Nodup
  root : Index.root ∈ s.mesh.view.map Prod.fst
  targets : ∀ m ∈ s.ctl, m.target ∈ s.mesh.view.map Prod.fst
  phase : ∃ ph, PhaseOK sim N s ph

/-- The state `t` is a successor of the state `s`: an enabled event leads from
`s` to `t`. -/
def Proto.succ (sim : Simulation) (t s : Proto) : Prop :=
  ∃ e, s.enabled e = true ∧ t = s.step sim e

/-- The state that the adaptation cycle on the mesh `[root]` has reached after
the schedule `events`. -/
def Proto.reached (sim : Simulation) (root : CommBlock) (events : List PEvent) : Proto :=
  Proto.run sim events (Proto.init root)

/-- The event that a first-in-first-out scheduler takes next: the oldest depth
message, else the oldest control message, else the quiescence detector if a
callback is registered; none when nothing is left to do. -/
def Proto.next_event (s : Proto) : Option PEvent :=
  if s.mesh.inflight ≠ [] then some (PEvent.depth 0)
  else if s.ctl ≠ [] then some (PEvent.ctl 0)
  else if s.qd ≠ [] then some PEvent.quiesce
  else none

/-- The protocol under the first-in-first-out scheduler, for at most `fuel`
events. -/
def Proto.run_fifo (sim : Simulation) : Nat → Proto → Proto
  | 0, s => s
  | fuel + 1, s =>
    match s.next_event with
    | none => s
    | some e => Proto.run_fifo sim fuel (s.step sim e)

/-- The event that a last-in-first-out scheduler takes next: the newest
control message, else the newest depth message, else the quiescence detector
if a callback is registered; none when nothing is left to do. -/
def Proto.next_event_lifo (s : Proto) : Option PEvent :=
  if s.ctl ≠ [] then some (PEvent.ctl (s.ctl.length - 1))
  else if s.mesh.inflight ≠ [] then some (PEvent.depth (s.mesh.inflight.length - 1))
  else if s.qd ≠ [] then some PEvent.quiesce
  else none

/-- The protocol under the last-in-first-out scheduler, for at most `fuel`
events. -/
def Proto.run_lifo (sim : Simulation) : Nat → Proto → Proto
  | 0, s => s
  | fuel + 1, s =>
    match s.next_event_lifo with
    | none => s
    | some e => Proto.run_lifo sim fuel (s.step sim e)

/-! ## The protocol with block creations in flight -/

/-- Modelled from the spec: the state of the protocol when the insertion of a
new block is a message of its own (the Charm++ runtime is not part of the
sources at hand): the live blocks, the blocks whose creation has been
requested and not yet delivered, the depth messages and the control messages
in flight, and the callbacks registered with the quiescence detector. -/
structure Net where
  blocks : List CommBlock
  creating : List CommBlock
  inflight : List Msg
  ctl : List Ctl
  qd : List (Callback × Index)
  deriving DecidableEq, Repr

/-- The callback that a `CkStartQD` effect registers, if the effect is one. -/
def Effect.to_callback : Effect → Option (Callback × Index)
  | .startQD cb i => some (cb, i)
  | _ => none

/-- The control messages that a broadcast effect sends when `blocks` are the
live blocks, one message per block; no message for another effect. -/
def Effect.to_ctl (blocks : List CommBlock) : Effect → List Ctl
  | .bcast_p_print c => blocks.map (fun x => Ctl.p_print x.thisIndex c)
  | .bcast_p_adapt c => blocks.map (fun x => Ctl.p_adapt x.thisIndex c)
  | .bcast_p_refresh => blocks.map (fun x => Ctl.p_refresh x.thisIndex)
  | _ => []

/-- Modelled from the spec: the net after one effect of a block living in
cycle `cycle`.  A block creation puts the request for the fresh block in
flight, a `p_update_depth` send puts the message in flight, `CkStartQD`
registers the callback, and a broadcast puts one message per live block in
flight. -/
def Net.apply_effect (sim : Simulation) (cycle : Int) (s : Net) (e : Effect) : Net :=
  { blocks := s.blocks,
    creating := s.creating ++ (e.to_block sim cycle).toList,
    inflight := s.inflight ++ e.to_msg.toList,
    ctl := s.ctl ++ e.to_ctl s.blocks,
    qd := s.qd ++ e.to_callback.toList }

/-- The live block with index `i` runs the entry method `handler`: its new
state replaces the old one and its effects are applied in program order.
Nothing happens when no live block has index `i`. -/
def Net.run_handler (sim : Simulation) (s : Net) (i : Index)
    (handler : CommBlock → CommBlock × List Effect) : Net :=
  match s.blocks.find? (fun b => decide (b.thisIndex = i)) with
  | none => s
  | some b =>
    let r := handler b
    r.2.foldl (Net.apply_effect sim b.cycle_)
      { s with blocks := s.blocks.map (fun x => if x.thisIndex = i then r.1 else x) }

/-- What the scheduler may do next: deliver the `k`-th creation request, the
`k`-th depth message or the `k`-th control message, or let the quiescence
detector fire. -/
inductive NEvent where
  | create (k : Nat)
  | depth (k : Nat)
  | ctl (k : Nat)
  | quiesce
  deriving DecidableEq, Repr

/-- Modelled from the spec: one step of the protocol under the Charm++ runtime
(which is not part of the sources at hand).  The delivery of a creation
request makes the block live.  A message whose target is not live stays in
flight.  The quiescence detector fires only when no message of any kind is in
flight and a callback is registered, and then sends every registered
callback, once. -/
def Net.step (sim : Simulation) (s : Net) : NEvent → Net
  | .create k =>
    match s.creating[k]? with
    | none => s
    | some c => { s with blocks := s.blocks ++ [c], creating := s.creating.eraseIdx k }
  | .depth k =>
    match s.inflight[k]? with
    | none => s
    | some msg =>
      if (s.blocks.find? (fun b => decide (b.thisIndex = msg.target))).isSome then
        Net.run_handler sim { s with inflight := s.inflight.eraseIdx k } msg.target
          (fun b => p_update_depth b msg.ic msg.depth)
      else s
  | .ctl k =>
    match s.ctl[k]? with
    | none => s
    | some msg =>
      if (s.blocks.find? (fun b => decide (b.thisIndex = msg.target))).isSome then
        Net.run_handler sim { s with ctl := s.ctl.eraseIdx k } msg.target (msg.handler sim)
      else s
  | .quiesce =>
    if s.inflight = [] ∧ s.creating = [] ∧ s.ctl = [] ∧ s.qd ≠ [] then
      { s with ctl := s.qd.map callback_msg, qd := [] }
    else s

/-- The net after a finite schedule. -/
def Net.run (sim : Simulation) (events : List NEvent) (s : Net) : Net :=
  events.foldl (Net.step sim) s

/-- Modelled from the spec: the start of an adaptation cycle on the live
blocks `blocks`: the driver has called `p_adapt_enter` on the root, and
nothing else is in flight or registered. -/
def Net.start (blocks : List CommBlock) : Net :=
  { blocks := blocks, creating := [], inflight := [],
    ctl := [Ctl.p_adapt_enter Index.root], qd := [] }

/-- The state that the cycle on the live blocks `blocks` has reached after the
schedule `events`. -/
def Net.reached (sim : Simulation) (blocks : List CommBlock) (events : List NEvent) : Net :=
  Net.run sim events (Net.start blocks)

/-- A callback of the quiescence detector on its way to a block. -/
def Ctl.is_callback : Ctl → Bool
  | .q_adapt _ => true
  | .q_adapt_exit _ => true
  | _ => false

/-- A call of `p_adapt` or `p_adapt_enter` on its way to the root. -/
def Ctl.is_root_step (m : Ctl) : Bool :=
  m.is_step && decide (m.target = Index.root)

/-- The indices of the blocks of a list. -/
def indices (blocks : List CommBlock) : List Index :=
  blocks.map (fun b => b.thisIndex)

/-- The invariant of the protocol with creations in flight, whatever the mesh
the cycle starts on: exactly one live block is the root and no block in
creation is, and the net is either working (no callback is on its way to the
root, all calls of `p_adapt` in flight carry one argument, and the root has at
most one call to handle or callback registered) or at a barrier (nothing but
callbacks is in flight, at most one of them to the root, and no callback is
registered). -/
structure NetInv (s : Net) : Prop where
  root_live : (indices s.blocks).count Index.root = 1
  root_creating : ∀ c ∈ s.creating, c.thisIndex ≠ Index.root
  phase :
    ((∀ m ∈ s.ctl, m.is_callback = true → m.target ≠ Index.root) ∧
      (∀ i c j c2, Ctl.p_adapt i c ∈ s.ctl → Ctl.p_adapt j c2 ∈ s.ctl → c2 = c) ∧
      (s.ctl.filter Ctl.is_root_step).length + (s.qd.map Prod.snd).count Index.root ≤ 1) ∨
    (s.inflight = [] ∧ s.creating = [] ∧ s.qd = [] ∧
      (∀ m ∈ s.ctl, m.is_callback = true) ∧
      (s.ctl.map Ctl.target).count Index.root ≤ 1)

/-! ## A cycle on an arbitrary mesh -/

/-- Modelled from the spec: the start of an adaptation cycle on the mesh `m`:
the driver has called `p_adapt_enter` on the root, no callback is registered
and the records of the history are empty. -/
def Proto.start (m : Mesh) : Proto :=
  { mesh := m, ctl := [Ctl.p_adapt_enter Index.root], qd := [], broadcasts := [],
    refreshes := 0, barriers := [] }

/-- The block after the calls `p_update_depth(ic, depth)` of the sequence
`updates` (pairs of slot and depth), in the order of delivery. -/
def deliver_depths (b : CommBlock) (updates : List (Int × Int)) : CommBlock :=
  updates.foldl (fun x u => (p_update_depth x u.1 u.2).1) b

/-- The slot-wise maximum of the vector `init` and the depths delivered to
each slot, in the words of the specification: entry `j` is the largest of
`init[j]` and the depths of the updates of slot `j`. -/
def slotwise_max (init : List Int) (updates : List (Int × Int)) : List Int :=
  (List.range init.length).map (fun (j : Nat) =>
    ((updates.filter (fun u => decide (u.1 = (j : Int)))).map Prod.snd).foldl max
      (init.getD j 0))

/-! ## Concrete inputs -/

/-- A fresh root block: index `Index.root`, level 0, a depth vector of `nc`
zeros, the given counter. -/
def fresh_root (nc : Nat) (count_adapt : Int) : CommBlock :=
  { thisIndex := Index.root, level_ := 0, count_adapt_ := count_adapt,
    depth_ := List.replicate nc 0, cycle_ := 0, nx := 8, ny := 1, nz := 1 }

/-- A one-dimensional simulation whose single criterion always answers
`adapt_refine`. -/
def sim_always_refine : Simulation :=
  { dimension := 1, initial_cycle := 0, initial_max_level := 1,
    refine_list := [fun _ => adapt_refine] }

/-- A schedule on a one-dimensional mesh: the root enters and refines, its
child in slot 0 enters and refines, and the two depth messages that this child
sends to the root are delivered. -/
def schedule_two_levels : List Event :=
  [Event.enter Index.root, Event.enter { level := 1, tree := [(0, 0, 0)] },
   Event.deliver 1, Event.deliver 0]

/-- The root block at the end of `schedule_two_levels`. -/
def root_after_two_levels : CommBlock :=
  { thisIndex := Index.root, level_ := 0, count_adapt_ := 0, depth_ := [2, 1],
    cycle_ := 0, nx := 8, ny := 1, nz := 1 }

/-- The child in slot 0 of the root at the end of `schedule_two_levels`. -/
def child_after_two_levels : CommBlock :=
  { thisIndex := { level := 1, tree := [(0, 0, 0)] }, level_ := 1, count_adapt_ := 0,
    depth_ := [1, 1], cycle_ := 0, nx := 8, ny := 1, nz := 1 }

/-- A one-dimensional simulation whose single criterion answers 7, a value
that is no adapt code. -/
def sim_answers_seven : Simulation :=
  { dimension := 1, initial_cycle := 0, initial_max_level := 1,
    refine_list := [fun _ => 7] }

/-- A one-dimensional simulation whose single criterion always answers
`adapt_coarsen`. -/
def sim_always_coarsen : Simulation :=
  { dimension := 1, initial_cycle := 0, initial_max_level := 1,
    refine_list := [fun _ => adapt_coarsen] }

/-- A block of level 1 in slot 1 of the root of a one-dimensional mesh. -/
def level_one_block : CommBlock :=
  { thisIndex := { level := 1, tree := [(1, 0, 0)] }, level_ := 1, count_adapt_ := 0,
    depth_ := [0, 0], cycle_ := 0, nx := 8, ny := 1, nz := 1 }

/-- The scenario simulation: rank 2, `initial_max_level` 2, and the single
criterion that answers `adapt_refine` while the level is below 2 and
`adapt_same` otherwise. -/
def sim_scenario : Simulation :=
  { dimension := 2, initial_cycle := 0, initial_max_level := 2,
    refine_list := [fun b => if b.level_ < 2 then adapt_refine else adapt_same] }

/-- The fresh root of the scenario, in the initial cycle. -/
def root_scenario : CommBlock :=
  { thisIndex := Index.root, level_ := 0, count_adapt_ := 0,
    depth_ := List.replicate 4 0, cycle_ := 0, nx := 8, ny := 8, nz := 1 }

/-- The state in which the scenario ends under the first-in-first-out
scheduler. -/
def scenario_end : Proto :=
  Proto.run_fifo sim_scenario 120 (Proto.init root_scenario)

/-- The state in which the scenario ends under the last-in-first-out
scheduler. -/
def scenario_end_lifo : Proto :=
  Proto.run_lifo sim_scenario 120 (Proto.init root_scenario)

/-- A one-dimensional simulation with `initial_max_level` 3 whose criterion
asks for the refinement of the root, of its child in slot 0 and of the child
in slot 1 of that child, and of no other block. -/
def sim_unbalanced : Simulation :=
  { dimension := 1, initial_cycle := 0, initial_max_level := 3,
    refine_list :=
      [fun b =>
        if b.thisIndex.tree = [] ∨ b.thisIndex.tree = [(0, 0, 0)] ∨
            b.thisIndex.tree = [(0, 0, 0), (1, 0, 0)]
        then adapt_refine else adapt_same] }

/-- The state in which a cycle of `sim_unbalanced` on a fresh root ends. -/
def unbalanced_end : Proto :=
  Proto.run_fifo sim_unbalanced 120 (Proto.init (fresh_root 2 0))

/-- The leaf of level 1 in slot 1 of the root at the end of the cycle of
`sim_unbalanced`; it covers the right half of the domain. -/
def coarse_leaf : CommBlock :=
  { thisIndex := { level := 1, tree := [(1, 0, 0)] }, level_ := 1, count_adapt_ := -1,
    depth_ := [0, 0], cycle_ := 0, nx := 8, ny := 1, nz := 1 }

/-- The leaf of level 3 that touches `coarse_leaf` from the left at the end of
the cycle of `sim_unbalanced`. -/
def fine_leaf : CommBlock :=
  { thisIndex := { level := 3, tree := [(0, 0, 0), (1, 0, 0), (1, 0, 0)] }, level_ := 3,
    count_adapt_ := -1, depth_ := [0, 0], cycle_ := 0, nx := 8, ny := 1, nz := 1 }

theorem update_adapt_code (a1 a2 : AdaptAction) :
    update_adapt_ a1.code a2.code = (combine_spec a1 a2).code := by
  cases a1 <;> cases a2 <;> rfl

/-- C3: on the four adapt actions `update_adapt_` is the specified
combination table. -/
theorem update_adapt_eq_table (a1 a2 : AdaptAction) :
    update_adapt_ a1.code a2.code = (combine_spec a1 a2).code := by
  cases a1 <;> cases a2 <;> rfl

/-- C4: the combination of adapt actions is commutative. -/
theorem update_adapt_comm (a b : AdaptAction) :
    update_adapt_ a.code b.code = update_adapt_ b.code a.code := by
  cases a <;> cases b <;> rfl

theorem combine_spec_assoc (a b c : AdaptAction) :
    combine_spec (combine_spec a b) c = combine_spec a (combine_spec b c) := by
  cases a <;> cases b <;> cases c <;> rfl

theorem combine_spec_unknown_left (a : AdaptAction) : combine_spec .unknown a = a := by
  cases a <;> rfl

theorem combine_spec_unknown_right (a : AdaptAction) : combine_spec a .unknown = a := by
  cases a <;> rfl

theorem foldl_update_adapt_code (l : List AdaptAction) (a : AdaptAction) :
    (l.map AdaptAction.code).foldl update_adapt_ a.code
      = (l.foldl combine_spec a).code := by
  induction l generalizing a with
  | nil => rfl
  | cons x xs ih =>
    simp only [List.map_cons, List.foldl_cons, update_adapt_code]
    exact ih _

theorem foldl_combine_spec_eq (l : List AdaptAction) (a : AdaptAction) :
    l.foldl combine_spec a = combine_spec a (l.foldl combine_spec .unknown) := by
  induction l generalizing a with
  | nil => simp [combine_spec_unknown_right]
  | cons x xs ih =>
    simp only [List.foldl_cons]
    rw [ih (combine_spec a x), ih (combine_spec .unknown x), combine_spec_unknown_left,
      combine_spec_assoc]

theorem fold_adapt_eq (l : List AdaptAction) :
    fold_adapt l = (l.foldl combine_spec .unknown).code :=
  foldl_update_adapt_code l .unknown

/-- C5: the combination of adapt actions is associative, and therefore the
fold of a list of criteria results may be grouped at will: folding a
concatenation is combining the folds of the two parts. -/
theorem update_adapt_assoc :
    (∀ a b c : AdaptAction,
      update_adapt_ (update_adapt_ a.code b.code) c.code
        = update_adapt_ a.code (update_adapt_ b.code c.code)) ∧
    (∀ xs ys : List AdaptAction,
      fold_adapt (xs ++ ys) = update_adapt_ (fold_adapt xs) (fold_adapt ys)) := by
  refine ⟨?_, ?_⟩
  · intro a b c
    cases a <;> cases b <;> cases c <;> rfl
  · intro xs ys
    rw [fold_adapt_eq, fold_adapt_eq, fold_adapt_eq, update_adapt_code, List.foldl_append,
      foldl_combine_spec_eq ys]

/-! ## `is_leaf` and `determine_refine` -/

theorem foldl_and_eq_all (p : Nat → Bool) (l : List Nat) (init : Bool) :
    l.foldl (fun leaf ic => leaf && p ic) init = (init && l.all p) := by
  induction l generalizing init with
  | nil => simp
  | cons x xs ih => simp [List.foldl_cons, ih, Bool.and_assoc]

theorem is_leaf_iff_getD (sim : Simulation) (b : CommBlock) :
    is_leaf sim b = true ↔ ∀ ic, ic < NC sim.dimension → b.depth_.getD ic 0 = 0 := by
  unfold is_leaf
  simp only [foldl_and_eq_all, Bool.true_and, List.all_eq_true, List.mem_range, beq_iff_eq]

theorem NC_eq_pow (rank : Nat) (h : rank = 1 ∨ rank = 2 ∨ rank = 3) : NC rank = 2 ^ rank := by
  rcases h with h | h | h <;> subst h <;> rfl

/-- C9: for rank 1, 2 or 3 and a depth vector of `2^rank` slots, `is_leaf`
is true exactly when every slot holds 0.  (`is_leaf` is a `const` method: it
yields a truth value and no new block.) -/
theorem is_leaf_iff_all_zero (sim : Simulation) (b : CommBlock)
    (hrank : sim.dimension = 1 ∨ sim.dimension = 2 ∨ sim.dimension = 3)
    (hlen : b.depth_.length = 2 ^ sim.dimension) :
    is_leaf sim b = true ↔ ∀ ic, ic < 2 ^ sim.dimension → b.depth_[ic]? = some 0 := by
  rw [is_leaf_iff_getD, NC_eq_pow _ hrank]
  constructor
  · intro h ic hic
    have h1 := h ic hic
    have h2 : ic < b.depth_.length := by omega
    rw [List.getD_eq_getElem _ _ h2] at h1
    rw [List.getElem?_eq_getElem h2, h1]
  · intro h ic hic
    have h1 := h ic hic
    rw [List.getD_eq_getElem?_getD, h1]
    rfl

theorem determine_refine_loop_eq (sim : Simulation) (b : CommBlock) (fuel i : Nat)
    (adapt : Int) (es : List Effect)
    (hi : i ≤ sim.refine_list.length) (hfuel : sim.refine_list.length - i < fuel) :
    determine_refine_loop sim b fuel i adapt es
      = (((sim.refine_list.drop i).map (fun r => r b)).foldl update_adapt_ adapt,
         es ++ (List.range' i (sim.refine_list.length - i)).map Effect.apply) := by
  induction fuel generalizing i adapt es with
  | zero => omega
  | succ fuel ih =>
    unfold determine_refine_loop
    rcases Nat.lt_or_ge i sim.refine_list.length with hlt | hge
    · have hget : sim.refine i = some sim.refine_list[i] := by
        simp [Simulation.refine, List.getElem?_eq_getElem hlt]
      rw [hget]
      simp only
      rw [ih (i + 1) _ _ (by omega) (by omega)]
      have hdrop : sim.refine_list.drop i = sim.refine_list[i] :: sim.refine_list.drop (i + 1) :=
        List.drop_eq_getElem_cons hlt
      have hlen : sim.refine_list.length - i = (sim.refine_list.length - (i + 1)) + 1 := by
        omega
      rw [hdrop, hlen, List.range'_succ]
      simp only [List.map_cons, List.foldl_cons, List.append_assoc, List.singleton_append]
    · have hget : sim.refine i = none := by
        simp [Simulation.refine, List.getElem?_eq_none hge]
      rw [hget]
      have h0 : sim.refine_list.length - i = 0 := by omega
      simp [h0, List.drop_eq_nil_of_le hge]

theorem determine_refine_leaf (sim : Simulation) (b : CommBlock) (h : is_leaf sim b = true) :
    determine_refine sim b
      = ((sim.refine_list.map (fun r => r b)).foldl update_adapt_ adapt_unknown,
         Effect.determine_refine :: (List.range sim.refine_list.length).map Effect.apply) := by
  unfold determine_refine
  rw [if_pos h, determine_refine_loop_eq sim b _ 0 _ _ (Nat.zero_le _) (by omega)]
  simp [List.range_eq_range']

theorem determine_refine_not_leaf (sim : Simulation) (b : CommBlock)
    (h : is_leaf sim b = false) :
    determine_refine sim b = (adapt_same, [Effect.determine_refine]) := by
  unfold determine_refine
  rw [h]
  rfl

/-- C2: `determine_refine` is its reference definition: `adapt_same` without
applying any criterion when the block is not a leaf, and otherwise the left
fold of the results of all criteria with `update_adapt_` seeded with
`adapt_unknown`, each criterion being applied exactly once, in registration
order. -/
theorem determine_refine_eq_spec (sim : Simulation) (b : CommBlock) :
    (determine_refine sim b).1
        = determine_refine_spec (is_leaf sim b) (sim.refine_list.map (fun r => r b)) ∧
    (determine_refine sim b).2
        = Effect.determine_refine ::
            (if is_leaf sim b then (List.range sim.refine_list.length).map Effect.apply
             else []) := by
  unfold determine_refine_spec
  by_cases h : is_leaf sim b = true
  · rw [determine_refine_leaf sim b h, h]
    exact ⟨rfl, rfl⟩
  · rw [Bool.not_eq_true] at h
    rw [determine_refine_not_leaf sim b h, h]
    exact ⟨rfl, rfl⟩

/-! ## `p_update_depth` -/

theorem p_update_depth_eq (b : CommBlock) (ic : Nat) (depth : Int) :
    p_update_depth b (ic : Int) depth
      = ({ b with depth_ := depth_max b.depth_ ic depth }, forward_effects b depth) := by
  unfold p_update_depth forward_effects parent_index own_slot depth_max
  by_cases h : b.level_ > 0 <;> simp [h]

theorem getD_depth_max (l : List Int) (ic j : Nat) (d : Int) :
    (depth_max l ic d).getD j 0
      = if ic = j ∧ j < l.length then max (l.getD j 0) d else l.getD j 0 := by
  unfold depth_max
  simp only [List.getD_eq_getElem?_getD, List.getElem?_set]
  by_cases h : ic = j
  · subst h
    by_cases h2 : ic < l.length
    · simp [h2]
    · simp [h2, List.getElem?_eq_none (Nat.le_of_not_lt h2)]
  · simp [h]

theorem length_depth_max (l : List Int) (ic : Nat) (d : Int) :
    (depth_max l ic d).length = l.length := by
  simp [depth_max]

theorem refine_body_eq (nx ny nz nfb : Int) (testing : Bool) (st : CommBlock × List Effect)
    (ic : Nat) :
    refine_body nx ny nz nfb testing st ic
      = ({ st.1 with depth_ := depth_max st.1.depth_ ic 1 },
         st.2 ++ (Effect.create_block (refine_child_index st.1 ic) nx ny nz (st.1.level_ + 1)
            nfb st.1.count_adapt_ testing :: forward_effects st.1 1)) := by
  unfold refine_body
  simp only [p_update_depth_eq]
  simp [refine_child_index, child_selector]

/-- The effects of one iteration of the loop of `refine`. -/
theorem refine_fold_eq (nx ny nz nfb : Int) (testing : Bool) (l : List Nat)
    (b : CommBlock) (es : List Effect) :
    l.foldl (refine_body nx ny nz nfb testing) (b, es)
      = ({ b with depth_ := l.foldl (fun d ic => depth_max d ic 1) b.depth_ },
         es ++ l.flatMap (fun ic =>
            Effect.create_block (refine_child_index b ic) nx ny nz (b.level_ + 1)
              nfb b.count_adapt_ testing :: forward_effects b 1)) := by
  induction l generalizing b es with
  | nil => simp
  | cons x xs ih =>
    simp only [List.foldl_cons, refine_body_eq]
    rw [ih]
    simp [refine_child_index, forward_effects, parent_index, own_slot]

theorem refine_eq (sim : Simulation) (b : CommBlock) :
    refine sim b
      = ({ b with
            depth_ := (List.range (NC sim.dimension)).foldl (fun d ic => depth_max d ic 1)
              b.depth_ },
         Effect.refine :: (List.range (NC sim.dimension)).flatMap (fun ic =>
            Effect.create_block (refine_child_index b ic) b.nx b.ny b.nz (b.level_ + 1)
              1 b.count_adapt_ false :: forward_effects b 1)) := by
  unfold refine
  simp only [refine_fold_eq]
  rfl

theorem getD_foldl_depth_max (n : Nat) (l : List Int) (j : Nat) :
    ((List.range n).foldl (fun d ic => depth_max d ic 1) l).getD j 0
      = if j < n ∧ j < l.length then max (l.getD j 0) 1 else l.getD j 0 := by
  induction n with
  | zero => simp
  | succ n ih =>
    rw [List.range_succ, List.foldl_append]
    simp only [List.foldl_cons, List.foldl_nil]
    rw [getD_depth_max, ih]
    have hlen : ((List.range n).foldl (fun d ic => depth_max d ic 1) l).length = l.length := by
      clear ih
      induction n with
      | zero => simp
      | succ m ihm =>
        rw [List.range_succ, List.foldl_append]
        simp only [List.foldl_cons, List.foldl_nil, length_depth_max, ihm]
    rw [hlen]
    by_cases h1 : n = j
    · subst h1
      by_cases h2 : n < l.length <;> simp [h2]
    · by_cases h2 : j < n
      · have : j < n + 1 := by omega
        simp [h1, h2, this]
      · have : ¬ j < n + 1 := by omega
        simp [h1, h2, this]

theorem length_foldl_depth_max (n : Nat) (l : List Int) :
    ((List.range n).foldl (fun d ic => depth_max d ic 1) l).length = l.length := by
  induction n with
  | zero => simp
  | succ m ihm =>
    rw [List.range_succ, List.foldl_append]
    simp only [List.foldl_cons, List.foldl_nil, length_depth_max, ihm]

/-- C6: after `refine()` on a leaf block (rank 1, 2 or 3, depth vector of
`2^rank` slots) every depth slot holds 1 and `is_leaf()` is false. -/
theorem refine_leaf_depth (sim : Simulation) (b : CommBlock)
    (hrank : sim.dimension = 1 ∨ sim.dimension = 2 ∨ sim.dimension = 3)
    (hlen : b.depth_.length = 2 ^ sim.dimension)
    (hleaf : is_leaf sim b = true) :
    (∀ ic, ic < 2 ^ sim.dimension → (refine sim b).1.depth_[ic]? = some 1) ∧
    is_leaf sim (refine sim b).1 = false := by
  have hnc := NC_eq_pow _ hrank
  have hget : ∀ ic, ic < 2 ^ sim.dimension → (refine sim b).1.depth_.getD ic 0 = 1 := by
    intro ic hic
    rw [refine_eq]
    simp only
    rw [getD_foldl_depth_max, hnc]
    have h0 := (is_leaf_iff_getD sim b).1 hleaf ic (by omega)
    rw [if_pos ⟨hic, by omega⟩, h0]
    rfl
  constructor
  · intro ic hic
    have h1 := hget ic hic
    have h2 : ic < (refine sim b).1.depth_.length := by
      rw [refine_eq]
      simp only
      rw [length_foldl_depth_max]
      omega
    rw [List.getD_eq_getElem _ _ h2] at h1
    rw [List.getElem?_eq_getElem h2, h1]
  · rw [Bool.eq_false_iff]
    intro hl
    have h1 := (is_leaf_iff_getD sim _).1 hl 0 (by rw [hnc]; exact Nat.two_pow_pos _)
    have h2 := hget 0 (Nat.two_pow_pos _)
    omega

/-- Witness of C6: a fresh root of rank 2. -/
theorem refine_leaf_depth_witness :
    (refine { dimension := 2, initial_cycle := 0, initial_max_level := 2, refine_list := [] }
        { thisIndex := Index.root, level_ := 0, count_adapt_ := 1, depth_ := [0, 0, 0, 0],
          cycle_ := 0, nx := 4, ny := 4, nz := 1 }).1.depth_[3]? = some 1 :=
  (refine_leaf_depth
    { dimension := 2, initial_cycle := 0, initial_max_level := 2, refine_list := [] }
    { thisIndex := Index.root, level_ := 0, count_adapt_ := 1, depth_ := [0, 0, 0, 0],
      cycle_ := 0, nx := 4, ny := 4, nz := 1 }
    (by decide) (by decide) (by decide)).1 3 (by decide)

theorem filter_create_block_flatMap (f : Nat → Effect) (g : Nat → List Effect)
    (hf : ∀ ic, (f ic).is_create_block = true)
    (hg : ∀ ic, ∀ e ∈ g ic, e.is_create_block = false) (l : List Nat) :
    (l.flatMap (fun ic => f ic :: g ic)).filter Effect.is_create_block = l.map f := by
  induction l with
  | nil => rfl
  | cons x xs ih =>
    rw [List.flatMap_cons, List.filter_append, ih, List.filter_cons, if_pos (hf x)]
    have : (g x).filter Effect.is_create_block = [] := by
      rw [List.filter_eq_nil_iff]
      intro e he
      simp [hg x e he]
    rw [this]
    rfl

theorem forward_effects_not_create (b : CommBlock) (d : Int) :
    ∀ e ∈ forward_effects b d, e.is_create_block = false := by
  intro e he
  unfold forward_effects at he
  split at he
  · simp only [List.mem_singleton] at he
    subst he
    rfl
  · simp at he

theorem refine_child_index_level (b : CommBlock) (ic : Nat) :
    (refine_child_index b ic).level = b.level_ + 1 := rfl

theorem refine_child_index_child (b : CommBlock) (ic : Nat) :
    (refine_child_index b ic).child (b.level_ + 1) = child_selector ic := by
  unfold refine_child_index Index.child Index.clean Index.set_tree Index.set_level
  simp only [Nat.add_sub_cancel, List.getD_eq_getElem?_getD]
  have hlen : b.level_ < (b.thisIndex.tree
      ++ List.replicate (b.level_ + 1 - b.thisIndex.tree.length) ((0 : Int), (0 : Int), (0 : Int))).length := by
    simp only [List.length_append, List.length_replicate]
    omega
  rw [List.getElem?_take_of_lt (Nat.lt_succ_self _),
    List.getElem?_append_left (by rw [List.length_set]; exact hlen),
    List.getElem?_set_self hlen]
  rfl

theorem child_selector_injective (i j : Nat) (hi : i < 8) (hj : j < 8)
    (h : child_selector i = child_selector j) : i = j := by
  interval_cases i <;> interval_cases j <;> first | rfl | (exact absurd h (by decide))

/-- C7: `refine()` on a block at level `level_` with counter `count_adapt_`
issues exactly `2^rank` `create_block` requests, for the slots
`0 .. 2^rank-1` in increasing order; the request for slot `ic` carries the size
`(nx,ny,nz)` of the block, level `level_+1`, the counter `count_adapt_`, and
an index of level `level_+1` whose selector at tree level `level_+1` is
`(ic & 1, (ic & 2) >> 1, (ic & 4) >> 2)`; these selectors are pairwise
distinct. -/
theorem refine_create_blocks (sim : Simulation) (b : CommBlock)
    (hrank : sim.dimension = 1 ∨ sim.dimension = 2 ∨ sim.dimension = 3) :
    (refine sim b).2.filter Effect.is_create_block
      = (List.range (2 ^ sim.dimension)).map (fun ic =>
          Effect.create_block (refine_child_index b ic) b.nx b.ny b.nz (b.level_ + 1) 1
            b.count_adapt_ false) ∧
    (∀ ic, (refine_child_index b ic).level = b.level_ + 1 ∧
      (refine_child_index b ic).child (b.level_ + 1) = child_selector ic) ∧
    (∀ i j, i < 2 ^ sim.dimension → j < 2 ^ sim.dimension →
      child_selector i = child_selector j → i = j) := by
  have hnc := NC_eq_pow _ hrank
  have h8 : 2 ^ sim.dimension ≤ 8 := by
    rcases hrank with h | h | h <;> rw [h] <;> decide
  refine ⟨?_, fun ic => ⟨refine_child_index_level b ic, refine_child_index_child b ic⟩, ?_⟩
  · rw [refine_eq, hnc]
    simp only
    rw [List.filter_cons]
    have : Effect.is_create_block Effect.refine = false := rfl
    rw [this]
    simp only [Bool.false_eq_true, if_false]
    exact filter_create_block_flatMap
      (fun ic => Effect.create_block (refine_child_index b ic) b.nx b.ny b.nz (b.level_ + 1) 1
        b.count_adapt_ false)
      (fun _ => forward_effects b 1) (fun _ => rfl)
      (fun _ => forward_effects_not_create b 1) _
  · intro i j hi hj h
    exact child_selector_injective i j (by omega) (by omega) h

/-- Witness of C7: the root of a one-dimensional mesh requests its two
children. -/
theorem refine_create_blocks_witness :
    (refine { dimension := 1, initial_cycle := 0, initial_max_level := 2, refine_list := [] }
        { thisIndex := Index.root, level_ := 0, count_adapt_ := 1, depth_ := [0, 0],
          cycle_ := 0, nx := 8, ny := 1, nz := 1 }).2.filter Effect.is_create_block
      = [Effect.create_block { level := 1, tree := [(0, 0, 0)] } 8 1 1 1 1 1 false,
         Effect.create_block { level := 1, tree := [(1, 0, 0)] } 8 1 1 1 1 1 false] :=
  (refine_create_blocks
    { dimension := 1, initial_cycle := 0, initial_max_level := 2, refine_list := [] }
    { thisIndex := Index.root, level_ := 0, count_adapt_ := 1, depth_ := [0, 0],
      cycle_ := 0, nx := 8, ny := 1, nz := 1 } (by decide)).1

/-! ## `p_adapt` -/

theorem countP_cons_of_forall (p : Effect → Bool) (x : Effect) (rest : List Effect)
    (h : ∀ e ∈ rest, p e = false) :
    (x :: rest).countP p = if p x then 1 else 0 := by
  have h0 : rest.countP p = 0 := by
    rw [List.countP_eq_zero]
    intro a ha
    simp [h a ha]
  rw [List.countP_cons, h0]
  simp

theorem determine_refine_effects (sim : Simulation) (b : CommBlock) :
    ∃ rest, (determine_refine sim b).2 = Effect.determine_refine :: rest ∧
      ∀ e ∈ rest, e.is_apply = true := by
  by_cases h : is_leaf sim b = true
  · rw [determine_refine_leaf sim b h]
    refine ⟨_, rfl, ?_⟩
    intro e he
    simp only [List.mem_map] at he
    obtain ⟨i, _, rfl⟩ := he
    rfl
  · rw [Bool.not_eq_true] at h
    rw [determine_refine_not_leaf sim b h]
    exact ⟨[], rfl, by simp⟩

theorem refine_effects (sim : Simulation) (b : CommBlock) :
    ∃ rest, (refine sim b).2 = Effect.refine :: rest ∧
      ∀ e ∈ rest, e.is_refine_output = true := by
  refine ⟨_, by rw [refine_eq], ?_⟩
  intro e he
  simp only [List.mem_flatMap, List.mem_cons] at he
  obtain ⟨ic, _, h | h⟩ := he
  · subst h
    rfl
  · unfold forward_effects at h
    split at h
    · simp only [List.mem_singleton] at h
      subst h
      rfl
    · simp at h

theorem refine_fst (sim : Simulation) (b : CommBlock) :
    (refine sim b).1 = { b with depth_ := (refine sim b).1.depth_ } := by
  rw [refine_eq]

/-- The result of `p_adapt` when the stored counter is positive. -/
theorem p_adapt_pos (sim : Simulation) (count : Int) (b : CommBlock)
    (h : 0 < b.count_adapt_) :
    p_adapt sim count b
      = (if (determine_refine sim { b with count_adapt_ := b.count_adapt_ - 1 }).1 = adapt_refine
          then (refine sim { b with count_adapt_ := b.count_adapt_ - 1 }).1
          else { b with count_adapt_ := b.count_adapt_ - 1 },
         (determine_refine sim { b with count_adapt_ := b.count_adapt_ - 1 }).2
          ++ (if (determine_refine sim { b with count_adapt_ := b.count_adapt_ - 1 }).1
                = adapt_refine
              then (refine sim { b with count_adapt_ := b.count_adapt_ - 1 }).2
              else if (determine_refine sim { b with count_adapt_ := b.count_adapt_ - 1 }).1
                = adapt_coarsen
              then [Effect.coarsen] else [])
          ++ [Effect.startQD Callback.q_adapt b.thisIndex]) := by
  unfold p_adapt
  simp only [gt_iff_lt, h, if_true]
  by_cases h1 : (determine_refine sim { b with count_adapt_ := b.count_adapt_ - 1 }).1
      = adapt_refine
  · simp only [h1, if_true]
    rw [refine_fst]
  · simp only [h1, if_false]
    by_cases h2 : (determine_refine sim { b with count_adapt_ := b.count_adapt_ - 1 }).1
        = adapt_coarsen
    · simp [h2, coarsen]
    · simp [h2]

/-- The result of `p_adapt` when the stored counter is not positive. -/
theorem p_adapt_nonpos (sim : Simulation) (count : Int) (b : CommBlock)
    (h : b.count_adapt_ ≤ 0) :
    p_adapt sim count b
      = ({ b with count_adapt_ := b.count_adapt_ - 1 },
         [Effect.startQD Callback.q_adapt_exit b.thisIndex]) := by
  unfold p_adapt
  have : ¬ b.count_adapt_ > 0 := by omega
  simp only [this, if_false]

theorem p_adapt_counts (sim : Simulation) (count : Int) (b : CommBlock)
    (h : 0 < b.count_adapt_) (p : Effect → Bool)
    (happly : ∀ e, e.is_apply = true → p e = false)
    (hout : ∀ e, e.is_refine_output = true → p e = false) :
    (p_adapt sim count b).2.countP p
      = (if p Effect.determine_refine then 1 else 0)
        + (if (determine_refine sim { b with count_adapt_ := b.count_adapt_ - 1 }).1
              = adapt_refine
           then (if p Effect.refine then 1 else 0)
           else if (determine_refine sim { b with count_adapt_ := b.count_adapt_ - 1 }).1
              = adapt_coarsen
           then (if p Effect.coarsen then 1 else 0) else 0)
        + (if p (Effect.startQD Callback.q_adapt b.thisIndex) then 1 else 0) := by
  rw [p_adapt_pos sim count b h]
  simp only [List.countP_append]
  obtain ⟨r1, hr1, hr1p⟩ := determine_refine_effects sim
    { b with count_adapt_ := b.count_adapt_ - 1 }
  obtain ⟨r2, hr2, hr2p⟩ := refine_effects sim { b with count_adapt_ := b.count_adapt_ - 1 }
  rw [hr1, countP_cons_of_forall p _ r1 (fun e he => happly e (hr1p e he))]
  congr 1
  · congr 1
    split
    · rw [hr2, countP_cons_of_forall p _ r2 (fun e he => hout e (hr2p e he))]
    · split
      · exact countP_cons_of_forall p _ [] (by simp)
      · rfl
  · exact countP_cons_of_forall p _ [] (by simp)

/-- C1: on a block whose stored counter is `n`, `p_adapt(n)` with `n > 0`
leaves the counter at `n-1`, enters `determine_refine` exactly once, calls
`refine` exactly when the result is `adapt_refine` and `coarsen` exactly when
it is `adapt_coarsen`, registers exactly one `q_adapt` callback and no
`q_adapt_exit` callback: the block afterwards is the result of `refine()`,
resp. `coarsen()`, on the block with the decremented counter, or that block
itself when neither is called, and the effects are those of the one call of
`determine_refine()`, then those of the call of `refine()` or `coarsen()` if
any, then the registration of `q_adapt`.  With `n = 0` its only effect is the
registration of one `q_adapt_exit` callback (no criteria, no `refine`, no
`coarsen`, no `q_adapt`), and only the counter of the block changes. -/
theorem p_adapt_contract (sim : Simulation) (b : CommBlock) (n : Int)
    (hn : b.count_adapt_ = n) :
    (0 < n →
      (p_adapt sim n b).1.count_adapt_ = n - 1 ∧
      (p_adapt sim n b).2.count Effect.determine_refine = 1 ∧
      (p_adapt sim n b).2.count Effect.refine
        = (if (determine_refine sim { b with count_adapt_ := n - 1 }).1 = adapt_refine
           then 1 else 0) ∧
      (p_adapt sim n b).2.count Effect.coarsen
        = (if (determine_refine sim { b with count_adapt_ := n - 1 }).1 = adapt_coarsen
           then 1 else 0) ∧
      (p_adapt sim n b).2.countP (Effect.is_startQD Callback.q_adapt) = 1 ∧
      (p_adapt sim n b).2.countP (Effect.is_startQD Callback.q_adapt_exit) = 0 ∧
      (p_adapt sim n b).1
        = (if (determine_refine sim { b with count_adapt_ := n - 1 }).1 = adapt_refine
           then (refine sim { b with count_adapt_ := n - 1 }).1
           else if (determine_refine sim { b with count_adapt_ := n - 1 }).1 = adapt_coarsen
           then (coarsen { b with count_adapt_ := n - 1 }).1
           else { b with count_adapt_ := n - 1 }) ∧
      (p_adapt sim n b).2
        = (determine_refine sim { b with count_adapt_ := n - 1 }).2
          ++ (if (determine_refine sim { b with count_adapt_ := n - 1 }).1 = adapt_refine
              then (refine sim { b with count_adapt_ := n - 1 }).2
              else if (determine_refine sim { b with count_adapt_ := n - 1 }).1
                = adapt_coarsen
              then (coarsen { b with count_adapt_ := n - 1 }).2
              else [])
          ++ [Effect.startQD Callback.q_adapt b.thisIndex]) ∧
    (n = 0 →
      (p_adapt sim n b).2 = [Effect.startQD Callback.q_adapt_exit b.thisIndex] ∧
      (p_adapt sim n b).1 = { b with count_adapt_ := n - 1 }) := by
  subst hn
  constructor
  · intro h
    refine ⟨?_, ?_, ?_, ?_, ?_, ?_, ?_, ?_⟩
    · rw [p_adapt_pos sim _ b h]
      simp only
      split
      · rw [refine_fst]
      · rfl
    · unfold List.count
      rw [p_adapt_counts sim _ b h _ (by intro e he; cases e <;> simp_all [Effect.is_apply])
        (by intro e he; cases e <;> simp_all [Effect.is_refine_output])]
      generalize (determine_refine sim { b with count_adapt_ := b.count_adapt_ - 1 }).1 = D
      by_cases h1 : D = adapt_refine <;> by_cases h2 : D = adapt_coarsen <;>
        simp_all [Effect.is_startQD, adapt_refine, adapt_coarsen]
    · unfold List.count
      rw [p_adapt_counts sim _ b h _ (by intro e he; cases e <;> simp_all [Effect.is_apply])
        (by intro e he; cases e <;> simp_all [Effect.is_refine_output])]
      generalize (determine_refine sim { b with count_adapt_ := b.count_adapt_ - 1 }).1 = D
      by_cases h1 : D = adapt_refine <;> by_cases h2 : D = adapt_coarsen <;>
        simp_all [Effect.is_startQD, adapt_refine, adapt_coarsen]
    · unfold List.count
      rw [p_adapt_counts sim _ b h _ (by intro e he; cases e <;> simp_all [Effect.is_apply])
        (by intro e he; cases e <;> simp_all [Effect.is_refine_output])]
      generalize (determine_refine sim { b with count_adapt_ := b.count_adapt_ - 1 }).1 = D
      by_cases h1 : D = adapt_refine <;> by_cases h2 : D = adapt_coarsen <;>
        simp_all [Effect.is_startQD, adapt_refine, adapt_coarsen]
    · rw [p_adapt_counts sim _ b h _
        (by intro e he; cases e <;> simp_all [Effect.is_apply, Effect.is_startQD])
        (by intro e he; cases e <;> simp_all [Effect.is_refine_output, Effect.is_startQD])]
      generalize (determine_refine sim { b with count_adapt_ := b.count_adapt_ - 1 }).1 = D
      by_cases h1 : D = adapt_refine <;> by_cases h2 : D = adapt_coarsen <;>
        simp_all [Effect.is_startQD, adapt_refine, adapt_coarsen]
    · rw [p_adapt_counts sim _ b h _
        (by intro e he; cases e <;> simp_all [Effect.is_apply, Effect.is_startQD])
        (by intro e he; cases e <;> simp_all [Effect.is_refine_output, Effect.is_startQD])]
      generalize (determine_refine sim { b with count_adapt_ := b.count_adapt_ - 1 }).1 = D
      by_cases h1 : D = adapt_refine <;> by_cases h2 : D = adapt_coarsen <;>
        simp_all [Effect.is_startQD, adapt_refine, adapt_coarsen]
    · rw [p_adapt_pos sim _ b h]
      simp only
      by_cases h1 : (determine_refine sim { b with count_adapt_ := b.count_adapt_ - 1 }).1
          = adapt_refine
      · rw [if_pos h1, if_pos h1]
      · rw [if_neg h1, if_neg h1]
        by_cases h2 : (determine_refine sim { b with count_adapt_ := b.count_adapt_ - 1 }).1
            = adapt_coarsen
        · rw [if_pos h2]
          rfl
        · rw [if_neg h2]
    · rw [p_adapt_pos sim _ b h]
      simp only
      by_cases h1 : (determine_refine sim { b with count_adapt_ := b.count_adapt_ - 1 }).1
          = adapt_refine
      · rw [if_pos h1, if_pos h1]
      · rw [if_neg h1, if_neg h1]
        by_cases h2 : (determine_refine sim { b with count_adapt_ := b.count_adapt_ - 1 }).1
            = adapt_coarsen
        · rw [if_pos h2, if_pos h2]
          rfl
        · rw [if_neg h2, if_neg h2]
  · intro h
    rw [p_adapt_nonpos sim _ b (by omega)]
    exact ⟨rfl, rfl⟩

/-- Witness of C1: a fresh root with one criterion that asks for refinement,
stepped with counter 1 (it refines: both depth slots become 1 and the two
children are requested) and with counter 0. -/
theorem p_adapt_contract_witness :
    ((p_adapt sim_always_refine 1 (fresh_root 2 1)).1.count_adapt_ = 1 - 1) ∧
    ((p_adapt sim_always_refine 1 (fresh_root 2 1)).1
      = (refine sim_always_refine { fresh_root 2 1 with count_adapt_ := 1 - 1 }).1) ∧
    ((p_adapt sim_always_refine 1 (fresh_root 2 1)).1.depth_ = [1, 1]) ∧
    ((p_adapt sim_always_refine 1 (fresh_root 2 1)).2.countP Effect.is_create_block = 2) ∧
    ((p_adapt sim_always_refine 0 (fresh_root 2 0)).2
      = [Effect.startQD Callback.q_adapt_exit Index.root]) :=
  ⟨((p_adapt_contract sim_always_refine (fresh_root 2 1) 1 rfl).1 (by decide)).1,
   ((p_adapt_contract sim_always_refine (fresh_root 2 1) 1 rfl).1
      (by decide)).2.2.2.2.2.2.1.trans (by decide),
   by decide, by decide,
   ((p_adapt_contract sim_always_refine (fresh_root 2 0) 0 rfl).2 rfl).1⟩

/-- Witness of C9: a rank-1 block with depth vector `[0, 0]` is a leaf. -/
theorem is_leaf_iff_all_zero_witness :
    is_leaf { dimension := 1, initial_cycle := 0, initial_max_level := 1, refine_list := [] }
        { thisIndex := Index.root, level_ := 0, count_adapt_ := 1, depth_ := [0, 0],
          cycle_ := 0, nx := 8, ny := 1, nz := 1 } = true :=
  (is_leaf_iff_all_zero
    { dimension := 1, initial_cycle := 0, initial_max_level := 1, refine_list := [] }
    { thisIndex := Index.root, level_ := 0, count_adapt_ := 1, depth_ := [0, 0],
      cycle_ := 0, nx := 8, ny := 1, nz := 1 } (by decide) (by decide)).2
    (by decide)

/-! ## Index algebra -/

theorem refine_child_index_eq (b : CommBlock) (s : Nat)
    (h1 : b.thisIndex.level = b.level_) (h2 : b.thisIndex.tree.length = b.level_) :
    refine_child_index b s = b.thisIndex.child_of (child_selector s) := by
  unfold refine_child_index Index.clean Index.set_tree Index.set_level Index.child_of
  have e1 : b.level_ + 1 - b.thisIndex.tree.length = 1 := by omega
  simp only [e1, Nat.add_sub_cancel, h1]
  have e2 : (b.thisIndex.tree ++ List.replicate 1 ((0 : Int), (0 : Int), (0 : Int))).set b.level_
      (child_selector s) = b.thisIndex.tree ++ [child_selector s] := by
    rw [List.set_append, if_neg (by omega)]
    simp [h2]
  rw [e2]
  have e3 : b.level_ + 1 - (b.thisIndex.tree ++ [child_selector s]).length = 0 := by
    simp [h2]
  rw [e3]
  simp only [List.replicate_zero, List.append_nil]
  congr 1
  exact List.take_of_length_le (by simp [h2])

theorem refine_child_index_congr (b b1 : CommBlock) (s : Nat)
    (h1 : b1.thisIndex = b.thisIndex) (h2 : b1.level_ = b.level_) :
    refine_child_index b1 s = refine_child_index b s := by
  unfold refine_child_index
  rw [h1, h2]

theorem IC_child_selector (s : Nat) (hs : s < 8) :
    IC (child_selector s).1 (child_selector s).2.1 (child_selector s).2.2 = (s : Int) := by
  interval_cases s <;> rfl

theorem child_of_injective (i j : Index) (a c : Int × Int × Int)
    (h : i.child_of a = j.child_of c) : i = j ∧ a = c := by
  unfold Index.child_of at h
  simp only [Index.mk.injEq] at h
  obtain ⟨h1, h2⟩ := h
  have h3 := List.append_inj' h2 rfl
  cases i
  cases j
  simp only [Index.mk.injEq]
  simp_all

theorem NC_le_eight (rank : Nat) : NC rank ≤ 8 := by
  unfold NC
  split <;> [skip; split] <;> omega

theorem NC_pos (rank : Nat) : 0 < NC rank := by
  unfold NC
  split <;> [skip; split] <;> omega

/-- Two child indices built by `refine` coincide only for the same parent
index and the same slot. -/
theorem refine_child_index_injective (sim : Simulation) (p q : CommBlock) (s t : Nat)
    (hp : p.wf sim) (hq : q.wf sim) (hs : s < NC sim.dimension) (ht : t < NC sim.dimension)
    (h : refine_child_index p s = refine_child_index q t) :
    p.thisIndex = q.thisIndex ∧ s = t := by
  rw [refine_child_index_eq p s hp.1 hp.2.1, refine_child_index_eq q t hq.1 hq.2.1] at h
  have h1 := child_of_injective _ _ _ _ h
  have h8 := NC_le_eight sim.dimension
  exact ⟨h1.1, child_selector_injective s t (by omega) (by omega) h1.2⟩

/-- A well-formed block in slot `s` of a well-formed block `p` computes the
index of `p` as its parent and `s` as its own slot. -/
theorem parent_of_child (sim : Simulation) (p c : CommBlock) (s : Nat)
    (hp : p.wf sim) (hc : c.wf sim) (hs : s < NC sim.dimension)
    (h : c.thisIndex = refine_child_index p s) :
    c.level_ = p.level_ + 1 ∧ parent_index c = p.thisIndex ∧ own_slot c = (s : Int) := by
  rw [refine_child_index_eq p s hp.1 hp.2.1] at h
  have hl : c.level_ = p.level_ + 1 := by
    rw [← hc.1, h]
    simp [Index.child_of, hp.1]
  have h8 := NC_le_eight sim.dimension
  refine ⟨hl, ?_, ?_⟩
  · unfold parent_index Index.clean Index.set_level
    rw [h, hl]
    simp only [Index.child_of, Nat.add_sub_cancel]
    have : p.level_ - (p.thisIndex.tree ++ [child_selector s]).length = 0 := by
      simp [hp.2.1]
    rw [this]
    simp only [List.replicate_zero, List.append_nil]
    rw [List.take_append_of_le_length (by rw [hp.2.1]), List.take_of_length_le (by rw [hp.2.1])]
    cases hpi : p.thisIndex
    simp [← hp.1, hpi]
  · unfold own_slot Index.child
    rw [h, hl]
    simp only [Index.child_of, Nat.add_sub_cancel]
    have : (p.thisIndex.tree ++ [child_selector s]).getD p.level_ ((0 : Int), (0 : Int), (0 : Int))
        = child_selector s := by
      rw [List.getD_eq_getElem?_getD, List.getElem?_append_right (by rw [hp.2.1])]
      simp [hp.2.1]
    rw [this]
    exact IC_child_selector s (by omega)

theorem child_index_ne_self (sim : Simulation) (p : CommBlock) (s : Nat) (hp : p.wf sim) :
    refine_child_index p s ≠ p.thisIndex := by
  intro h
  have := congrArg Index.level h
  rw [refine_child_index_level, hp.1] at this
  omega

/-! ## Preservation of the mesh invariant -/

theorem getD_replicate_zero (n t : Nat) : (List.replicate n (0 : Int)).getD t 0 = 0 := by
  rw [List.getD_eq_getElem?_getD]
  by_cases h : t < n
  · rw [List.getElem?_eq_getElem (by simpa using h)]
    simp
  · rw [List.getElem?_eq_none (by simpa using h)]
    rfl

/-- The classification of parent and child pairs after a block `b` has been
replaced by `b1` and the blocks `kids` have been inserted: the pair stems from
a pair of the old mesh, or it is `b1` with one of `kids`. -/
theorem Mesh.Inv.classify (sim : Simulation) (m m1 : Mesh) (b b1 : CommBlock)
    (kids : List CommBlock)
    (hInv : m.Inv sim) (hb : b ∈ m.blocks)
    (hidx : b1.thisIndex = b.thisIndex) (hlvl : b1.level_ = b.level_)
    (hlen : b1.depth_.length = b.depth_.length)
    (hblocks : ∀ x, x ∈ m1.blocks ↔
      (x ∈ m.blocks ∧ x.thisIndex ≠ b.thisIndex) ∨ x = b1 ∨ x ∈ kids)
    (hkids : ∀ k ∈ kids, ∃ s, s < NC sim.dimension ∧ b.depth_.getD s 0 = 0 ∧
      b1.depth_.getD s 0 = 1 ∧ k.thisIndex = refine_child_index b s ∧
      k.level_ = b.level_ + 1 ∧ k.depth_ = List.replicate (NC sim.dimension) 0) :
    ∀ y ∈ m1.blocks, ∀ c ∈ m1.blocks, ∀ s, s < NC sim.dimension →
      c.thisIndex = refine_child_index y s →
      (∃ y0 ∈ m.blocks, ∃ c0 ∈ m.blocks, c0.thisIndex = refine_child_index y0 s ∧
        ((y = y0 ∧ y0.thisIndex ≠ b.thisIndex) ∨ (y0 = b ∧ y = b1)) ∧
        ((c = c0 ∧ c0.thisIndex ≠ b.thisIndex) ∨ (c0 = b ∧ c = b1))) ∨
      (y = b1 ∧ c ∈ kids) := by
  have hbwf := hInv.wf b hb
  have hb1wf : b1.wf sim :=
    ⟨by rw [hidx, hlvl]; exact hbwf.1, by rw [hidx, hlvl]; exact hbwf.2.1,
     by rw [hlen]; exact hbwf.2.2⟩
  have hkwf : ∀ k ∈ kids, k.wf sim := by
    intro k hk
    obtain ⟨s, _, _, _, hki, hkl, hkd⟩ := hkids k hk
    rw [refine_child_index_eq b s hbwf.1 hbwf.2.1] at hki
    refine ⟨?_, ?_, ?_⟩
    · rw [hki, hkl]
      simp [Index.child_of, hbwf.1]
    · rw [hki, hkl]
      simp [Index.child_of, hbwf.2.1]
    · rw [hkd]
      simp
  have F1 : ∀ x ∈ m.blocks, ∀ k ∈ kids, x.thisIndex ≠ k.thisIndex := by
    intro x hx k hk h
    obtain ⟨s, hs, h0, _, hki, _⟩ := hkids k hk
    exact hInv.zero_no_child b hb s hs h0 x hx (h.trans hki)
  have F2 : ∀ k ∈ kids, k.thisIndex ≠ b.thisIndex := by
    intro k hk h
    obtain ⟨s, _, _, _, hki, _⟩ := hkids k hk
    exact child_index_ne_self sim b s hbwf (hki.symm.trans h)
  intro y hy c hc s hs h
  rcases (hblocks y).1 hy with ⟨hy0, hyn⟩ | hyb | hyk <;>
    rcases (hblocks c).1 hc with ⟨hc0, hcn⟩ | hcb | hck
  · exact Or.inl ⟨y, hy0, c, hc0, h, Or.inl ⟨rfl, hyn⟩, Or.inl ⟨rfl, hcn⟩⟩
  · rw [hcb, hidx] at h
    exact Or.inl ⟨y, hy0, b, hb, h, Or.inl ⟨rfl, hyn⟩, Or.inr ⟨rfl, hcb⟩⟩
  · exfalso
    obtain ⟨t, ht, _, _, hki, _⟩ := hkids c hck
    have := refine_child_index_injective sim b y t s hbwf (hInv.wf y hy0) ht hs
      (hki.symm.trans h)
    exact hyn this.1.symm
  · rw [hyb, refine_child_index_congr b b1 s hidx hlvl] at h
    exact Or.inl ⟨b, hb, c, hc0, h, Or.inr ⟨rfl, hyb⟩, Or.inl ⟨rfl, hcn⟩⟩
  · exfalso
    rw [hyb, hcb] at h
    exact child_index_ne_self sim b1 s hb1wf h.symm
  · exact Or.inr ⟨hyb, hck⟩
  · exfalso
    have hywf := hkwf y hyk
    have hcwf := hInv.wf c hc0
    have hcl : 0 < c.level_ := by
      have := congrArg Index.level h
      rw [refine_child_index_level, hcwf.1] at this
      omega
    obtain ⟨p, hp, s2, hs2, hcp⟩ := hInv.parent c hc0 hcl
    have := refine_child_index_injective sim p y s2 s (hInv.wf p hp) hywf hs2 hs
      (hcp.symm.trans h)
    exact F1 p hp y hyk this.1
  · exfalso
    rw [hcb] at h
    obtain ⟨t, _, _, _, _, hkl, _⟩ := hkids y hyk
    have := congrArg Index.level h
    rw [refine_child_index_level, hb1wf.1] at this
    omega
  · exfalso
    obtain ⟨t, ht, _, _, hki, _⟩ := hkids c hck
    have := refine_child_index_injective sim b y t s hbwf (hkwf y hyk) ht hs
      (hki.symm.trans h)
    exact F2 y hyk this.1.symm

/-- The invariant survives every transition in which one block `b` raises
some of its depth slots (each raise justified by a child), possibly inserts
fresh children in slots that held 0, and notifies its parent of every raise. -/
theorem Mesh.Inv.raise (sim : Simulation) (m m1 : Mesh) (b b1 : CommBlock)
    (kids : List CommBlock)
    (hInv : m.Inv sim) (hb : b ∈ m.blocks)
    (hidx : b1.thisIndex = b.thisIndex) (hlvl : b1.level_ = b.level_)
    (hlen : b1.depth_.length = b.depth_.length)
    (hmono : ∀ s, s < NC sim.dimension → b.depth_.getD s 0 ≤ b1.depth_.getD s 0)
    (hblocks : ∀ x, x ∈ m1.blocks ↔
      (x ∈ m.blocks ∧ x.thisIndex ≠ b.thisIndex) ∨ x = b1 ∨ x ∈ kids)
    (hkids : ∀ k ∈ kids, ∃ s, s < NC sim.dimension ∧ b.depth_.getD s 0 = 0 ∧
      b1.depth_.getD s 0 = 1 ∧ k.thisIndex = refine_child_index b s ∧
      k.level_ = b.level_ + 1 ∧ k.depth_ = List.replicate (NC sim.dimension) 0)
    (hkids_uniq : ∀ k1 ∈ kids, ∀ k2 ∈ kids, k1.thisIndex = k2.thisIndex → k1 = k2)
    (hjust : ∀ s, s < NC sim.dimension → b1.depth_.getD s 0 ≠ b.depth_.getD s 0 →
      (∃ k ∈ kids, k.thisIndex = refine_child_index b s) ∨
      (∃ c ∈ m.blocks, c.thisIndex = refine_child_index b s ∧
        ∃ t, t < NC sim.dimension ∧ b1.depth_.getD s 0 ≤ 1 + c.depth_.getD t 0))
    (hnew : ∀ msg ∈ m1.inflight, msg ∈ m.inflight ∨
      (0 < b.level_ ∧ msg.target = parent_index b ∧ msg.ic = own_slot b ∧
        ∃ t, t < NC sim.dimension ∧ msg.depth ≤ 1 + b1.depth_.getD t 0))
    (hold : ∀ msg ∈ m.inflight, msg ∈ m1.inflight ∨
      (msg.target = b.thisIndex ∧
        ∃ s, s < NC sim.dimension ∧ msg.ic = (s : Int) ∧ msg.depth ≤ b1.depth_.getD s 0))
    (hfwd : 0 < b.level_ → ∀ t, t < NC sim.dimension →
      b1.depth_.getD t 0 ≠ b.depth_.getD t 0 →
      ∃ msg ∈ m1.inflight, msg.target = parent_index b ∧ msg.ic = own_slot b ∧
        b1.depth_.getD t 0 + 1 ≤ msg.depth) :
    m1.Inv sim := by
  have hbwf := hInv.wf b hb
  have hb1wf : b1.wf sim :=
    ⟨by rw [hidx, hlvl]; exact hbwf.1, by rw [hidx, hlvl]; exact hbwf.2.1,
     by rw [hlen]; exact hbwf.2.2⟩
  have hrci : ∀ s, refine_child_index b1 s = refine_child_index b s :=
    fun s => refine_child_index_congr b b1 s hidx hlvl
  have hkwf : ∀ k ∈ kids, k.wf sim := by
    intro k hk
    obtain ⟨s, _, _, _, hki, hkl, hkd⟩ := hkids k hk
    rw [refine_child_index_eq b s hbwf.1 hbwf.2.1] at hki
    refine ⟨?_, ?_, ?_⟩
    · rw [hki, hkl]
      simp [Index.child_of, hbwf.1]
    · rw [hki, hkl]
      simp [Index.child_of, hbwf.2.1]
    · rw [hkd]
      simp
  have F1 : ∀ x ∈ m.blocks, ∀ k ∈ kids, x.thisIndex ≠ k.thisIndex := by
    intro x hx k hk h
    obtain ⟨s, hs, h0, _, hki, _⟩ := hkids k hk
    exact hInv.zero_no_child b hb s hs h0 x hx (h.trans hki)
  have F2 : ∀ k ∈ kids, k.thisIndex ≠ b.thisIndex := by
    intro k hk h
    obtain ⟨s, _, _, _, hki, _⟩ := hkids k hk
    exact child_index_ne_self sim b s hbwf (hki.symm.trans h)
  have hb1m : b1 ∈ m1.blocks := (hblocks b1).2 (Or.inr (Or.inl rfl))
  have P3 : ∀ x ∈ m.blocks, ∃ x1 ∈ m1.blocks, x1.thisIndex = x.thisIndex ∧
      x1.level_ = x.level_ ∧
      (∀ t, t < NC sim.dimension → x.depth_.getD t 0 ≤ x1.depth_.getD t 0) := by
    intro x hx
    by_cases h : x.thisIndex = b.thisIndex
    · have := hInv.uniq x hx b hb h
      rw [this]
      exact ⟨b1, hb1m, hidx, hlvl, hmono⟩
    · exact ⟨x, (hblocks x).2 (Or.inl ⟨hx, h⟩), rfl, rfl, fun _ _ => le_refl _⟩
  have CH := Mesh.Inv.classify sim m m1 b b1 kids hInv hb hidx hlvl hlen hblocks hkids
  -- a kid in slot `s` of `b` forces `b1.depth_[s] = 1`
  have hkid1 : ∀ k ∈ kids, ∀ s, s < NC sim.dimension → k.thisIndex = refine_child_index b s →
      b1.depth_.getD s 0 = 1 ∧ ∀ t, k.depth_.getD t 0 = 0 := by
    intro k hk s hs h
    obtain ⟨s2, hs2, _, h1, hki, _, hkd⟩ := hkids k hk
    have := refine_child_index_injective sim b b s2 s hbwf hbwf hs2 hs (hki.symm.trans h)
    rw [← this.2]
    refine ⟨h1, fun t => ?_⟩
    rw [hkd]
    exact getD_replicate_zero _ _
  -- depth comparison between a block of the new mesh and its origin
  have hdep : ∀ y y0 : CommBlock, ((y = y0 ∧ y0.thisIndex ≠ b.thisIndex) ∨ (y0 = b ∧ y = b1)) →
      ∀ t, t < NC sim.dimension → y0.depth_.getD t 0 ≤ y.depth_.getD t 0 := by
    intro y y0 h t ht
    rcases h with ⟨h, _⟩ | ⟨h1, h2⟩
    · rw [h]
    · rw [h1, h2]
      exact hmono t ht
  have hsame : ∀ y y0 : CommBlock, ((y = y0 ∧ y0.thisIndex ≠ b.thisIndex) ∨ (y0 = b ∧ y = b1)) →
      y.thisIndex = y0.thisIndex := by
    intro y y0 h
    rcases h with ⟨h, _⟩ | ⟨h1, h2⟩
    · rw [h]
    · rw [h1, h2]
      exact hidx
  refine ⟨?_, ?_, ?_, ?_, ?_, ?_, ?_, ?_, ?_⟩
  · -- wf
    intro x hx
    rcases (hblocks x).1 hx with ⟨hx0, _⟩ | hxb | hxk
    · exact hInv.wf x hx0
    · rw [hxb]
      exact hb1wf
    · exact hkwf x hxk
  · -- uniq
    intro x hx y hy h
    rcases (hblocks x).1 hx with ⟨hx0, hxn⟩ | hxb | hxk <;>
      rcases (hblocks y).1 hy with ⟨hy0, hyn⟩ | hyb | hyk
    · exact hInv.uniq x hx0 y hy0 h
    · exact absurd (by rw [h, hyb, hidx]) hxn
    · exact absurd h (F1 x hx0 y hyk)
    · exact absurd (by rw [← h, hxb, hidx]) hyn
    · rw [hxb, hyb]
    · exact absurd (by rw [← h, hxb, hidx]) (F2 y hyk)
    · exact absurd h.symm (F1 y hy0 x hxk)
    · exact absurd (by rw [h, hyb, hidx]) (F2 x hxk)
    · exact hkids_uniq x hxk y hyk h
  · -- parent
    intro c hc hcl
    rcases (hblocks c).1 hc with ⟨hc0, _⟩ | hcb | hck
    · obtain ⟨p, hp, s, hs, hcp⟩ := hInv.parent c hc0 hcl
      obtain ⟨p1, hp1, hpi, hpl, _⟩ := P3 p hp
      exact ⟨p1, hp1, s, hs, by rw [refine_child_index_congr p p1 s hpi hpl]; exact hcp⟩
    · rw [hcb, hlvl] at hcl
      obtain ⟨p, hp, s, hs, hcp⟩ := hInv.parent b hb hcl
      obtain ⟨p1, hp1, hpi, hpl, _⟩ := P3 p hp
      exact ⟨p1, hp1, s, hs, by
        rw [refine_child_index_congr p p1 s hpi hpl, hcb, hidx]; exact hcp⟩
    · obtain ⟨s, hs, _, _, hki, _⟩ := hkids c hck
      exact ⟨b1, hb1m, s, hs, by rw [hrci]; exact hki⟩
  · -- nonneg
    intro x hx s hs
    rcases (hblocks x).1 hx with ⟨hx0, _⟩ | hxb | hxk
    · exact hInv.nonneg x hx0 s hs
    · rw [hxb]
      exact le_trans (hInv.nonneg b hb s hs) (hmono s hs)
    · obtain ⟨_, _, _, _, _, _, hkd⟩ := hkids x hxk
      rw [hkd, getD_replicate_zero]
  · -- zero_no_child
    intro y hy s hs h0 c hc hcy
    rcases CH y hy c hc s hs hcy with ⟨y0, hy0, c0, hc0, hcy0, hyy, _⟩ | ⟨hyb, hck⟩
    · have h1 := hdep y y0 hyy s hs
      have h2 := hInv.nonneg y0 hy0 s hs
      exact hInv.zero_no_child y0 hy0 s hs (by omega) c0 hc0 hcy0
    · rw [hyb, hrci] at hcy
      have := (hkid1 c hck s hs hcy).1
      rw [hyb] at h0
      omega
  · -- pos_child
    intro y hy s hs hne
    rcases (hblocks y).1 hy with ⟨hy0, _⟩ | hyb | hyk
    · obtain ⟨c, hc, hcy⟩ := hInv.pos_child y hy0 s hs hne
      obtain ⟨c1, hc1, hci, _, _⟩ := P3 c hc
      exact ⟨c1, hc1, hci.trans hcy⟩
    · rw [hyb] at hne ⊢
      rw [hrci]
      by_cases hch : b1.depth_.getD s 0 = b.depth_.getD s 0
      · obtain ⟨c, hc, hcy⟩ := hInv.pos_child b hb s hs (by rw [← hch]; exact hne)
        obtain ⟨c1, hc1, hci, _, _⟩ := P3 c hc
        exact ⟨c1, hc1, hci.trans hcy⟩
      · rcases hjust s hs hch with ⟨k, hk, hki⟩ | ⟨c, hc, hcy, _⟩
        · exact ⟨k, (hblocks k).2 (Or.inr (Or.inr hk)), hki⟩
        · obtain ⟨c1, hc1, hci, _, _⟩ := P3 c hc
          exact ⟨c1, hc1, hci.trans hcy⟩
    · exfalso
      obtain ⟨_, _, _, _, _, _, hkd⟩ := hkids y hyk
      rw [hkd, getD_replicate_zero] at hne
      exact hne rfl
  · -- upper
    intro y hy s hs c hc hcy
    rcases CH y hy c hc s hs hcy with ⟨y0, hy0, c0, hc0, hcy0, hyy, hcc⟩ | ⟨hyb, hck⟩
    · obtain ⟨t, ht, hle⟩ := hInv.upper y0 hy0 s hs c0 hc0 hcy0
      have hc1 := hdep c c0 hcc
      rcases hyy with ⟨hyy, _⟩ | ⟨hyb0, hyb1⟩
      · rw [hyy]
        exact ⟨t, ht, by have := hc1 t ht; omega⟩
      · rw [hyb1]
        rw [hyb0] at hle hcy0
        by_cases hch : b1.depth_.getD s 0 = b.depth_.getD s 0
        · exact ⟨t, ht, by have := hc1 t ht; omega⟩
        · rcases hjust s hs hch with ⟨k, hk, hki⟩ | ⟨c2, hc2, hcy2, t2, ht2, hle2⟩
          · exact absurd (hcy0.trans hki.symm) (F1 c0 hc0 k hk)
          · have := hInv.uniq c2 hc2 c0 hc0 (hcy2.trans hcy0.symm)
            rw [this] at hle2
            exact ⟨t2, ht2, by have := hc1 t2 ht2; omega⟩
    · rw [hyb, hrci] at hcy
      have := hkid1 c hck s hs hcy
      rw [hyb]
      exact ⟨0, NC_pos _, by rw [this.1, this.2 0]; decide⟩
  · -- lower
    intro y hy s hs c hc hcy t ht
    rcases CH y hy c hc s hs hcy with ⟨y0, hy0, c0, hc0, hcy0, hyy, hcc⟩ | ⟨hyb, hck⟩
    · have hy1 := hdep y y0 hyy s hs
      have hyi := hsame y y0 hyy
      -- the case where the depth of the child at `t` has not changed
      have hunch : c.depth_.getD t 0 = c0.depth_.getD t 0 →
          c.depth_.getD t 0 + 1 ≤ y.depth_.getD s 0 ∨
          ∃ msg ∈ m1.inflight, msg.target = y.thisIndex ∧ msg.ic = (s : Int) ∧
            c.depth_.getD t 0 + 1 ≤ msg.depth := by
        intro he
        rcases hInv.lower y0 hy0 s hs c0 hc0 hcy0 t ht with hl | ⟨msg, hmsg, hmt, hmi, hmd⟩
        · exact Or.inl (by omega)
        · rcases hold msg hmsg with hin | ⟨hmt2, s2, hs2, hmi2, hmd2⟩
          · exact Or.inr ⟨msg, hin, by rw [hmt, hyi], hmi, by omega⟩
          · have hs2s : s2 = s := by omega
            rw [hs2s] at hmd2
            rcases hyy with ⟨_, hyn⟩ | ⟨_, hyb1⟩
            · exact absurd (hmt.symm.trans hmt2) hyn
            · rw [hyb1]
              exact Or.inl (by omega)
      rcases hcc with ⟨hcc, _⟩ | ⟨hcb0, hcb1⟩
      · exact hunch (by rw [hcc])
      · by_cases hch : b1.depth_.getD t 0 = b.depth_.getD t 0
        · exact hunch (by rw [hcb1, hcb0, hch])
        · rw [hcb0] at hcy0
          have hpc := parent_of_child sim y0 b s (hInv.wf y0 hy0) hbwf hs hcy0
          obtain ⟨msg, hmsg, hmt, hmi, hmd⟩ := hfwd (by omega) t ht hch
          exact Or.inr ⟨msg, hmsg, by rw [hmt, hpc.2.1, hyi], by rw [hmi, hpc.2.2],
            by rw [hcb1]; exact hmd⟩
    · rw [hyb, hrci] at hcy
      have := hkid1 c hck s hs hcy
      rw [hyb]
      exact Or.inl (by rw [this.1, this.2 t]; decide)
  · -- msgs
    intro msg hmsg
    rcases hnew msg hmsg with hin | ⟨hl, hmt, hmi, t, ht, hmd⟩
    · obtain ⟨y, hy, hyt, s, hs, hmi, c, hc, hcy, t, ht, hmd⟩ := hInv.msgs msg hin
      obtain ⟨y1, hy1, hyi, hyl, _⟩ := P3 y hy
      obtain ⟨c1, hc1, hci, _, hcd⟩ := P3 c hc
      exact ⟨y1, hy1, hyi.trans hyt, s, hs, hmi, c1, hc1,
        by rw [refine_child_index_congr y y1 s hyi hyl]; exact hci.trans hcy,
        t, ht, by have := hcd t ht; omega⟩
    · obtain ⟨p, hp, s, hs, hbp⟩ := hInv.parent b hb hl
      have hpc := parent_of_child sim p b s (hInv.wf p hp) hbwf hs hbp
      obtain ⟨p1, hp1, hpi, hpl, _⟩ := P3 p hp
      exact ⟨p1, hp1, by rw [hpi, hmt, hpc.2.1], s, hs, by rw [hmi, hpc.2.2], b1, hb1m,
        by rw [refine_child_index_congr p p1 s hpi hpl, hidx]; exact hbp, t, ht, hmd⟩

/-! ## Outcomes of the handlers on the mesh -/

theorem foldl_apply_effect (sim : Simulation) (cycle : Int) (es : List Effect) (m : Mesh) :
    es.foldl (apply_effect sim cycle) m
      = { blocks := m.blocks ++ es.filterMap (Effect.to_block sim cycle),
          inflight := m.inflight ++ es.filterMap Effect.to_msg } := by
  induction es generalizing m with
  | nil => simp
  | cons e es ih =>
    rw [List.foldl_cons, ih]
    unfold apply_effect
    cases h1 : e.to_block sim cycle <;> cases h2 : e.to_msg <;>
      simp [List.filterMap_cons, h1, h2]

theorem mem_map_replace (l : List CommBlock) (i : Index) (b b1 x : CommBlock)
    (hb : b ∈ l) (hi : b.thisIndex = i) :
    x ∈ l.map (fun y => if y.thisIndex = i then b1 else y)
      ↔ (x ∈ l ∧ x.thisIndex ≠ i) ∨ x = b1 := by
  rw [List.mem_map]
  constructor
  · rintro ⟨y, hy, hx⟩
    by_cases h : y.thisIndex = i
    · rw [if_pos h] at hx
      exact Or.inr hx.symm
    · rw [if_neg h] at hx
      rw [← hx]
      exact Or.inl ⟨hy, h⟩
  · rintro (⟨hx, hn⟩ | hx)
    · exact ⟨x, hx, if_neg hn⟩
    · exact ⟨b, hb, by rw [if_pos hi, hx]⟩

theorem mem_forward_effects (b : CommBlock) (d : Int) (e : Effect) :
    e ∈ forward_effects b d
      ↔ 0 < b.level_ ∧ e = Effect.p_update_depth (parent_index b) (own_slot b) (d + 1) := by
  unfold forward_effects
  by_cases h : b.level_ > 0
  · simp [h]
  · simp [h]

theorem to_block_refine_output (sim : Simulation) (cycle : Int) (e : Effect) (k : CommBlock)
    (h : e.to_block sim cycle = some k) : e.is_refine_output = true := by
  cases e <;> simp_all [Effect.to_block, Effect.is_refine_output]

theorem to_msg_refine_output (e : Effect) (msg : Msg)
    (h : e.to_msg = some msg) : e.is_refine_output = true := by
  cases e <;> simp_all [Effect.to_msg, Effect.is_refine_output]

/-- What `p_adapt` can do to the mesh: nothing (no block creation, no depth
message, same depth vector), or the refinement of a leaf. -/
theorem p_adapt_outcome (sim : Simulation) (n : Int) (b : CommBlock) :
    ((p_adapt sim n b).1.thisIndex = b.thisIndex ∧ (p_adapt sim n b).1.level_ = b.level_ ∧
      (p_adapt sim n b).1.depth_ = b.depth_ ∧
      ∀ e ∈ (p_adapt sim n b).2, e.is_refine_output = false) ∨
    (is_leaf sim b = true ∧
      (p_adapt sim n b).1.thisIndex = b.thisIndex ∧ (p_adapt sim n b).1.level_ = b.level_ ∧
      (p_adapt sim n b).1.depth_
        = (List.range (NC sim.dimension)).foldl (fun d ic => depth_max d ic 1) b.depth_ ∧
      (∀ e ∈ (p_adapt sim n b).2, e.is_refine_output = true →
        (∃ ic, ic < NC sim.dimension ∧
          e = Effect.create_block (refine_child_index b ic) b.nx b.ny b.nz (b.level_ + 1) 1
            (b.count_adapt_ - 1) false) ∨
        e ∈ forward_effects b 1) ∧
      (∀ ic, ic < NC sim.dimension →
        Effect.create_block (refine_child_index b ic) b.nx b.ny b.nz (b.level_ + 1) 1
          (b.count_adapt_ - 1) false ∈ (p_adapt sim n b).2) ∧
      (∀ e ∈ forward_effects b 1, e ∈ (p_adapt sim n b).2)) := by
  by_cases hc : 0 < b.count_adapt_
  · rw [p_adapt_pos sim n b hc]
    obtain ⟨r1, hr1, hr1p⟩ := determine_refine_effects sim
      { b with count_adapt_ := b.count_adapt_ - 1 }
    have hdet : ∀ e ∈ (determine_refine sim { b with count_adapt_ := b.count_adapt_ - 1 }).2,
        e.is_refine_output = false := by
      intro e he
      rw [hr1, List.mem_cons] at he
      rcases he with he | he
      · rw [he]
        rfl
      · have := hr1p e he
        cases e <;> simp_all [Effect.is_apply, Effect.is_refine_output]
    by_cases h1 : (determine_refine sim { b with count_adapt_ := b.count_adapt_ - 1 }).1
        = adapt_refine
    · right
      simp only [h1, if_true]
      have hleaf : is_leaf sim b = true := by
        by_contra hl
        have hl2 : is_leaf sim { b with count_adapt_ := b.count_adapt_ - 1 } = false := by
          rw [Bool.not_eq_true] at hl
          exact hl
        rw [determine_refine_not_leaf sim _ hl2] at h1
        exact absurd h1 (by decide)
      rw [refine_eq]
      refine ⟨hleaf, rfl, rfl, rfl, ?_, ?_, ?_⟩
      · intro e he hout
        simp only [List.mem_append, List.mem_cons, List.mem_flatMap, List.mem_range,
          List.mem_singleton, List.not_mem_nil, or_false] at he
        rcases he with (he | he | ⟨ic, hic, he | he⟩) | he
        · rw [hdet e he] at hout
          exact absurd hout (by decide)
        · rw [he] at hout
          exact absurd hout (by decide)
        · exact Or.inl ⟨ic, hic, he⟩
        · exact Or.inr he
        · rw [he] at hout
          simp [Effect.is_refine_output] at hout
      · intro ic hic
        simp only [List.mem_append, List.mem_cons, List.mem_flatMap, List.mem_range]
        exact Or.inl (Or.inr (Or.inr ⟨ic, hic, Or.inl rfl⟩))
      · intro e he
        simp only [List.mem_append, List.mem_cons, List.mem_flatMap, List.mem_range]
        exact Or.inl (Or.inr (Or.inr ⟨0, NC_pos _, Or.inr he⟩))
    · left
      rw [if_neg h1, if_neg h1]
      refine ⟨rfl, rfl, rfl, ?_⟩
      intro e he
      simp only [List.mem_append, List.mem_singleton] at he
      rcases he with (he | he) | he
      · exact hdet e he
      · split at he
        · simp only [List.mem_singleton] at he
          rw [he]
          rfl
        · simp at he
      · rw [he]
        rfl
  · rw [p_adapt_nonpos sim n b (by omega)]
    left
    refine ⟨rfl, rfl, rfl, ?_⟩
    intro e he
    simp only [List.mem_singleton] at he
    rw [he]
    rfl

theorem to_block_none_of_not_output (sim : Simulation) (cycle : Int) (e : Effect)
    (h : e.is_refine_output = false) : e.to_block sim cycle = none := by
  cases e <;> simp_all [Effect.to_block, Effect.is_refine_output]

theorem to_msg_none_of_not_output (e : Effect)
    (h : e.is_refine_output = false) : e.to_msg = none := by
  cases e <;> simp_all [Effect.to_msg, Effect.is_refine_output]

theorem parent_index_congr (b b1 : CommBlock)
    (h1 : b1.thisIndex = b.thisIndex) (h2 : b1.level_ = b.level_) :
    parent_index b1 = parent_index b ∧ own_slot b1 = own_slot b := by
  unfold parent_index own_slot
  rw [h1, h2]
  exact ⟨rfl, rfl⟩

/-- The invariant survives a block running `p_adapt`, also after a change of
its counter. -/
theorem Mesh.Inv.run_p_adapt (sim : Simulation) (m : Mesh) (i : Index)
    (g : CommBlock → CommBlock) (n : CommBlock → Int)
    (hg : ∀ b, (g b).thisIndex = b.thisIndex ∧ (g b).level_ = b.level_ ∧
      (g b).depth_ = b.depth_)
    (hInv : m.Inv sim) :
    (m.run_handler sim i (fun b => p_adapt sim (n b) (g b))).Inv sim := by
  unfold Mesh.run_handler
  cases hf : m.blocks.find? (fun b => decide (b.thisIndex = i)) with
  | none => exact hInv
  | some b =>
    have hb := List.mem_of_find?_eq_some hf
    have hbi : b.thisIndex = i := by simpa using List.find?_some hf
    have hbwf := hInv.wf b hb
    obtain ⟨hg1, hg2, hg3⟩ := hg b
    simp only
    rw [foldl_apply_effect]
    rcases p_adapt_outcome sim (n b) (g b) with
      ⟨h1, h2, h3, h4⟩ | ⟨hleaf, h1, h2, h3, h4, h5, h6⟩
    · -- nothing happens to the mesh
      have hk : (p_adapt sim (n b) (g b)).2.filterMap (Effect.to_block sim b.cycle_) = [] := by
        rw [List.filterMap_eq_nil_iff]
        exact fun e he => to_block_none_of_not_output sim _ e (h4 e he)
      have hm : (p_adapt sim (n b) (g b)).2.filterMap Effect.to_msg = [] := by
        rw [List.filterMap_eq_nil_iff]
        exact fun e he => to_msg_none_of_not_output e (h4 e he)
      rw [hk, hm]
      simp only [List.append_nil]
      refine Mesh.Inv.raise sim m _ b (p_adapt sim (n b) (g b)).1 [] hInv hb
        (h1.trans hg1) (h2.trans hg2) (by rw [h3, hg3]) (fun s _ => by rw [h3, hg3])
        ?_ (by simp) (by simp) (fun s _ hne => absurd (by rw [h3, hg3]) hne)
        (fun msg hmsg => Or.inl hmsg) (fun msg hmsg => Or.inl hmsg)
        (fun _ t _ hne => absurd (by rw [h3, hg3]) hne)
      intro x
      simp only [List.not_mem_nil, or_false]
      rw [hbi]
      exact mem_map_replace m.blocks i b _ x hb hbi
    · -- a leaf refines
      have hzero : ∀ s, s < NC sim.dimension → b.depth_.getD s 0 = 0 := by
        intro s hs
        rw [← hg3]
        exact (is_leaf_iff_getD sim (g b)).1 hleaf s hs
      have hone : ∀ s, s < NC sim.dimension →
          (p_adapt sim (n b) (g b)).1.depth_.getD s 0 = 1 := by
        intro s hs
        rw [h3, getD_foldl_depth_max, if_pos ⟨hs, by rw [hg3, hbwf.2.2]; exact hs⟩, hg3,
          hzero s hs]
        rfl
      have hrci : ∀ s, refine_child_index (g b) s = refine_child_index b s :=
        fun s => refine_child_index_congr b (g b) s hg1 hg2
      have hpar := parent_index_congr b (g b) hg1 hg2
      -- the blocks that are created
      have hkid : ∀ k, k ∈ (p_adapt sim (n b) (g b)).2.filterMap (Effect.to_block sim b.cycle_) ↔
          ∃ ic, ic < NC sim.dimension ∧
            k = fresh_block sim b.cycle_ (refine_child_index b ic) (g b).nx (g b).ny (g b).nz
              (b.level_ + 1) ((g b).count_adapt_ - 1) := by
        intro k
        rw [List.mem_filterMap]
        constructor
        · rintro ⟨e, he, hek⟩
          rcases h4 e he (to_block_refine_output sim _ e k hek) with ⟨ic, hic, hec⟩ | hef
          · rw [hec] at hek
            simp only [Effect.to_block, Option.some.injEq] at hek
            exact ⟨ic, hic, by rw [← hek, hrci, hg2]⟩
          · rw [mem_forward_effects] at hef
            rw [hef.2] at hek
            simp [Effect.to_block] at hek
        · rintro ⟨ic, hic, hk⟩
          refine ⟨_, h5 ic hic, ?_⟩
          simp only [Effect.to_block]
          rw [hk, hrci, hg2]
      -- the messages that are sent
      have hmsg : ∀ msg, msg ∈ (p_adapt sim (n b) (g b)).2.filterMap Effect.to_msg ↔
          0 < b.level_ ∧
            msg = { target := parent_index b, ic := own_slot b, depth := 1 + 1 } := by
        intro msg
        rw [List.mem_filterMap]
        constructor
        · rintro ⟨e, he, hem⟩
          rcases h4 e he (to_msg_refine_output e msg hem) with ⟨ic, hic, hec⟩ | hef
          · rw [hec] at hem
            simp [Effect.to_msg] at hem
          · rw [mem_forward_effects] at hef
            rw [hef.2] at hem
            simp only [Effect.to_msg, Option.some.injEq] at hem
            rw [hg2] at hef
            exact ⟨hef.1, by rw [← hem, hpar.1, hpar.2]⟩
        · rintro ⟨hl, hm⟩
          refine ⟨Effect.p_update_depth (parent_index (g b)) (own_slot (g b)) (1 + 1),
            h6 _ ((mem_forward_effects _ _ _).2 ⟨by rw [hg2]; exact hl, rfl⟩), ?_⟩
          simp only [Effect.to_msg]
          rw [hm, hpar.1, hpar.2]
      refine Mesh.Inv.raise sim m _ b (p_adapt sim (n b) (g b)).1
        ((p_adapt sim (n b) (g b)).2.filterMap (Effect.to_block sim b.cycle_)) hInv hb
        (h1.trans hg1) (h2.trans hg2)
        (by rw [h3, length_foldl_depth_max, hg3])
        (fun s hs => by rw [hone s hs, hzero s hs]; decide)
        ?_ ?_ ?_ ?_ ?_ ?_ ?_
      · intro x
        simp only [List.mem_append]
        rw [mem_map_replace m.blocks i b _ x hb hbi, hbi, or_assoc]
      · intro k hk
        obtain ⟨ic, hic, hkf⟩ := (hkid k).1 hk
        exact ⟨ic, hic, hzero ic hic, hone ic hic, by rw [hkf]; rfl, by rw [hkf]; rfl,
          by rw [hkf]; rfl⟩
      · intro k1 hk1 k2 hk2 h
        obtain ⟨ic1, _, hkf1⟩ := (hkid k1).1 hk1
        obtain ⟨ic2, _, hkf2⟩ := (hkid k2).1 hk2
        rw [hkf1, hkf2] at h
        have h' : refine_child_index b ic1 = refine_child_index b ic2 := h
        rw [hkf1, hkf2, h']
      · intro s hs _
        exact Or.inl ⟨_, (hkid _).2 ⟨s, hs, rfl⟩, rfl⟩
      · intro msg hm
        simp only [List.mem_append] at hm
        rcases hm with hm | hm
        · exact Or.inl hm
        · obtain ⟨hl, hm⟩ := (hmsg msg).1 hm
          exact Or.inr ⟨hl, by rw [hm], by rw [hm],
            0, NC_pos _, by rw [hm, hone 0 (NC_pos _)]⟩
      · intro msg hm
        exact Or.inl (List.mem_append_left _ hm)
      · intro hl t ht _
        refine ⟨{ target := parent_index b, ic := own_slot b, depth := 1 + 1 },
          List.mem_append_right _ ((hmsg _).2 ⟨hl, rfl⟩), rfl, rfl, ?_⟩
        rw [hone t ht]

theorem mem_eraseIdx_or_eq (l : List Msg) (k : Nat) (a x : Msg) (hk : l[k]? = some a)
    (hx : x ∈ l) : x ∈ l.eraseIdx k ∨ x = a := by
  obtain ⟨j, hj, hjx⟩ := List.mem_iff_getElem.1 hx
  by_cases h : j = k
  · right
    subst h
    rw [List.getElem?_eq_getElem hj, hjx] at hk
    exact Option.some.inj hk
  · left
    rw [List.mem_eraseIdx_iff_getElem]
    exact ⟨j, hj, h, hjx⟩

/-- The invariant survives the delivery of a depth message. -/
theorem Mesh.Inv.deliver (sim : Simulation) (m : Mesh) (k : Nat) (hInv : m.Inv sim) :
    (m.step sim (Event.deliver k)).Inv sim := by
  simp only [Mesh.step]
  cases hk : m.inflight[k]? with
  | none => exact hInv
  | some msg =>
    simp only
    by_cases hsome :
        (m.blocks.find? (fun b => decide (b.thisIndex = msg.target))).isSome = true
    case neg =>
      rw [if_neg hsome]
      exact hInv
    rw [if_pos hsome]
    unfold Mesh.run_handler
    simp only
    cases hf : m.blocks.find? (fun b => decide (b.thisIndex = msg.target)) with
    | none => rw [hf] at hsome; exact absurd hsome (by simp)
    | some b =>
      have hb := List.mem_of_find?_eq_some hf
      have hbi : b.thisIndex = msg.target := by simpa using List.find?_some hf
      have hbwf := hInv.wf b hb
      have hmsg : msg ∈ m.inflight := by
        obtain ⟨h, hm⟩ := List.getElem?_eq_some.1 hk
        rw [← hm]
        exact List.getElem_mem h
      obtain ⟨y, hy, hyt, s, hs, hmi, c, hc, hcy, t, ht, hmd⟩ := hInv.msgs msg hmsg
      have hyb : y = b := hInv.uniq y hy b hb (hyt.trans hbi.symm)
      rw [hyb] at hcy
      have hslen : s < b.depth_.length := by rw [hbwf.2.2]; exact hs
      simp only
      rw [foldl_apply_effect, hmi, p_update_depth_eq]
      have hk0 : (forward_effects b msg.depth).filterMap (Effect.to_block sim b.cycle_) = [] := by
        rw [List.filterMap_eq_nil_iff]
        intro e he
        rw [mem_forward_effects] at he
        rw [he.2]
        rfl
      have hm0 : ∀ x, x ∈ (forward_effects b msg.depth).filterMap Effect.to_msg ↔
          0 < b.level_ ∧
            x = { target := parent_index b, ic := own_slot b, depth := msg.depth + 1 } := by
        intro x
        rw [List.mem_filterMap]
        constructor
        · rintro ⟨e, he, hex⟩
          rw [mem_forward_effects] at he
          rw [he.2] at hex
          simp only [Effect.to_msg, Option.some.injEq] at hex
          exact ⟨he.1, hex.symm⟩
        · rintro ⟨hl, hx⟩
          exact ⟨_, (mem_forward_effects _ _ _).2 ⟨hl, rfl⟩, by rw [hx]; rfl⟩
      have hget : ∀ j,
          (depth_max b.depth_ s msg.depth).getD j 0
            = if s = j then max (b.depth_.getD j 0) msg.depth else b.depth_.getD j 0 := by
        intro j
        rw [getD_depth_max]
        by_cases hsj : s = j
        · rw [if_pos ⟨hsj, by rw [← hsj]; exact hslen⟩, if_pos hsj]
        · rw [if_neg (fun h => hsj h.1), if_neg hsj]
      rw [hk0]
      simp only [List.append_nil]
      refine Mesh.Inv.raise sim m _ b { b with depth_ := depth_max b.depth_ s msg.depth } []
        hInv hb rfl rfl (length_depth_max _ _ _) ?_ ?_ (by simp) (by simp) ?_ ?_ ?_ ?_
      · intro j _
        simp only
        rw [hget]
        split
        · exact le_max_left _ _
        · exact le_refl _
      · intro x
        simp only [List.not_mem_nil, or_false]
        rw [mem_map_replace m.blocks msg.target b _ x hb hbi, hbi]
      · intro j hj hne
        simp only at hne ⊢
        rw [hget] at hne ⊢
        by_cases hsj : s = j
        · rw [if_pos hsj] at hne ⊢
          right
          rw [← hsj] at hne ⊢
          refine ⟨c, hc, hcy, t, ht, ?_⟩
          rcases le_total (b.depth_.getD s 0) msg.depth with h | h
          · rw [max_eq_right h]
            exact hmd
          · rw [max_eq_left h] at hne
            exact absurd rfl hne
        · rw [if_neg hsj] at hne
          exact absurd rfl hne
      · intro x hx
        simp only [List.mem_append] at hx
        rcases hx with hx | hx
        · exact Or.inl (List.mem_of_mem_eraseIdx hx)
        · obtain ⟨hl, hx⟩ := (hm0 x).1 hx
          refine Or.inr ⟨hl, by rw [hx], by rw [hx], s, hs, ?_⟩
          simp only
          rw [hx, hget, if_pos rfl]
          show msg.depth + 1 ≤ 1 + max (b.depth_.getD s 0) msg.depth
          have := le_max_right (b.depth_.getD s 0) msg.depth
          omega
      · intro x hx
        rcases mem_eraseIdx_or_eq m.inflight k msg x hk hx with h | h
        · exact Or.inl (List.mem_append_left _ h)
        · refine Or.inr ⟨by rw [h, hbi], s, hs, by rw [h, hmi], ?_⟩
          simp only
          rw [h, hget, if_pos rfl]
          exact le_max_right _ _
      · intro hl j hj hne
        simp only at hne ⊢
        rw [hget] at hne ⊢
        refine ⟨{ target := parent_index b, ic := own_slot b, depth := msg.depth + 1 },
          List.mem_append_right _ ((hm0 _).2 ⟨hl, rfl⟩), rfl, rfl, ?_⟩
        by_cases hsj : s = j
        · rw [if_pos hsj] at hne ⊢
          rcases le_total (b.depth_.getD j 0) msg.depth with h | h
          · rw [max_eq_right h]
          · rw [max_eq_left h] at hne
            exact absurd rfl hne
        · rw [if_neg hsj] at hne
          exact absurd rfl hne

/-- The invariant survives every scheduler step. -/
theorem Mesh.Inv.step (sim : Simulation) (m : Mesh) (ev : Event) (hInv : m.Inv sim) :
    (m.step sim ev).Inv sim := by
  cases ev with
  | enter i =>
    exact Mesh.Inv.run_p_adapt sim m i
      (fun b => { b with
        count_adapt_ := if b.cycle_ = sim.initial_cycle then sim.initial_max_level else 1 })
      (fun b => if b.cycle_ = sim.initial_cycle then sim.initial_max_level else 1)
      (fun _ => ⟨rfl, rfl, rfl⟩) hInv
  | step i n =>
    exact Mesh.Inv.run_p_adapt sim m i (fun b => b) (fun _ => n) (fun _ => ⟨rfl, rfl, rfl⟩) hInv
  | deliver k => exact Mesh.Inv.deliver sim m k hInv

/-- The invariant holds after every finite schedule. -/
theorem Mesh.Inv.run (sim : Simulation) (events : List Event) (m : Mesh) (hInv : m.Inv sim) :
    (Mesh.run sim events m).Inv sim := by
  unfold Mesh.run
  induction events generalizing m with
  | nil => exact hInv
  | cons ev evs ih => exact ih (m.step sim ev) (Mesh.Inv.step sim m ev hInv)

/-- The invariant holds for a mesh that consists of a fresh root. -/
theorem Mesh.Inv.init (sim : Simulation) (root : CommBlock)
    (h1 : root.thisIndex = Index.root) (h2 : root.level_ = 0)
    (h3 : root.depth_ = List.replicate (NC sim.dimension) 0) :
    Mesh.Inv sim { blocks := [root], inflight := [] } := by
  have hself : ∀ s, root.thisIndex ≠ refine_child_index root s := by
    intro s h
    have := congrArg Index.level h
    rw [refine_child_index_level, h1, h2] at this
    exact absurd this (by decide)
  refine ⟨?_, ?_, ?_, ?_, ?_, ?_, ?_, ?_, ?_⟩
  · intro b hb
    simp only [List.mem_singleton] at hb
    rw [hb]
    exact ⟨by rw [h1, h2]; rfl, by rw [h1, h2]; rfl, by rw [h3]; simp⟩
  · intro x hx y hy _
    simp only [List.mem_singleton] at hx hy
    rw [hx, hy]
  · intro c hc hl
    simp only [List.mem_singleton] at hc
    rw [hc, h2] at hl
    exact absurd hl (by decide)
  · intro b hb s _
    simp only [List.mem_singleton] at hb
    rw [hb, h3, getD_replicate_zero]
  · intro b hb s _ _ c hc
    simp only [List.mem_singleton] at hb hc
    rw [hb, hc]
    exact hself s
  · intro b hb s _ hne
    simp only [List.mem_singleton] at hb
    rw [hb, h3, getD_replicate_zero] at hne
    exact absurd rfl hne
  · intro b hb s _ c hc h
    simp only [List.mem_singleton] at hb hc
    rw [hb, hc] at h
    exact absurd h (hself s)
  · intro b hb s _ c hc h
    simp only [List.mem_singleton] at hb hc
    rw [hb, hc] at h
    exact absurd h (hself s)
  · intro msg hmsg
    simp at hmsg

/-! ## The depth vectors at quiescence -/

theorem foldl_max_spec (l : List Int) (init : Int) :
    init ≤ l.foldl max init ∧ (∀ x ∈ l, x ≤ l.foldl max init) ∧
      (l.foldl max init = init ∨ l.foldl max init ∈ l) := by
  induction l generalizing init with
  | nil => simp
  | cons a as ih =>
    obtain ⟨h1, h2, h3⟩ := ih (max init a)
    simp only [List.foldl_cons, List.mem_cons]
    refine ⟨le_trans (le_max_left _ _) h1, ?_, ?_⟩
    · intro x hx
      rcases hx with hx | hx
      · rw [hx]
        exact le_trans (le_max_right _ _) h1
      · exact h2 x hx
    · rcases h3 with h3 | h3
      · rcases le_total init a with h | h
        · right
          left
          rw [h3, max_eq_right h]
        · left
          rw [h3, max_eq_left h]
      · exact Or.inr (Or.inr h3)

/-- The value `max_entry l` is the largest entry of a non-empty vector. -/
theorem max_entry_spec (l : List Int) (hl : 0 < l.length) :
    (∀ t, t < l.length → l.getD t 0 ≤ max_entry l) ∧
    (∃ t, t < l.length ∧ l.getD t 0 = max_entry l) := by
  unfold max_entry
  cases l with
  | nil => simp at hl
  | cons a as =>
    simp only [List.headD_cons, List.foldl_cons, max_self]
    obtain ⟨h1, h2, h3⟩ := foldl_max_spec as a
    constructor
    · intro t ht
      rw [List.getD_eq_getElem _ _ ht]
      have hm : (a :: as)[t] ∈ a :: as := List.getElem_mem ht
      rcases List.mem_cons.1 hm with h | h
      · rw [h]
        exact h1
      · exact h2 _ h
    · rcases h3 with h3 | h3
      · exact ⟨0, hl, by rw [h3]; rfl⟩
      · obtain ⟨j, hj, hjx⟩ := List.mem_iff_getElem.1 h3
        refine ⟨j + 1, by simpa using hj, ?_⟩
        rw [List.getD_eq_getElem _ _ (by simpa using hj)]
        simpa using hjx

/-- C10: in every quiescent state (no `p_update_depth` message in flight)
that a schedule of `p_adapt_enter`, `p_adapt` and message deliveries reaches
from a single fresh root with an all-zero depth vector, every block has a depth
vector of `2^rank` slots and, for every slot, the depth is 0 exactly when no
block has the child index of that slot, and otherwise it is 1 plus the largest
entry of the depth vector of that child; hence the depth vector of a block is
all zero exactly when the block has no child. -/
theorem depth_vector_invariant (sim : Simulation)
    (hrank : sim.dimension = 1 ∨ sim.dimension = 2 ∨ sim.dimension = 3)
    (root : CommBlock) (h1 : root.thisIndex = Index.root) (h2 : root.level_ = 0)
    (h3 : root.depth_ = List.replicate (NC sim.dimension) 0)
    (events : List Event)
    (hq : (Mesh.run sim events { blocks := [root], inflight := [] }).inflight = []) :
    ∀ b ∈ (Mesh.run sim events { blocks := [root], inflight := [] }).blocks,
      b.depth_.length = 2 ^ sim.dimension ∧
      (∀ ic, ic < 2 ^ sim.dimension →
        (b.depth_.getD ic 0 = 0 ↔
          ∀ c ∈ (Mesh.run sim events { blocks := [root], inflight := [] }).blocks,
            c.thisIndex ≠ refine_child_index b ic) ∧
        (∀ c ∈ (Mesh.run sim events { blocks := [root], inflight := [] }).blocks,
          c.thisIndex = refine_child_index b ic →
            b.depth_.getD ic 0 = 1 + max_entry c.depth_)) ∧
      ((∀ ic, ic < 2 ^ sim.dimension → b.depth_.getD ic 0 = 0) ↔
        (∀ ic, ic < 2 ^ sim.dimension →
          ∀ c ∈ (Mesh.run sim events { blocks := [root], inflight := [] }).blocks,
            c.thisIndex ≠ refine_child_index b ic)) := by
  have hInv := Mesh.Inv.run sim events _ (Mesh.Inv.init sim root h1 h2 h3)
  have hnc := NC_eq_pow _ hrank
  rw [← hnc]
  intro b hb
  have hslot : ∀ ic, ic < NC sim.dimension →
      (b.depth_.getD ic 0 = 0 ↔
        ∀ c ∈ (Mesh.run sim events { blocks := [root], inflight := [] }).blocks,
          c.thisIndex ≠ refine_child_index b ic) := by
    intro ic hic
    constructor
    · exact hInv.zero_no_child b hb ic hic
    · intro hno
      by_contra hne
      obtain ⟨c, hc, hcb⟩ := hInv.pos_child b hb ic hic hne
      exact hno c hc hcb
  refine ⟨(hInv.wf b hb).2.2, fun ic hic => ⟨hslot ic hic, ?_⟩, ?_⟩
  · intro c hc hcb
    have hclen := (hInv.wf c hc).2.2
    obtain ⟨hmax1, tm, htm, hmax2⟩ := max_entry_spec c.depth_ (by rw [hclen]; exact NC_pos _)
    rw [hclen] at hmax1 htm
    obtain ⟨t, ht, hup⟩ := hInv.upper b hb ic hic c hc hcb
    have hlow : c.depth_.getD tm 0 + 1 ≤ b.depth_.getD ic 0 := by
      rcases hInv.lower b hb ic hic c hc hcb tm htm with h | ⟨msg, hmsg, _⟩
      · exact h
      · rw [hq] at hmsg
        simp at hmsg
    have := hmax1 t ht
    omega
  · constructor
    · intro h ic hic
      exact (hslot ic hic).1 (h ic hic)
    · intro h ic hic
      exact (hslot ic hic).2 (h ic hic)

/-- Witness of C10: after `schedule_two_levels` the mesh is quiescent and slot
0 of the root holds 1 plus the largest depth entry of its child. -/
theorem depth_vector_invariant_witness :
    (Mesh.run sim_always_refine schedule_two_levels
        { blocks := [fresh_root 2 0], inflight := [] }).inflight = [] ∧
    root_after_two_levels.depth_.getD 0 0 = 1 + max_entry child_after_two_levels.depth_ :=
  ⟨by decide,
   ((depth_vector_invariant sim_always_refine (by decide) (fresh_root 2 0) rfl rfl rfl
      schedule_two_levels (by decide) root_after_two_levels (by decide)).2.1 0
      (by decide)).2 child_after_two_levels (by decide) (by decide)⟩

/-! ## The barrier callbacks `q_adapt` and `q_adapt_exit` -/

/-- C11: only the root acts on the barrier callbacks.  Neither callback
changes the block.  On the root index `q_adapt` emits exactly one broadcast
of `p_adapt`, with the stored counter as argument, and no `p_refresh`, and
`q_adapt_exit` emits exactly one broadcast of `p_refresh` and no `p_adapt`; on
any other index the only effect of either callback is `doneInserting`. -/
theorem barrier_callbacks_root_only (b : CommBlock) :
    (q_adapt b).1 = b ∧ (q_adapt_exit b).1 = b ∧
    (b.thisIndex.is_root = true →
      (q_adapt b).2.count (Effect.bcast_p_adapt b.count_adapt_) = 1 ∧
      (q_adapt b).2.countP Effect.is_bcast_p_adapt = 1 ∧
      (q_adapt b).2.countP Effect.is_bcast_p_refresh = 0 ∧
      (q_adapt_exit b).2.countP Effect.is_bcast_p_refresh = 1 ∧
      (q_adapt_exit b).2.countP Effect.is_bcast_p_adapt = 0) ∧
    (b.thisIndex.is_root = false →
      (q_adapt b).2 = [Effect.doneInserting] ∧
      (q_adapt_exit b).2 = [Effect.doneInserting]) := by
  unfold q_adapt q_adapt_exit
  by_cases h : b.thisIndex.is_root = true
  · simp [h, Effect.is_bcast_p_adapt, Effect.is_bcast_p_refresh]
  · simp [h]

/-- Witness of C11: the root and a block of level 1. -/
theorem barrier_callbacks_root_only_witness :
    (q_adapt (fresh_root 2 1)).2.countP Effect.is_bcast_p_adapt = 1 ∧
    (q_adapt level_one_block).2 = [Effect.doneInserting] :=
  ⟨((barrier_callbacks_root_only (fresh_root 2 1)).2.2.1 (by decide)).2.1,
   ((barrier_callbacks_root_only level_one_block).2.2.2 (by decide)).1⟩

/-! ## `p_adapt_enter` -/

/-- C12: `p_adapt_enter` stores `initial_max_level` in `count_adapt_` when the
cycle of the block is `initial_cycle`, and 1 otherwise, whatever the counter
was before, and then calls `p_adapt` with exactly the stored value; the value
depends on the configuration through `initial_cycle` and `initial_max_level`
only.  After the call the stored counter is that value minus one. -/
theorem p_adapt_enter_contract (sim : Simulation) (b : CommBlock) :
    p_adapt_enter sim b
      = p_adapt sim (if b.cycle_ = sim.initial_cycle then sim.initial_max_level else 1)
          { b with
            count_adapt_ := if b.cycle_ = sim.initial_cycle then sim.initial_max_level else 1 } ∧
    (∀ c : Int, p_adapt_enter sim { b with count_adapt_ := c } = p_adapt_enter sim b) ∧
    (p_adapt_enter sim b).1.count_adapt_
      = (if b.cycle_ = sim.initial_cycle then sim.initial_max_level else 1) - 1 := by
  refine ⟨rfl, fun _ => rfl, ?_⟩
  show (p_adapt sim (enter_count sim b)
    { b with count_adapt_ := enter_count sim b }).1.count_adapt_ = enter_count sim b - 1
  by_cases h : 0 < enter_count sim b
  · rw [p_adapt_pos sim _ _ h]
    simp only
    split
    · rw [refine_fst]
    · rfl
  · rw [p_adapt_nonpos sim _ _ (by simpa using h)]

/-! ## The branch of `p_adapt` -/

/-- C13, counterexample: `p_adapt(1)` on a block whose stored counter is 0
registers `q_adapt_exit` and nothing else, and `p_adapt(0)` on a block whose
stored counter is 1 evaluates the criteria and registers `q_adapt`. -/
theorem p_adapt_branch_counterexample :
    (p_adapt sim_always_refine 1 (fresh_root 2 0)).2
      = [Effect.startQD Callback.q_adapt_exit Index.root] ∧
    (p_adapt sim_always_refine 0 (fresh_root 2 1)).2.count Effect.determine_refine = 1 ∧
    (p_adapt sim_always_refine 0 (fresh_root 2 1)).2.countP
      (Effect.is_startQD Callback.q_adapt) = 1 := by
  decide

/-- C13, amended: `p_adapt(n)` chooses its branch from the stored counter
`count_adapt_` and never from its argument: when the stored counter is
positive it enters `determine_refine` once and registers exactly one `q_adapt`
callback and no `q_adapt_exit` callback; when the stored counter is not
positive its only effect is the registration of `q_adapt_exit`; the result is
the same for every argument. -/
theorem p_adapt_branch_from_stored (sim : Simulation) (n : Int) (b : CommBlock) :
    (0 < b.count_adapt_ →
      (p_adapt sim n b).2.count Effect.determine_refine = 1 ∧
      (p_adapt sim n b).2.countP (Effect.is_startQD Callback.q_adapt) = 1 ∧
      (p_adapt sim n b).2.countP (Effect.is_startQD Callback.q_adapt_exit) = 0) ∧
    (b.count_adapt_ ≤ 0 →
      (p_adapt sim n b).2 = [Effect.startQD Callback.q_adapt_exit b.thisIndex]) ∧
    (∀ n2 : Int, p_adapt sim n2 b = p_adapt sim n b) := by
  refine ⟨fun h => ⟨?_, ?_, ?_⟩, fun h => ?_, fun _ => rfl⟩
  · unfold List.count
    rw [p_adapt_counts sim _ b h _ (by intro e he; cases e <;> simp_all [Effect.is_apply])
      (by intro e he; cases e <;> simp_all [Effect.is_refine_output])]
    generalize (determine_refine sim { b with count_adapt_ := b.count_adapt_ - 1 }).1 = D
    by_cases h1 : D = adapt_refine <;> by_cases h2 : D = adapt_coarsen <;>
      simp_all [adapt_refine, adapt_coarsen]
  · rw [p_adapt_counts sim _ b h _
      (by intro e he; cases e <;> simp_all [Effect.is_apply, Effect.is_startQD])
      (by intro e he; cases e <;> simp_all [Effect.is_refine_output, Effect.is_startQD])]
    generalize (determine_refine sim { b with count_adapt_ := b.count_adapt_ - 1 }).1 = D
    by_cases h1 : D = adapt_refine <;> by_cases h2 : D = adapt_coarsen <;>
      simp_all [Effect.is_startQD, adapt_refine, adapt_coarsen]
  · rw [p_adapt_counts sim _ b h _
      (by intro e he; cases e <;> simp_all [Effect.is_apply, Effect.is_startQD])
      (by intro e he; cases e <;> simp_all [Effect.is_refine_output, Effect.is_startQD])]
    generalize (determine_refine sim { b with count_adapt_ := b.count_adapt_ - 1 }).1 = D
    by_cases h1 : D = adapt_refine <;> by_cases h2 : D = adapt_coarsen <;>
      simp_all [Effect.is_startQD, adapt_refine, adapt_coarsen]
  · rw [p_adapt_nonpos sim n b h]

/-- Witness of C13, amended: the two blocks of the counterexample. -/
theorem p_adapt_branch_from_stored_witness :
    (p_adapt sim_always_refine 0 (fresh_root 2 1)).2.countP
      (Effect.is_startQD Callback.q_adapt) = 1 ∧
    (p_adapt sim_always_refine 1 (fresh_root 2 0)).2
      = [Effect.startQD Callback.q_adapt_exit (fresh_root 2 0).thisIndex] :=
  ⟨((p_adapt_branch_from_stored sim_always_refine 0 (fresh_root 2 1)).1 (by decide)).2.1,
   (p_adapt_branch_from_stored sim_always_refine 1 (fresh_root 2 0)).2.1 (by decide)⟩

/-! ## `coarsen` -/

/-- C15: `coarsen()` is a no-op.  It returns the block as it was (depth
vector, level and counter included) and its only effect is the record of its
entry: no block creation, no message, no callback.  A leaf stays a leaf.  When
the criteria of a block with a positive counter combine to `adapt_coarsen`,
`p_adapt` changes the counter only, creates no block and sends no depth
message. -/
theorem coarsen_noop (sim : Simulation) (n : Int) (b : CommBlock) :
    (coarsen b).1 = b ∧ (coarsen b).2 = [Effect.coarsen] ∧
    (∀ cycle, (coarsen b).2.filterMap (Effect.to_block sim cycle) = []) ∧
    (coarsen b).2.filterMap Effect.to_msg = [] ∧
    is_leaf sim (coarsen b).1 = is_leaf sim b ∧
    (0 < b.count_adapt_ →
      (determine_refine sim { b with count_adapt_ := b.count_adapt_ - 1 }).1 = adapt_coarsen →
        (p_adapt sim n b).1 = { b with count_adapt_ := b.count_adapt_ - 1 } ∧
        (p_adapt sim n b).2
          = (determine_refine sim { b with count_adapt_ := b.count_adapt_ - 1 }).2
            ++ [Effect.coarsen, Effect.startQD Callback.q_adapt b.thisIndex] ∧
        (∀ cycle, (p_adapt sim n b).2.filterMap (Effect.to_block sim cycle) = []) ∧
        (p_adapt sim n b).2.filterMap Effect.to_msg = []) := by
  refine ⟨rfl, rfl, fun _ => rfl, rfl, rfl, ?_⟩
  intro hpos hco
  have hne : ¬ (determine_refine sim { b with count_adapt_ := b.count_adapt_ - 1 }).1
      = adapt_refine := by
    rw [hco]
    decide
  have hout : ∀ e ∈ (determine_refine sim { b with count_adapt_ := b.count_adapt_ - 1 }).2,
      e.is_refine_output = false := by
    obtain ⟨r1, hr1, hr1p⟩ := determine_refine_effects sim
      { b with count_adapt_ := b.count_adapt_ - 1 }
    intro e he
    rw [hr1, List.mem_cons] at he
    rcases he with he | he
    · rw [he]
      rfl
    · have := hr1p e he
      cases e <;> simp_all [Effect.is_apply, Effect.is_refine_output]
  rw [p_adapt_pos sim n b hpos, if_neg hne, if_neg hne, if_pos hco]
  refine ⟨rfl, by simp, ?_, ?_⟩
  · intro cycle
    rw [List.filterMap_eq_nil_iff]
    intro e he
    simp only [List.mem_append, List.mem_singleton] at he
    rcases he with (he | he) | he
    · exact to_block_none_of_not_output sim cycle e (hout e he)
    · rw [he]
      rfl
    · rw [he]
      rfl
  · rw [List.filterMap_eq_nil_iff]
    intro e he
    simp only [List.mem_append, List.mem_singleton] at he
    rcases he with (he | he) | he
    · exact to_msg_none_of_not_output e (hout e he)
    · rw [he]
      rfl
    · rw [he]
      rfl

/-- Witness of C15: a fresh root with counter 1 whose criterion answers
`adapt_coarsen`. -/
theorem coarsen_noop_witness :
    (p_adapt sim_always_coarsen 1 (fresh_root 2 1)).1
      = { fresh_root 2 1 with count_adapt_ := (fresh_root 2 1).count_adapt_ - 1 } :=
  ((coarsen_noop sim_always_coarsen 1 (fresh_root 2 1)).2.2.2.2.2 (by decide)
    (by decide)).1

/-! ## The macro `IC` -/

/-- C16: for offsets in `{-1, 0, 1}` the macro `IC`, with the truncating
remainder of C, is `((icx+2) mod 2) + 2*((icy+2) mod 2) + 4*((icz+2) mod 2)`,
lies in `0..7`, and on each axis gives offset `-1` the bit of offset `+1`. -/
theorem IC_offsets (icx icy icz : Int)
    (hx : icx = -1 ∨ icx = 0 ∨ icx = 1) (hy : icy = -1 ∨ icy = 0 ∨ icy = 1)
    (hz : icz = -1 ∨ icz = 0 ∨ icz = 1) :
    IC icx icy icz = (icx + 2) % 2 + 2 * ((icy + 2) % 2) + 4 * ((icz + 2) % 2) ∧
    0 ≤ IC icx icy icz ∧ IC icx icy icz ≤ 7 ∧
    IC (-1) icy icz = IC 1 icy icz ∧ IC icx (-1) icz = IC icx 1 icz ∧
    IC icx icy (-1) = IC icx icy 1 := by
  rcases hx with h | h | h <;> rcases hy with h2 | h2 | h2 <;> rcases hz with h3 | h3 | h3 <;>
    subst h <;> subst h2 <;> subst h3 <;> decide

/-- Witness of C16: the offsets `(-1, 0, 1)` give slot 5. -/
theorem IC_offsets_witness : IC (-1) 0 1 = (-1 + 2) % 2 + 2 * ((0 + 2) % 2) + 4 * ((1 + 2) % 2) :=
  (IC_offsets (-1) 0 1 (by decide) (by decide) (by decide)).1

/-! ## Criteria results that are no adapt code -/

/-- C17, counterexample: a leaf whose single criterion answers 7 is evaluated
without any failure: `determine_refine` returns 7, and `p_adapt` goes on to
register `q_adapt`, calling neither `refine` nor `coarsen`. -/
theorem determine_refine_out_of_domain_counterexample :
    determine_refine sim_answers_seven (fresh_root 2 0)
      = (7, [Effect.determine_refine, Effect.apply 0]) ∧
    p_adapt sim_answers_seven 1 (fresh_root 2 1)
      = (fresh_root 2 0,
         [Effect.determine_refine, Effect.apply 0,
          Effect.startQD Callback.q_adapt Index.root]) := by
  decide

/-- C17, amended: a criterion result `x` that is no adapt code makes nothing
fail.  `update_adapt_` returns `x` itself when the other argument is
`adapt_unknown`, `adapt_refine` when the other argument is `adapt_refine`,
and `adapt_same` in every other case; `determine_refine` on a leaf returns
the left fold of the results whatever they are; and `p_adapt` on a block with
a positive counter whose criteria combine to `x` calls neither `refine` nor
`coarsen`, keeps the depth vector and registers `q_adapt`. -/
theorem update_adapt_out_of_domain (x : Int) (hx : out_of_domain x) :
    update_adapt_ adapt_unknown x = x ∧ update_adapt_ x adapt_unknown = x ∧
    update_adapt_ adapt_refine x = adapt_refine ∧ update_adapt_ x adapt_refine = adapt_refine ∧
    update_adapt_ adapt_same x = adapt_same ∧ update_adapt_ x adapt_same = adapt_same ∧
    update_adapt_ adapt_coarsen x = adapt_same ∧ update_adapt_ x adapt_coarsen = adapt_same ∧
    (∀ y, out_of_domain y → update_adapt_ x y = adapt_same) ∧
    (∀ (sim : Simulation) (b : CommBlock), is_leaf sim b = true →
      (determine_refine sim b).1
        = (sim.refine_list.map (fun r => r b)).foldl update_adapt_ adapt_unknown) ∧
    (∀ (sim : Simulation) (n : Int) (b : CommBlock), 0 < b.count_adapt_ →
      (determine_refine sim { b with count_adapt_ := b.count_adapt_ - 1 }).1 = x →
        p_adapt sim n b
          = ({ b with count_adapt_ := b.count_adapt_ - 1 },
             (determine_refine sim { b with count_adapt_ := b.count_adapt_ - 1 }).2
               ++ [Effect.startQD Callback.q_adapt b.thisIndex])) := by
  obtain ⟨h0, h1, h2, h3⟩ := hx
  have key : ∀ a c : Int, update_adapt_ a c
      = if a = 0 then c else if c = 0 then a else if a = 3 ∧ c = 3 then 3
        else if a = 2 ∨ c = 2 then 2 else 1 := fun _ _ => rfl
  have e0 : adapt_unknown = 0 := rfl
  have e1 : adapt_same = 1 := rfl
  have e2 : adapt_refine = 2 := rfl
  have e3 : adapt_coarsen = 3 := rfl
  rw [e0] at h0
  rw [e1] at h1
  rw [e2] at h2
  rw [e3] at h3
  refine ⟨?_, ?_, ?_, ?_, ?_, ?_, ?_, ?_, ?_, ?_, ?_⟩
  · rw [key, e0]
    split_ifs <;> omega
  · rw [key, e0]
    split_ifs <;> omega
  · rw [key, e2]
    split_ifs <;> omega
  · rw [key, e2]
    split_ifs <;> omega
  · rw [key, e1]
    split_ifs <;> omega
  · rw [key, e1]
    split_ifs <;> omega
  · rw [key, e3, e1]
    split_ifs <;> omega
  · rw [key, e3, e1]
    split_ifs <;> omega
  · intro y hy
    obtain ⟨g0, g1, g2, g3⟩ := hy
    rw [e0] at g0
    rw [e2] at g2
    rw [e3] at g3
    rw [key, e1]
    split_ifs <;> omega
  · intro sim b hleaf
    rw [determine_refine_leaf sim b hleaf]
  · intro sim n b hpos hres
    rw [p_adapt_pos sim n b hpos, hres, e2, e3, if_neg h2, if_neg h2, if_neg h3]
    simp

/-! ## The scenario of rank 2 with two levels of refinement -/

set_option maxRecDepth 1000000 in
/-- C14: scenario with rank 2, `initial_max_level` 2, a single fresh root that
enters in the initial cycle, and the criterion that refines while the level is
below 2.  Run under the first-in-first-out scheduler and under the
last-in-first-out scheduler, the protocol comes to rest after the root has
broadcast `p_adapt(1)`, `p_adapt(0)` and one `p_refresh`, with exactly 21
blocks: 1 of level 0, 4 of level 1 and 16 of level 2; the blocks of level 2
are leaves with an all-zero depth vector, and the blocks have pairwise distinct
indices. -/
theorem scenario_final_tree :
    (scenario_end.next_event = none ∧ scenario_end.refreshes = 1 ∧
      scenario_end.broadcasts = [1, 0] ∧
      scenario_end.mesh.blocks.length = 21 ∧
      (scenario_end.mesh.blocks.filter (fun b => decide (b.level_ = 0))).length = 1 ∧
      (scenario_end.mesh.blocks.filter (fun b => decide (b.level_ = 1))).length = 4 ∧
      (scenario_end.mesh.blocks.filter (fun b => decide (b.level_ = 2))).length = 16 ∧
      (∀ b ∈ scenario_end.mesh.blocks, b.level_ = 2 →
        is_leaf sim_scenario b = true ∧ b.depth_ = [0, 0, 0, 0]) ∧
      (scenario_end.mesh.blocks.map (fun b => b.thisIndex)).Nodup) ∧
    (scenario_end_lifo.next_event_lifo = none ∧ scenario_end_lifo.refreshes = 1 ∧
      scenario_end_lifo.broadcasts = [1, 0] ∧
      scenario_end_lifo.mesh.blocks.length = 21 ∧
      (scenario_end_lifo.mesh.blocks.filter (fun b => decide (b.level_ = 0))).length = 1 ∧
      (scenario_end_lifo.mesh.blocks.filter (fun b => decide (b.level_ = 1))).length = 4 ∧
      (scenario_end_lifo.mesh.blocks.filter (fun b => decide (b.level_ = 2))).length = 16 ∧
      (∀ b ∈ scenario_end_lifo.mesh.blocks, b.level_ = 2 →
        is_leaf sim_scenario b = true ∧ b.depth_ = [0, 0, 0, 0]) ∧
      (scenario_end_lifo.mesh.blocks.map (fun b => b.thisIndex)).Nodup) := by
  decide!

/-! ## Balancing -/

set_option maxRecDepth 1000000 in
/-- C18, the code at the failing input: `p_balance` returns every block as it
was and has no effect but the record of its entry, so it forces no refinement.
At the end of the cycle of `sim_unbalanced` the protocol is at rest, the leaf
`coarse_leaf` of level 1 and the leaf `fine_leaf` of level 3 are both in the
mesh, and `p_balance` on `coarse_leaf` leaves it a leaf. -/
theorem p_balance_forces_nothing :
    (∀ b : CommBlock, p_balance b = (b, [Effect.p_balance])) ∧
    unbalanced_end.next_event = none ∧ unbalanced_end.refreshes = 1 ∧
    coarse_leaf ∈ unbalanced_end.mesh.blocks ∧ fine_leaf ∈ unbalanced_end.mesh.blocks ∧
    is_leaf sim_unbalanced coarse_leaf = true ∧ is_leaf sim_unbalanced fine_leaf = true ∧
    (p_balance coarse_leaf).1 = coarse_leaf ∧
    is_leaf sim_unbalanced (p_balance coarse_leaf).1 = true := by
  refine ⟨fun _ => rfl, ?_⟩
  decide!

/-- Witness of C17, amended: the value 7. -/
theorem update_adapt_out_of_domain_witness : update_adapt_ adapt_unknown 7 = 7 :=
  (update_adapt_out_of_domain 7 ⟨by decide, by decide, by decide, by decide⟩).1

/-! ## Lists of messages and views -/

theorem perm_cons_eraseIdx {α : Type} (l : List α) (k : Nat) (a : α) (h : l[k]? = some a) :
    l.Perm (a :: l.eraseIdx k) := by
  induction l generalizing k with
  | nil => simp at h
  | cons x xs ih =>
    cases k with
    | zero =>
      simp only [List.getElem?_cons_zero, Option.some.injEq] at h
      rw [List.eraseIdx_cons_zero, h]
    | succ n =>
      simp only [List.getElem?_cons_succ] at h
      rw [List.eraseIdx_cons_succ]
      exact ((ih n h).cons x).trans (List.Perm.swap a x _)

theorem filter_eraseIdx_false {α : Type} (f : α → Bool) (l : List α) (k : Nat) (a : α)
    (h : l[k]? = some a) (hf : f a = false) :
    (l.eraseIdx k).filter f = l.filter f := by
  induction l generalizing k with
  | nil => simp at h
  | cons x xs ih =>
    cases k with
    | zero =>
      simp only [List.getElem?_cons_zero, Option.some.injEq] at h
      rw [List.eraseIdx_cons_zero, h, List.filter_cons, hf]
      simp
    | succ n =>
      simp only [List.getElem?_cons_succ] at h
      rw [List.eraseIdx_cons_succ, List.filter_cons, List.filter_cons, ih n h]

theorem mem_of_getElem?_eq_some {α : Type} (l : List α) (k : Nat) (a : α)
    (h : l[k]? = some a) : a ∈ l := by
  obtain ⟨hk, ha⟩ := List.getElem?_eq_some.1 h
  rw [← ha]
  exact List.getElem_mem hk

theorem nodup_fst_unique (v : List (Index × Int)) (hn : (v.map Prod.fst).Nodup)
    (i : Index) (c1 c2 : Int) (h1 : (i, c1) ∈ v) (h2 : (i, c2) ∈ v) : c1 = c2 := by
  induction v with
  | nil => simp at h1
  | cons p ps ih =>
    rw [List.map_cons, List.nodup_cons] at hn
    rcases List.mem_cons.1 h1 with e1 | m1 <;> rcases List.mem_cons.1 h2 with e2 | m2
    · rw [← e2] at e1
      exact (Prod.mk.inj e1).2
    · exfalso
      apply hn.1
      rw [← e1]
      exact List.mem_map.2 ⟨(i, c2), m2, rfl⟩
    · exfalso
      apply hn.1
      rw [← e2]
      exact List.mem_map.2 ⟨(i, c1), m1, rfl⟩
    · exact ih hn.2 m1 m2

theorem map_fst_view_set (v : List (Index × Int)) (i : Index) (c : Int) :
    (view_set v i c).map Prod.fst = v.map Prod.fst := by
  unfold view_set
  rw [List.map_map]
  apply List.map_congr_left
  intro p _
  simp only [Function.comp]
  split
  · rename_i h
    exact h.symm
  · rfl

theorem mem_view_set (v : List (Index × Int)) (i : Index) (c : Int) (p : Index × Int) :
    p ∈ view_set v i c ↔ (p ∈ v ∧ p.1 ≠ i) ∨ (p = (i, c) ∧ i ∈ v.map Prod.fst) := by
  unfold view_set
  rw [List.mem_map]
  constructor
  · rintro ⟨q, hq, hp⟩
    by_cases h : q.1 = i
    · rw [if_pos h] at hp
      exact Or.inr ⟨hp.symm, List.mem_map.2 ⟨q, hq, h⟩⟩
    · rw [if_neg h] at hp
      rw [← hp]
      exact Or.inl ⟨hq, h⟩
  · rintro (⟨hp, hn⟩ | ⟨hp, hi⟩)
    · exact ⟨p, hp, if_neg hn⟩
    · obtain ⟨q, hq, hqi⟩ := List.mem_map.1 hi
      exact ⟨q, hq, by rw [if_pos hqi, hp]⟩

theorem view_set_eq_self (v : List (Index × Int)) (i : Index) (c : Int)
    (h : ∀ n, (i, n) ∈ v → n = c) : view_set v i c = v := by
  unfold view_set
  conv_rhs => rw [← List.map_id v]
  apply List.map_congr_left
  intro p hp
  split
  · rename_i hpi
    have : p = (i, p.2) := by rw [← hpi]
    rw [this] at hp
    rw [← h p.2 hp, ← hpi]
    rfl
  · rfl

theorem countdown_self (N : Int) : countdown N N = [] := by
  simp [countdown]

theorem run_handler_some (sim : Simulation) (m : Mesh) (i : Index)
    (h : CommBlock → CommBlock × List Effect) (b : CommBlock)
    (hf : m.blocks.find? (fun b => decide (b.thisIndex = i)) = some b) :
    m.run_handler sim i h
      = { blocks := m.blocks.map (fun x => if x.thisIndex = i then (h b).1 else x)
            ++ (h b).2.filterMap (Effect.to_block sim b.cycle_),
          inflight := m.inflight ++ (h b).2.filterMap Effect.to_msg } := by
  unfold Mesh.run_handler
  rw [hf]
  simp only
  rw [foldl_apply_effect]

theorem find_block_spec (m : Mesh) (i : Index) (b : CommBlock)
    (hf : m.blocks.find? (fun b => decide (b.thisIndex = i)) = some b) :
    b ∈ m.blocks ∧ b.thisIndex = i ∧ (i, b.count_adapt_) ∈ m.view := by
  have hb := List.mem_of_find?_eq_some hf
  have hbi : b.thisIndex = i := by simpa using List.find?_some hf
  refine ⟨hb, hbi, ?_⟩
  unfold Mesh.view
  rw [List.mem_map]
  exact ⟨b, hb, by rw [hbi]⟩

theorem view_run_handler (sim : Simulation) (m : Mesh) (i : Index)
    (h : CommBlock → CommBlock × List Effect) (b : CommBlock)
    (hf : m.blocks.find? (fun b => decide (b.thisIndex = i)) = some b)
    (hi : (h b).1.thisIndex = i) :
    (m.run_handler sim i h).view
      = view_set m.view i (h b).1.count_adapt_
        ++ ((h b).2.filterMap (Effect.to_block sim b.cycle_)).map
            (fun x => (x.thisIndex, x.count_adapt_)) := by
  rw [run_handler_some sim m i h b hf]
  unfold Mesh.view view_set
  simp only [List.map_append, List.map_map]
  congr 1
  apply List.map_congr_left
  intro x _
  simp only [Function.comp]
  split
  · rw [hi]
  · rfl

theorem view_unique (sim : Simulation) (m : Mesh) (hInv : m.Inv sim) (b : CommBlock)
    (hb : b ∈ m.blocks) (n : Int) (h : (b.thisIndex, n) ∈ m.view) : n = b.count_adapt_ := by
  unfold Mesh.view at h
  rw [List.mem_map] at h
  obtain ⟨x, hx, hxe⟩ := h
  have h1 := (Prod.mk.inj hxe).1
  have h2 := (Prod.mk.inj hxe).2
  rw [← h2, hInv.uniq x hx b hb h1]

/-- The delivery of a depth message leaves the view as it is. -/
theorem view_deliver (sim : Simulation) (m : Mesh) (k : Nat) (hInv : m.Inv sim) :
    (m.step sim (Event.deliver k)).view = m.view := by
  simp only [Mesh.step]
  cases hk : m.inflight[k]? with
  | none => rfl
  | some msg =>
    simp only
    cases hf : m.blocks.find? (fun b => decide (b.thisIndex = msg.target)) with
    | none => simp
    | some b =>
      simp only [Option.isSome_some, if_true]
      obtain ⟨hb, hbi, _⟩ := find_block_spec m msg.target b hf
      have hf2 : ({ m with inflight := m.inflight.eraseIdx k } : Mesh).blocks.find?
          (fun b => decide (b.thisIndex = msg.target)) = some b := hf
      rw [view_run_handler sim _ msg.target _ b hf2 (by
        unfold p_update_depth
        simp only
        split <;> exact hbi)]
      have hnone : (p_update_depth b msg.ic msg.depth).2.filterMap
          (Effect.to_block sim b.cycle_) = [] := by
        rw [List.filterMap_eq_nil_iff]
        intro e he
        unfold p_update_depth at he
        simp only at he
        split at he
        · simp only [List.mem_singleton] at he
          rw [he]
          rfl
        · simp at he
      rw [hnone]
      simp only [List.map_nil, List.append_nil]
      have hc : (p_update_depth b msg.ic msg.depth).1.count_adapt_ = b.count_adapt_ := by
        unfold p_update_depth
        simp only
        split <;> rfl
      rw [hc]
      apply view_set_eq_self
      intro n hn
      rw [← hbi] at hn
      exact view_unique sim m hInv b hb n hn

theorem deliver_of_empty (sim : Simulation) (m : Mesh) (k : Nat) (h : m.inflight = []) :
    m.step sim (Event.deliver k) = m := by
  simp only [Mesh.step]
  rw [h]
  rfl

/-! ## What `p_adapt` does to the view and to the quiescence detector -/

theorem p_adapt_block (sim : Simulation) (n : Int) (b : CommBlock) :
    (p_adapt sim n b).1.thisIndex = b.thisIndex ∧ (p_adapt sim n b).1.level_ = b.level_ ∧
    (p_adapt sim n b).1.count_adapt_ = b.count_adapt_ - 1 := by
  by_cases h : 0 < b.count_adapt_
  · rw [p_adapt_pos sim n b h]
    simp only
    split
    · rw [refine_fst]
      exact ⟨rfl, rfl, rfl⟩
    · exact ⟨rfl, rfl, rfl⟩
  · rw [p_adapt_nonpos sim n b (by omega)]
    exact ⟨rfl, rfl, rfl⟩

theorem determine_refine_not_output (sim : Simulation) (b : CommBlock) :
    ∀ e ∈ (determine_refine sim b).2, e.is_refine_output = false ∧ e.is_control = false := by
  obtain ⟨r1, hr1, hr1p⟩ := determine_refine_effects sim b
  intro e he
  rw [hr1, List.mem_cons] at he
  rcases he with he | he
  · rw [he]
    exact ⟨rfl, rfl⟩
  · have := hr1p e he
    cases e <;> simp_all [Effect.is_apply, Effect.is_refine_output, Effect.is_control]

theorem filterMap_flatMap_cons {β : Type} (f : Effect → Option β) (c : Nat → Effect)
    (g : Nat → List Effect) (k : Nat → β)
    (hc : ∀ ic, f (c ic) = some (k ic)) (hg : ∀ ic, ∀ e ∈ g ic, f e = none) (l : List Nat) :
    (l.flatMap (fun ic => c ic :: g ic)).filterMap f = l.map k := by
  induction l with
  | nil => rfl
  | cons x xs ih =>
    rw [List.flatMap_cons, List.filterMap_append, ih, List.filterMap_cons, hc x]
    have : (g x).filterMap f = [] := by
      rw [List.filterMap_eq_nil_iff]
      exact hg x
    rw [this]
    rfl

theorem refines_leaf (sim : Simulation) (b : CommBlock) (h : refines sim b) :
    is_leaf sim b = true := by
  by_contra hl
  have hl2 : is_leaf sim { b with count_adapt_ := b.count_adapt_ - 1 } = false := by
    rw [Bool.not_eq_true] at hl
    exact hl
  have h1 := h.2
  rw [determine_refine_not_leaf sim _ hl2] at h1
  exact absurd h1 (by decide)

theorem refine_kids (sim : Simulation) (b : CommBlock) (cycle : Int) :
    (refine sim b).2.filterMap (Effect.to_block sim cycle)
      = (List.range (NC sim.dimension)).map (fun ic =>
          fresh_block sim cycle (refine_child_index b ic) b.nx b.ny b.nz (b.level_ + 1)
            b.count_adapt_) := by
  rw [refine_eq]
  simp only
  rw [List.filterMap_cons]
  simp only [Effect.to_block]
  exact filterMap_flatMap_cons (Effect.to_block sim cycle)
    (fun ic => Effect.create_block (refine_child_index b ic) b.nx b.ny b.nz (b.level_ + 1) 1
      b.count_adapt_ false)
    (fun _ => forward_effects b 1)
    (fun ic => fresh_block sim cycle (refine_child_index b ic) b.nx b.ny b.nz (b.level_ + 1)
      b.count_adapt_)
    (fun _ => rfl)
    (fun _ e he => by
      rw [mem_forward_effects] at he
      rw [he.2]
      rfl) _

/-- The blocks that `p_adapt` creates. -/
theorem p_adapt_kids (sim : Simulation) (n : Int) (b : CommBlock) (cycle : Int)
    [Decidable (refines sim b)] :
    ((p_adapt sim n b).2.filterMap (Effect.to_block sim cycle)).map
        (fun x => (x.thisIndex, x.count_adapt_))
      = kids_view sim b (decide (refines sim b)) := by
  unfold kids_view
  by_cases hc : 0 < b.count_adapt_
  · have hdet : (determine_refine sim { b with count_adapt_ := b.count_adapt_ - 1 }).2.filterMap
        (Effect.to_block sim cycle) = [] := by
      rw [List.filterMap_eq_nil_iff]
      intro e he
      exact to_block_none_of_not_output sim cycle e (determine_refine_not_output sim _ e he).1
    rw [p_adapt_pos sim n b hc]
    simp only [List.filterMap_append, hdet, List.nil_append]
    by_cases h1 : (determine_refine sim { b with count_adapt_ := b.count_adapt_ - 1 }).1
        = adapt_refine
    · have hr : refines sim b := ⟨hc, h1⟩
      rw [if_pos h1, refine_kids]
      simp only [hr, decide_True, if_true, List.filterMap_cons, Effect.to_block,
        List.filterMap_nil, List.append_nil, List.map_map]
      rfl
    · have hr : ¬ refines sim b := fun h => h1 h.2
      rw [if_neg h1]
      simp only [hr, decide_False]
      split <;> simp [Effect.to_block]
  · have hr : ¬ refines sim b := fun h => hc h.1
    rw [p_adapt_nonpos sim n b (by omega)]
    simp [hr, Effect.to_block]

/-- The only thing that `p_adapt` asks of the runtime, apart from block
creations and depth messages, is the registration of one callback. -/
theorem p_adapt_control (sim : Simulation) (n : Int) (b : CommBlock) :
    (p_adapt sim n b).2.filter Effect.is_control
      = [Effect.startQD (callback_of b.count_adapt_) b.thisIndex] := by
  unfold callback_of
  by_cases hc : 0 < b.count_adapt_
  · have hdet : (determine_refine sim { b with count_adapt_ := b.count_adapt_ - 1 }).2.filter
        Effect.is_control = [] := by
      rw [List.filter_eq_nil_iff]
      intro e he
      simp [(determine_refine_not_output sim _ e he).2]
    have href : (refine sim { b with count_adapt_ := b.count_adapt_ - 1 }).2.filter
        Effect.is_control = [] := by
      rw [List.filter_eq_nil_iff]
      intro e he
      obtain ⟨r2, hr2, hr2p⟩ := refine_effects sim { b with count_adapt_ := b.count_adapt_ - 1 }
      rw [hr2, List.mem_cons] at he
      rcases he with he | he
      · rw [he]
        simp [Effect.is_control]
      · have := hr2p e he
        cases e <;> simp_all [Effect.is_refine_output, Effect.is_control]
    rw [p_adapt_pos sim n b hc, if_pos hc]
    simp only [List.filter_append, hdet, List.nil_append]
    split
    · rw [href]
      rfl
    · split <;> rfl
  · rw [p_adapt_nonpos sim n b (by omega), if_neg hc]
    rfl

theorem foldl_apply_control_filter (es : List Effect) (s : Proto) :
    es.foldl apply_control s = (es.filter Effect.is_control).foldl apply_control s := by
  induction es generalizing s with
  | nil => rfl
  | cons e es ih =>
    rw [List.foldl_cons, ih, List.filter_cons]
    cases e <;> simp [Effect.is_control, apply_control]

/-! ## One step of the protocol, by kind of message -/

theorem step_ctl_no_target (sim : Simulation) (s : Proto) (k : Nat) (msg : Ctl)
    (h : s.ctl[k]? = some msg)
    (hf : s.mesh.blocks.find? (fun b => decide (b.thisIndex = msg.target)) = none) :
    s.step sim (PEvent.ctl k) = s := by
  simp only [Proto.step]
  rw [h]
  simp only
  rw [hf]

theorem step_ctl_some (sim : Simulation) (s : Proto) (k : Nat) (msg : Ctl) (b : CommBlock)
    (h : s.ctl[k]? = some msg)
    (hf : s.mesh.blocks.find? (fun b => decide (b.thisIndex = msg.target)) = some b) :
    s.step sim (PEvent.ctl k)
      = ((msg.handler sim b).2.filter Effect.is_control).foldl apply_control
          { s with
            mesh := s.mesh.run_handler sim msg.target (msg.handler sim),
            ctl := s.ctl.eraseIdx k } := by
  simp only [Proto.step]
  rw [h]
  simp only
  rw [hf]
  simp only
  rw [foldl_apply_control_filter]

/-- A call of `p_adapt` is delivered: the block steps and registers its
callback. -/
theorem step_p_adapt (sim : Simulation) (s : Proto) (k : Nat) (i : Index) (n : Int)
    (b : CommBlock) (h : s.ctl[k]? = some (Ctl.p_adapt i n))
    (hf : s.mesh.blocks.find? (fun b => decide (b.thisIndex = i)) = some b) :
    s.step sim (PEvent.ctl k)
      = { s with
          mesh := s.mesh.step sim (Event.step i n),
          ctl := s.ctl.eraseIdx k,
          qd := s.qd ++ [(callback_of b.count_adapt_, b.thisIndex)] } := by
  rw [step_ctl_some sim s k _ b h hf]
  simp only [Ctl.handler, Ctl.target]
  rw [p_adapt_control]
  rfl

/-- The call of `p_adapt_enter` is delivered. -/
theorem step_p_adapt_enter (sim : Simulation) (s : Proto) (k : Nat) (i : Index)
    (b : CommBlock) (h : s.ctl[k]? = some (Ctl.p_adapt_enter i))
    (hf : s.mesh.blocks.find? (fun b => decide (b.thisIndex = i)) = some b) :
    s.step sim (PEvent.ctl k)
      = { s with
          mesh := s.mesh.step sim (Event.enter i),
          ctl := s.ctl.eraseIdx k,
          qd := s.qd ++ [(callback_of (enter_count sim b), b.thisIndex)] } := by
  rw [step_ctl_some sim s k _ b h hf]
  simp only [Ctl.handler, Ctl.target]
  have : (p_adapt_enter sim b).2.filter Effect.is_control
      = [Effect.startQD (callback_of (enter_count sim b)) b.thisIndex] :=
    p_adapt_control sim (enter_count sim b) { b with count_adapt_ := enter_count sim b }
  rw [this]
  rfl

theorem q_adapt_quiet (b : CommBlock) (sim : Simulation) :
    (q_adapt b).1 = b ∧ (∀ cycle, (q_adapt b).2.filterMap (Effect.to_block sim cycle) = []) ∧
    (q_adapt b).2.filterMap Effect.to_msg = [] ∧
    (q_adapt_exit b).1 = b ∧
    (∀ cycle, (q_adapt_exit b).2.filterMap (Effect.to_block sim cycle) = []) ∧
    (q_adapt_exit b).2.filterMap Effect.to_msg = [] := by
  unfold q_adapt q_adapt_exit
  by_cases h : b.thisIndex.is_root = true
  · simp [h, Effect.to_block, Effect.to_msg]
  · simp [h, Effect.to_block, Effect.to_msg]

/-- The facts of a phase only speak about the view, the emptiness of the depth
messages in flight, the control messages, the registered callbacks and the
records. -/
theorem PhaseOK.congr (sim : Simulation) (N : Int) (s t : Proto) (ph : Phase)
    (hb : ph = Phase.entering → t.mesh.blocks = s.mesh.blocks)
    (hv : t.mesh.view = s.mesh.view)
    (hi : s.mesh.inflight = [] → t.mesh.inflight = [])
    (hc : t.ctl = s.ctl) (hq : t.qd = s.qd) (hbc : t.broadcasts = s.broadcasts)
    (hr : t.refreshes = s.refreshes) (hba : t.barriers = s.barriers)
    (h : PhaseOK sim N s ph) : PhaseOK sim N t ph := by
  cases ph with
  | entering =>
    obtain ⟨h1, h2, h3, h4, h5, h6, h7⟩ := h
    exact ⟨by rw [hb rfl]; exact h1, hi h2, by rw [hc]; exact h3, by rw [hq]; exact h4,
      by rw [hbc]; exact h5, by rw [hr]; exact h6, by rw [hba]; exact h7⟩
  | stepping v =>
    unfold PhaseOK at h ⊢
    rw [hv, hc, hq, hbc, hr, hba]
    exact h
  | fired v =>
    unfold PhaseOK at h ⊢
    rw [hv, hc, hq, hbc, hr, hba]
    obtain ⟨h1, h2, h3, h4, h5, h6⟩ := h
    exact ⟨h1, h2, h3, h4, hi h5, h6⟩
  | finished v =>
    unfold PhaseOK at h ⊢
    rw [hv, hc, hq, hbc, hr, hba]
    obtain ⟨h1, h2, h3, h4, h5, h6, h7⟩ := h
    exact ⟨h1, h2, h3, h4, h5, hi h6, h7⟩

/-- The invariant survives the delivery of a depth message. -/
theorem PhaseInv.depth (sim : Simulation) (N : Int) (s : Proto) (k : Nat)
    (hInv : PhaseInv sim N s) : PhaseInv sim N (s.step sim (PEvent.depth k)) := by
  have hv : (s.step sim (PEvent.depth k)).mesh.view = s.mesh.view :=
    view_deliver sim s.mesh k hInv.mesh
  obtain ⟨ph, hph⟩ := hInv.phase
  refine ⟨Mesh.Inv.step sim s.mesh (Event.deliver k) hInv.mesh, by rw [hv]; exact hInv.nodup,
    by rw [hv]; exact hInv.root, ?_, ph, ?_⟩
  · intro m hm
    rw [hv]
    exact hInv.targets m hm
  · by_cases he : s.mesh.inflight = []
    · have : s.step sim (PEvent.depth k) = s := by
        simp only [Proto.step]
        rw [deliver_of_empty sim s.mesh k he]
      rw [this]
      exact hph
    · refine PhaseOK.congr sim N s _ ph ?_ hv (fun h => absurd h he) rfl rfl rfl rfl rfl hph
      intro hent
      rw [hent] at hph
      exact absurd hph.2.1 he

theorem callback_msg_target (cb : Callback) (i : Index) : (callback_msg (cb, i)).target = i := by
  cases cb <;> rfl

theorem callback_msg_injective (cb : Callback) :
    Function.Injective (fun i => callback_msg (cb, i)) := by
  intro i j h
  cases cb <;> simpa [callback_msg] using h

/-- The invariant survives the firing of the quiescence detector. -/
theorem PhaseInv.quiesce (sim : Simulation) (N : Int) (s : Proto)
    (hInv : PhaseInv sim N s) : PhaseInv sim N (s.step sim PEvent.quiesce) := by
  simp only [Proto.step]
  by_cases he : s.mesh.inflight = [] ∧ s.ctl = [] ∧ s.qd ≠ []
  case neg =>
    rw [if_neg he]
    exact hInv
  rw [if_pos he]
  obtain ⟨he1, he2, he3⟩ := he
  obtain ⟨ph, hph⟩ := hInv.phase
  cases ph with
  | entering =>
    obtain ⟨_, _, h3, _⟩ := hph
    rw [h3] at he2
    exact absurd he2 (by simp)
  | fired v =>
    obtain ⟨_, _, _, _, _, _, _, _, h9, _⟩ := hph
    rw [he2] at h9
    exact absurd h9 (by simp)
  | finished v =>
    obtain ⟨_, _, _, _, _, _, h7, _⟩ := hph
    exact absurd h7 he3
  | stepping v =>
    obtain ⟨h1, h2, h3, h4, h5, h6, h7, h8, h9, h10, h11, h12, h13, h14⟩ := hph
    have hall : ∀ p ∈ s.mesh.view, p.2 = v - 1 := by
      intro p hp
      rcases h5 p hp with h | h
      · exfalso
        have : p.1 ∈ adapt_targets s.ctl := (h7 p.1).2 (by rw [← h]; exact hp)
        rw [he2] at this
        simp [adapt_targets] at this
      · exact h
    have hmap : s.qd.map callback_msg
        = (s.qd.map Prod.snd).map (fun i => callback_msg (callback_of v, i)) := by
      rw [List.map_map]
      apply List.map_congr_left
      intro e he
      simp only [Function.comp]
      rw [← (h10 e he).1]
    have hroot : (Index.root, v - 1) ∈ s.mesh.view := by
      obtain ⟨p, hp, hpr⟩ := List.mem_map.1 hInv.root
      have h2 := hall p hp
      have : p = (Index.root, v - 1) := by
        rw [← hpr, ← h2]
      rw [← this]
      exact hp
    refine ⟨hInv.mesh, hInv.nodup, hInv.root, ?_, Phase.fired v, ?_⟩
    · intro m hm
      obtain ⟨e, he, hem⟩ := List.mem_map.1 hm
      rw [← hem]
      have : e = (e.1, e.2) := rfl
      rw [this, callback_msg_target]
      exact List.mem_map.2 ⟨_, (h10 e he).2, rfl⟩
    · refine ⟨h1, h2, h3, h4, he1, rfl, hall, ?_, ?_, s.barriers, s.qd, rfl, h13, h14,
        fun e he => (h10 e he).1, ?_⟩
      · intro m hm
        obtain ⟨e, he, hem⟩ := List.mem_map.1 hm
        exact ⟨e.2, by rw [← hem, ← (h10 e he).1]⟩
      · show (s.qd.map callback_msg).count (callback_msg (callback_of v, Index.root)) = 1
        rw [hmap]
        apply List.count_eq_one_of_mem
        · exact List.Nodup.map (callback_msg_injective _) h9
        · exact List.mem_map.2 ⟨Index.root, h11 hroot, rfl⟩
      · intro hv
        rw [List.perm_ext_iff_of_nodup h9 hInv.nodup]
        intro i
        constructor
        · intro hi
          obtain ⟨e, he, hei⟩ := List.mem_map.1 hi
          rw [← hei]
          exact List.mem_map.2 ⟨_, (h10 e he).2, rfl⟩
        · intro hi
          obtain ⟨p, hp, hpi⟩ := List.mem_map.1 hi
          apply h12 hv i
          have : p = (i, v - 1) := by
            rw [← hpi, ← hall p hp]
          rw [← this]
          exact hp

/-- What a block that runs `p_adapt` does to the view: its own counter goes
down by one, and the blocks it creates, if any, are new, are not the root, and
carry the decremented counter. -/
theorem adapt_view_facts (sim : Simulation) (m : Mesh) (i : Index)
    (g : CommBlock → CommBlock) (n : CommBlock → Int) (b : CommBlock)
    (hInv : m.Inv sim)
    (hf : m.blocks.find? (fun b => decide (b.thisIndex = i)) = some b)
    (hg : ∀ x, (g x).thisIndex = x.thisIndex ∧ (g x).level_ = x.level_ ∧
      (g x).depth_ = x.depth_) :
    ∃ K : List (Index × Int),
      (m.run_handler sim i (fun x => p_adapt sim (n x) (g x))).view
        = view_set m.view i ((g b).count_adapt_ - 1) ++ K ∧
      (∀ p ∈ K, p.2 = (g b).count_adapt_ - 1 ∧ p.1 ∉ m.view.map Prod.fst ∧
        p.1 ≠ Index.root) ∧
      (K.map Prod.fst).Nodup ∧ (K ≠ [] → 0 < (g b).count_adapt_) := by
  obtain ⟨hb, hbi, _⟩ := find_block_spec m i b hf
  obtain ⟨hg1, hg2, hg3⟩ := hg b
  have hbwf := hInv.wf b hb
  refine ⟨kids_view sim (g b) (decide (refines sim (g b))), ?_, ?_, ?_, ?_⟩
  · rw [view_run_handler sim m i (fun x => p_adapt sim (n x) (g x)) b hf
      (((p_adapt_block sim (n b) (g b)).1.trans hg1).trans hbi)]
    show view_set m.view i (p_adapt sim (n b) (g b)).1.count_adapt_
        ++ ((p_adapt sim (n b) (g b)).2.filterMap (Effect.to_block sim b.cycle_)).map
            (fun x => (x.thisIndex, x.count_adapt_)) = _
    rw [(p_adapt_block sim (n b) (g b)).2.2, p_adapt_kids]
  · intro p hp
    unfold kids_view at hp
    by_cases hr : refines sim (g b)
    · simp only [hr, decide_True, if_true, List.mem_map, List.mem_range] at hp
      obtain ⟨ic, hic, hpe⟩ := hp
      rw [← hpe, refine_child_index_congr b (g b) ic hg1 hg2]
      refine ⟨rfl, ?_, ?_⟩
      · intro hmem
        simp only [Mesh.view, List.map_map, List.mem_map, Function.comp] at hmem
        obtain ⟨x, hx, hxe⟩ := hmem
        have hleaf := refines_leaf sim (g b) hr
        have hz := (is_leaf_iff_getD sim (g b)).1 hleaf ic hic
        rw [hg3] at hz
        exact hInv.zero_no_child b hb ic hic hz x hx hxe
      · intro he
        have := congrArg Index.level he
        rw [refine_child_index_level] at this
        exact absurd this (by simp [Index.root])
    · simp [hr] at hp
  · unfold kids_view
    by_cases hr : refines sim (g b)
    · simp only [hr, decide_True, if_true, List.map_map]
      apply List.Nodup.map_on _ (List.nodup_range _)
      intro x hx y hy hxy
      simp only [Function.comp] at hxy
      rw [refine_child_index_congr b (g b) x hg1 hg2,
        refine_child_index_congr b (g b) y hg1 hg2] at hxy
      exact (refine_child_index_injective sim b b x y hbwf hbwf (List.mem_range.1 hx)
        (List.mem_range.1 hy) hxy).2
    · simp [hr]
  · intro hne
    unfold kids_view at hne
    by_cases hr : refines sim (g b)
    · exact hr.1
    · simp [hr] at hne

/-- The base facts of the invariant after a block has run `p_adapt`. -/
theorem adapt_base_facts (v : List (Index × Int)) (i : Index) (c : Int)
    (K : List (Index × Int)) (hn : (v.map Prod.fst).Nodup) (hi : i ∈ v.map Prod.fst)
    (hK : ∀ p ∈ K, p.1 ∉ v.map Prod.fst) (hKn : (K.map Prod.fst).Nodup) :
    ((view_set v i c ++ K).map Prod.fst).Nodup ∧
    (∀ j, j ∈ v.map Prod.fst → j ∈ (view_set v i c ++ K).map Prod.fst) ∧
    (∀ p, p ∈ view_set v i c ++ K ↔ (p ∈ v ∧ p.1 ≠ i) ∨ p = (i, c) ∨ p ∈ K) := by
  refine ⟨?_, ?_, ?_⟩
  · rw [List.map_append, map_fst_view_set, List.nodup_append]
    refine ⟨hn, hKn, ?_⟩
    intro a ha hb
    obtain ⟨p, hp, hpa⟩ := List.mem_map.1 hb
    rw [← hpa] at ha
    exact hK p hp ha
  · intro j hj
    rw [List.map_append, map_fst_view_set]
    exact List.mem_append_left _ hj
  · intro p
    rw [List.mem_append, mem_view_set]
    constructor
    · rintro ((h | h) | h)
      · exact Or.inl h
      · exact Or.inr (Or.inl h.1)
      · exact Or.inr (Or.inr h)
    · rintro (h | h | h)
      · exact Or.inl (Or.inl h)
      · exact Or.inl (Or.inr ⟨h, hi⟩)
      · exact Or.inr h

theorem adapt_targets_perm (ctl : List Ctl) (k : Nat) (i : Index) (n : Int)
    (h : ctl[k]? = some (Ctl.p_adapt i n)) :
    (adapt_targets ctl).Perm (i :: adapt_targets (ctl.eraseIdx k)) := by
  have := (perm_cons_eraseIdx ctl k _ h).filterMap Ctl.adapt_target
  rw [List.filterMap_cons] at this
  exact this

/-- The invariant survives the delivery of a call of `p_adapt`. -/
theorem PhaseInv.adapt (sim : Simulation) (N : Int) (s : Proto) (k : Nat) (i : Index) (n : Int)
    (hInv : PhaseInv sim N s) (h : s.ctl[k]? = some (Ctl.p_adapt i n)) :
    PhaseInv sim N (s.step sim (PEvent.ctl k)) := by
  cases hf : s.mesh.blocks.find? (fun b => decide (b.thisIndex = i)) with
  | none => rw [step_ctl_no_target sim s k _ h hf]; exact hInv
  | some b =>
    rw [step_p_adapt sim s k i n b h hf]
    obtain ⟨hb, hbi, hbv⟩ := find_block_spec s.mesh i b hf
    have hmem := mem_of_getElem?_eq_some _ _ _ h
    have hsub : (s.ctl.eraseIdx k).Sublist s.ctl := List.eraseIdx_sublist _ _
    obtain ⟨ph, hph⟩ := hInv.phase
    cases ph with
    | entering =>
      exfalso
      obtain ⟨_, _, h3, _⟩ := hph
      rw [h3] at hmem
      simp at hmem
    | fired v =>
      exfalso
      obtain ⟨_, _, _, _, _, _, _, h8, _⟩ := hph
      obtain ⟨j, hj⟩ := h8 _ hmem
      unfold callback_of at hj
      split at hj <;> simp [callback_msg] at hj
    | finished v =>
      exfalso
      obtain ⟨_, _, _, _, _, _, _, _, h9, _⟩ := hph
      rcases h9 _ hmem with ⟨j, hj⟩ | ⟨j, _, hj⟩ <;> simp at hj
    | stepping v =>
      obtain ⟨h1, h2, h3, h4, h5, h6, h7, h8, h9, h10, h11, h12, h13, h14⟩ := hph
      -- the message carries `v`, and the block still has counter `v`
      have hnv : n = v := by
        rcases h8 _ hmem with ⟨j, hj⟩ | ⟨j, c, hj⟩ | ⟨j, _, hj⟩
        · simp only [Ctl.p_adapt.injEq] at hj
          exact hj.2
        · simp at hj
        · simp at hj
      have hperm := adapt_targets_perm s.ctl k i n h
      have hiT : i ∈ adapt_targets s.ctl := hperm.mem_iff.2 (List.mem_cons_self _ _)
      have hiv : (i, v) ∈ s.mesh.view := (h7 i).1 hiT
      have hcv : b.count_adapt_ = v := nodup_fst_unique _ hInv.nodup i _ _ hbv hiv
      have hnd : (i :: adapt_targets (s.ctl.eraseIdx k)).Nodup := hperm.nodup_iff.1 h6
      rw [List.nodup_cons] at hnd
      have hiV : i ∈ s.mesh.view.map Prod.fst := List.mem_map.2 ⟨_, hiv, rfl⟩
      -- the view after the step
      obtain ⟨K, hview, hK, hKn, hKpos⟩ := adapt_view_facts sim s.mesh i (fun x => x)
        (fun _ => n) b hInv.mesh hf (fun _ => ⟨rfl, rfl, rfl⟩)
      rw [hcv] at hview hK hKpos
      have hview2 : (s.mesh.step sim (Event.step i n)).view
          = view_set s.mesh.view i (v - 1) ++ K := hview
      obtain ⟨hb1, hb2, hb3⟩ := adapt_base_facts s.mesh.view i (v - 1) K hInv.nodup hiV
        (fun p hp => (hK p hp).2.1) hKn
      -- block `i` is not registered yet
      have hiq : i ∉ s.qd.map Prod.snd := by
        intro hq
        obtain ⟨e, he, hei⟩ := List.mem_map.1 hq
        have := (h10 e he).2
        rw [hei] at this
        have := nodup_fst_unique _ hInv.nodup i _ _ this hiv
        omega
      rw [hbi, hcv]
      refine ⟨Mesh.Inv.step sim s.mesh (Event.step i n) hInv.mesh, ?_, ?_, ?_,
        Phase.stepping v, ?_⟩
      · show ((s.mesh.step sim (Event.step i n)).view.map Prod.fst).Nodup
        rw [hview2]
        exact hb1
      · show Index.root ∈ (s.mesh.step sim (Event.step i n)).view.map Prod.fst
        rw [hview2]
        exact hb2 _ hInv.root
      · intro m hm
        show m.target ∈ (s.mesh.step sim (Event.step i n)).view.map Prod.fst
        rw [hview2]
        exact hb2 _ (hInv.targets m (hsub.subset hm))
      · show _ ∧ _ ∧ _ ∧ _ ∧
          (∀ p ∈ (s.mesh.step sim (Event.step i n)).view, p.2 = v ∨ p.2 = v - 1) ∧
          (adapt_targets (s.ctl.eraseIdx k)).Nodup ∧
          (∀ j, j ∈ adapt_targets (s.ctl.eraseIdx k)
            ↔ (j, v) ∈ (s.mesh.step sim (Event.step i n)).view) ∧
          (∀ m ∈ s.ctl.eraseIdx k, _) ∧
          ((s.qd ++ [(callback_of v, i)]).map Prod.snd).Nodup ∧
          (∀ e ∈ s.qd ++ [(callback_of v, i)], e.1 = callback_of v ∧
            (e.2, v - 1) ∈ (s.mesh.step sim (Event.step i n)).view) ∧
          ((Index.root, v - 1) ∈ (s.mesh.step sim (Event.step i n)).view →
            Index.root ∈ (s.qd ++ [(callback_of v, i)]).map Prod.snd) ∧
          (v ≤ 0 → ∀ j, (j, v - 1) ∈ (s.mesh.step sim (Event.step i n)).view →
            j ∈ (s.qd ++ [(callback_of v, i)]).map Prod.snd) ∧ _ ∧ _
        rw [hview2]
        refine ⟨h1, h2, h3, h4, ?_, hnd.2, ?_, fun m hm => h8 m (hsub.subset hm), ?_, ?_, ?_, ?_,
          h13, h14⟩
        · intro p hp
          rcases (hb3 p).1 hp with ⟨hp1, _⟩ | hp1 | hp1
          · exact h5 p hp1
          · rw [hp1]
            exact Or.inr rfl
          · exact Or.inr (hK p hp1).1
        · intro j
          constructor
          · intro hj
            have hjT : j ∈ adapt_targets s.ctl := hperm.mem_iff.2 (List.mem_cons_of_mem _ hj)
            have hji : j ≠ i := fun e => hnd.1 (e ▸ hj)
            exact (hb3 _).2 (Or.inl ⟨(h7 j).1 hjT, hji⟩)
          · intro hj
            rcases (hb3 _).1 hj with ⟨hp1, hp2⟩ | hp1 | hp1
            · have hjT : j ∈ adapt_targets s.ctl := (h7 j).2 hp1
              rcases List.mem_cons.1 (hperm.mem_iff.1 hjT) with e | hm
              · exact absurd e hp2
              · exact hm
            · have := (Prod.mk.inj hp1).2
              omega
            · have := (hK _ hp1).1
              simp only at this
              omega
        · rw [List.map_append, List.nodup_append]
          refine ⟨h9, by simp, ?_⟩
          intro a ha hb
          simp only [List.map_cons, List.map_nil, List.mem_singleton] at hb
          rw [hb] at ha
          exact hiq ha
        · intro e he
          rcases List.mem_append.1 he with he | he
          · refine ⟨(h10 e he).1, (hb3 _).2 (Or.inl ⟨(h10 e he).2, ?_⟩)⟩
            intro hei
            exact hiq (List.mem_map.2 ⟨e, he, hei⟩)
          · simp only [List.mem_singleton] at he
            rw [he]
            exact ⟨rfl, (hb3 _).2 (Or.inr (Or.inl rfl))⟩
        · intro hr
          rw [List.map_append]
          rcases (hb3 _).1 hr with ⟨hp1, _⟩ | hp1 | hp1
          · exact List.mem_append_left _ (h11 hp1)
          · have := (Prod.mk.inj hp1).1
            rw [this]
            exact List.mem_append_right _ (by simp)
          · exact absurd rfl (hK _ hp1).2.2
        · intro hv j hj
          rw [List.map_append]
          rcases (hb3 _).1 hj with ⟨hp1, _⟩ | hp1 | hp1
          · exact List.mem_append_left _ (h12 hv j hp1)
          · have := (Prod.mk.inj hp1).1
            rw [this]
            exact List.mem_append_right _ (by simp)
          · exfalso
            have := hKpos (List.ne_nil_of_mem hp1)
            omega

/-- The invariant survives the delivery of the call of `p_adapt_enter`. -/
theorem PhaseInv.enter (sim : Simulation) (N : Int) (s : Proto) (k : Nat) (i : Index)
    (hInv : PhaseInv sim N s) (h : s.ctl[k]? = some (Ctl.p_adapt_enter i)) :
    PhaseInv sim N (s.step sim (PEvent.ctl k)) := by
  cases hf : s.mesh.blocks.find? (fun b => decide (b.thisIndex = i)) with
  | none => rw [step_ctl_no_target sim s k _ h hf]; exact hInv
  | some b =>
    rw [step_p_adapt_enter sim s k i b h hf]
    obtain ⟨hb, hbi, hbv⟩ := find_block_spec s.mesh i b hf
    have hmem := mem_of_getElem?_eq_some _ _ _ h
    obtain ⟨ph, hph⟩ := hInv.phase
    cases ph with
    | stepping v =>
      exfalso
      obtain ⟨_, _, _, _, _, _, _, h8, _⟩ := hph
      rcases h8 _ hmem with ⟨j, hj⟩ | ⟨j, c, hj⟩ | ⟨j, _, hj⟩ <;> simp at hj
    | fired v =>
      exfalso
      obtain ⟨_, _, _, _, _, _, _, h8, _⟩ := hph
      obtain ⟨j, hj⟩ := h8 _ hmem
      unfold callback_of at hj
      split at hj <;> simp [callback_msg] at hj
    | finished v =>
      exfalso
      obtain ⟨_, _, _, _, _, _, _, _, h9, _⟩ := hph
      rcases h9 _ hmem with ⟨j, hj⟩ | ⟨j, _, hj⟩ <;> simp at hj
    | entering =>
      obtain ⟨⟨r, hr1, hr2, hr3⟩, h2, h3, h4, h5, h6, h7⟩ := hph
      rw [hr1, List.mem_singleton] at hb
      rw [h3] at hmem h
      simp only [List.mem_singleton, Ctl.p_adapt_enter.injEq] at hmem
      subst hmem
      have hk : k = 0 := by
        cases k with
        | zero => rfl
        | succ n => simp at h
      have hN : enter_count sim b = N := by rw [hb]; exact hr3
      have hV : s.mesh.view = [(Index.root, r.count_adapt_)] := by
        unfold Mesh.view
        rw [hr1, List.map_cons, List.map_nil, hr2]
      obtain ⟨K, hview, hK, hKn, hKpos⟩ := adapt_view_facts sim s.mesh Index.root
        (fun x => { x with count_adapt_ := enter_count sim x }) (fun x => enter_count sim x) b
        hInv.mesh hf (fun _ => ⟨rfl, rfl, rfl⟩)
      have hview2 : (s.mesh.step sim (Event.enter Index.root)).view
          = view_set s.mesh.view Index.root (N - 1) ++ K := by
        rw [← hN]
        exact hview
      have hK2 : ∀ p ∈ K, p.2 = N - 1 ∧ p.1 ∉ s.mesh.view.map Prod.fst ∧ p.1 ≠ Index.root := by
        intro p hp
        have := hK p hp
        rw [← hN]
        exact this
      have hKpos2 : K ≠ [] → 0 < N := by
        intro hne
        rw [← hN]
        exact hKpos hne
      have hiV : Index.root ∈ s.mesh.view.map Prod.fst := List.mem_map.2 ⟨_, hbv, rfl⟩
      obtain ⟨hb1, hb2, hb3⟩ := adapt_base_facts s.mesh.view Index.root (N - 1) K hInv.nodup hiV
        (fun p hp => (hK2 p hp).2.1) hKn
      have hold : ∀ p, p ∈ s.mesh.view → p.1 = Index.root := by
        intro p hp
        rw [hV, List.mem_singleton] at hp
        rw [hp]
      rw [h3, h4, hk, hN, hbi]
      refine ⟨Mesh.Inv.step sim s.mesh (Event.enter Index.root) hInv.mesh, ?_, ?_, ?_,
        Phase.stepping N, ?_⟩
      · show ((s.mesh.step sim (Event.enter Index.root)).view.map Prod.fst).Nodup
        rw [hview2]
        exact hb1
      · show Index.root ∈ (s.mesh.step sim (Event.enter Index.root)).view.map Prod.fst
        rw [hview2]
        exact hb2 _ hInv.root
      · intro m hm
        simp at hm
      · show _ ∧ _ ∧ _ ∧ _ ∧
          (∀ p ∈ (s.mesh.step sim (Event.enter Index.root)).view, p.2 = N ∨ p.2 = N - 1) ∧
          (adapt_targets ([Ctl.p_adapt_enter Index.root].eraseIdx 0)).Nodup ∧
          (∀ j, j ∈ adapt_targets ([Ctl.p_adapt_enter Index.root].eraseIdx 0)
            ↔ (j, N) ∈ (s.mesh.step sim (Event.enter Index.root)).view) ∧
          (∀ m ∈ [Ctl.p_adapt_enter Index.root].eraseIdx 0, _) ∧
          ((([] : List (Callback × Index)) ++ [(callback_of N, Index.root)]).map Prod.snd).Nodup ∧
          (∀ e ∈ ([] : List (Callback × Index)) ++ [(callback_of N, Index.root)],
            e.1 = callback_of N ∧
            (e.2, N - 1) ∈ (s.mesh.step sim (Event.enter Index.root)).view) ∧
          ((Index.root, N - 1) ∈ (s.mesh.step sim (Event.enter Index.root)).view →
            Index.root ∈ (([] : List (Callback × Index))
              ++ [(callback_of N, Index.root)]).map Prod.snd) ∧
          (N ≤ 0 → ∀ j, (j, N - 1) ∈ (s.mesh.step sim (Event.enter Index.root)).view →
            j ∈ (([] : List (Callback × Index))
              ++ [(callback_of N, Index.root)]).map Prod.snd) ∧ _ ∧ _
        rw [hview2]
        have hall : ∀ p ∈ view_set s.mesh.view Index.root (N - 1) ++ K, p.2 = N - 1 := by
          intro p hp
          rcases (hb3 p).1 hp with ⟨hp1, hp2⟩ | hp1 | hp1
          · exact absurd (hold p hp1) hp2
          · rw [hp1]
          · exact (hK2 p hp1).1
        refine ⟨le_refl _, Or.inr rfl, by rw [h5, countdown_self], h6, ?_, by simp [adapt_targets],
          ?_, by simp, by simp, ?_, by simp, ?_, by rw [h7]; simp, by rw [h7]; simp⟩
        · intro p hp
          exact Or.inr (hall p hp)
        · intro j
          constructor
          · intro hj
            simp [adapt_targets] at hj
          · intro hj
            have := hall _ hj
            simp only at this
            omega
        · intro e he
          simp only [List.nil_append, List.mem_singleton] at he
          rw [he]
          exact ⟨rfl, (hb3 _).2 (Or.inr (Or.inl rfl))⟩
        · intro hN0 j hj
          rcases (hb3 _).1 hj with ⟨hp1, hp2⟩ | hp1 | hp1
          · exact absurd (hold _ hp1) hp2
          · have := (Prod.mk.inj hp1).1
            rw [this]
            simp
          · exfalso
            have := hKpos2 (List.ne_nil_of_mem hp1)
            omega

theorem p_update_depth_effects (b : CommBlock) (ic : Int) (depth : Int) :
    (p_update_depth b ic depth).2 = forward_effects b depth := by
  unfold p_update_depth forward_effects parent_index own_slot
  by_cases h : b.level_ > 0 <;> simp [h]

theorem filter_eraseIdx_true {α : Type} (p : α → Bool) (l : List α) (k : Nat) (a : α)
    (h : l[k]? = some a) (hp : p a = true) :
    ((l.eraseIdx k).filter p).length + 1 = (l.filter p).length := by
  have := ((perm_cons_eraseIdx l k a h).filter p).length_eq
  rw [List.filter_cons, if_pos hp, List.length_cons] at this
  exact this.symm

/-- The root callback `q_adapt_exit` is in flight only after the barrier of a
step whose counter was not positive. -/
theorem fired_of_root_q_adapt_exit (sim : Simulation) (N : Int) (s : Proto) (k : Nat)
    (hInv : PhaseInv sim N s) (h : s.ctl[k]? = some (Ctl.q_adapt_exit Index.root)) :
    ∃ v, v ≤ 0 ∧ PhaseOK sim N s (Phase.fired v) := by
  have hmem := mem_of_getElem?_eq_some _ _ _ h
  obtain ⟨ph, hph⟩ := hInv.phase
  cases ph with
  | entering =>
    exfalso
    obtain ⟨_, _, h3, _⟩ := hph
    rw [h3] at hmem
    simp at hmem
  | stepping v =>
    exfalso
    obtain ⟨_, _, _, _, _, _, _, h8, _⟩ := hph
    rcases h8 _ hmem with ⟨j, hj⟩ | ⟨j, c, hj⟩ | ⟨j, hne, hj⟩ <;> simp at hj
  | finished v =>
    exfalso
    obtain ⟨_, _, _, _, _, _, _, _, h9, _⟩ := hph
    rcases h9 _ hmem with ⟨j, hj⟩ | ⟨j, hne, hj⟩
    · simp at hj
    · simp only [Ctl.q_adapt_exit.injEq] at hj
      exact hne hj.symm
  | fired v =>
    refine ⟨v, ?_, hph⟩
    obtain ⟨_, _, _, _, _, _, _, h8, _⟩ := hph
    obtain ⟨j, hj⟩ := h8 _ hmem
    by_contra hv
    have hv2 : 0 < v := by omega
    simp [callback_of, hv2, callback_msg] at hj

theorem mem_adapt_targets (ctl : List Ctl) (i : Index) :
    i ∈ adapt_targets ctl ↔ ∃ n, Ctl.p_adapt i n ∈ ctl := by
  unfold adapt_targets
  rw [List.mem_filterMap]
  constructor
  · rintro ⟨m, hm, hi⟩
    cases m <;> simp [Ctl.adapt_target] at hi
    rw [← hi]
    exact ⟨_, hm⟩
  · rintro ⟨n, hn⟩
    exact ⟨_, hn, rfl⟩

theorem count_callbacks_p_adapt (qd : List (Callback × Index)) (j : Index) (c : Int) :
    (qd.map callback_msg).count (Ctl.p_adapt j c) = 0 := by
  apply List.count_eq_zero_of_not_mem
  intro hm
  obtain ⟨x, _, hx⟩ := List.mem_map.1 hm
  obtain ⟨cb, i⟩ := x
  cases cb <;> simp [callback_msg] at hx

theorem p_update_depth_block (b : CommBlock) (ic : Int) (depth : Int) :
    (p_update_depth b ic depth).1
      = { b with depth_ := if 0 ≤ ic then depth_max b.depth_ ic.toNat depth else b.depth_ } := by
  unfold p_update_depth depth_max
  by_cases h : b.level_ > 0 <;> simp [h]

theorem deliver_depths_cons (b : CommBlock) (u : Int × Int) (us : List (Int × Int)) :
    deliver_depths b (u :: us) = deliver_depths (p_update_depth b u.1 u.2).1 us := rfl

theorem deliver_depths_append (b : CommBlock) (us vs : List (Int × Int)) :
    deliver_depths b (us ++ vs) = deliver_depths (deliver_depths b us) vs := by
  unfold deliver_depths
  rw [List.foldl_append]

/-- A sequence of depth updates touches the depth vector only, and keeps its
length. -/
theorem deliver_depths_frame (b : CommBlock) (us : List (Int × Int)) :
    deliver_depths b us = { b with depth_ := (deliver_depths b us).depth_ } ∧
    (deliver_depths b us).depth_.length = b.depth_.length := by
  induction us generalizing b with
  | nil => exact ⟨rfl, rfl⟩
  | cons u us ih =>
    rw [deliver_depths_cons]
    obtain ⟨h1, h2⟩ := ih (p_update_depth b u.1 u.2).1
    rw [p_update_depth_block] at h1 h2 ⊢
    constructor
    · rw [h1]
    · rw [h2]
      by_cases h : 0 ≤ u.1
      · simp only [if_pos h]
        exact length_depth_max _ _ _
      · simp only [if_neg h]

theorem p_update_depth_getD (b : CommBlock) (ic : Int) (depth : Int) (j : Nat) :
    (p_update_depth b ic depth).1.depth_.getD j 0
      = if ic = (j : Int) ∧ j < b.depth_.length then max (b.depth_.getD j 0) depth
        else b.depth_.getD j 0 := by
  rw [p_update_depth_block]
  show (if 0 ≤ ic then depth_max b.depth_ ic.toNat depth else b.depth_).getD j 0 = _
  by_cases h0 : 0 ≤ ic
  · rw [if_pos h0, getD_depth_max]
    by_cases hj : ic = (j : Int)
    · have ht : ic.toNat = j := by omega
      by_cases hl : j < b.depth_.length
      · rw [if_pos ⟨ht, hl⟩, if_pos ⟨hj, hl⟩]
      · rw [if_neg (fun h => hl h.2), if_neg (fun h => hl h.2)]
    · have ht : ic.toNat ≠ j := by omega
      rw [if_neg (fun h => ht h.1), if_neg (fun h => hj h.1)]
  · have hj : ic ≠ (j : Int) := by omega
    rw [if_neg h0, if_neg (fun h => hj h.1)]

/-- Entry `j` after a sequence of depth updates: the running maximum of the
old entry and the depths delivered to slot `j`. -/
theorem deliver_depths_getD (b : CommBlock) (us : List (Int × Int)) (j : Nat)
    (hj : j < b.depth_.length) :
    (deliver_depths b us).depth_.getD j 0
      = ((us.filter (fun u => decide (u.1 = (j : Int)))).map Prod.snd).foldl max
          (b.depth_.getD j 0) := by
  induction us generalizing b with
  | nil => rfl
  | cons u us ih =>
    rw [deliver_depths_cons]
    have hlen : (p_update_depth b u.1 u.2).1.depth_.length = b.depth_.length := by
      rw [p_update_depth_block]
      by_cases h : 0 ≤ u.1
      · simp only [if_pos h]
        exact length_depth_max _ _ _
      · simp only [if_neg h]
    rw [ih (p_update_depth b u.1 u.2).1 (by rw [hlen]; exact hj), p_update_depth_getD]
    by_cases hu : u.1 = (j : Int)
    · have hf : (u :: us).filter (fun u => decide (u.1 = (j : Int)))
          = u :: us.filter (fun u => decide (u.1 = (j : Int))) := by
        rw [List.filter_cons, if_pos (by simpa using hu)]
      rw [hf, if_pos ⟨hu, hj⟩]
      rfl
    · have hf : (u :: us).filter (fun u => decide (u.1 = (j : Int)))
          = us.filter (fun u => decide (u.1 = (j : Int))) := by
        rw [List.filter_cons, if_neg (by simpa using hu)]
      rw [hf, if_neg (fun h => hu h.1)]

theorem length_slotwise_max (init : List Int) (us : List (Int × Int)) :
    (slotwise_max init us).length = init.length := by
  simp [slotwise_max]

theorem getD_slotwise_max (init : List Int) (us : List (Int × Int)) (j : Nat)
    (hj : j < init.length) :
    (slotwise_max init us).getD j 0
      = ((us.filter (fun u => decide (u.1 = (j : Int)))).map Prod.snd).foldl max
          (init.getD j 0) := by
  unfold slotwise_max
  rw [List.getD_eq_getElem?_getD, List.getElem?_map, List.getElem?_range hj]
  rfl

theorem list_ext_getD (l1 l2 : List Int) (hlen : l1.length = l2.length)
    (h : ∀ j, j < l1.length → l1.getD j 0 = l2.getD j 0) : l1 = l2 := by
  apply List.ext_getElem hlen
  intro i h1 h2
  have := h i h1
  rw [List.getD_eq_getElem?_getD, List.getD_eq_getElem?_getD, List.getElem?_eq_getElem h1,
    List.getElem?_eq_getElem h2] at this
  simpa using this

theorem deliver_depths_eq_slotwise_max (b : CommBlock) (us : List (Int × Int)) :
    (deliver_depths b us).depth_ = slotwise_max b.depth_ us := by
  apply list_ext_getD
  · rw [(deliver_depths_frame b us).2, length_slotwise_max]
  · intro j hj
    rw [(deliver_depths_frame b us).2] at hj
    rw [deliver_depths_getD b us j hj, getD_slotwise_max b.depth_ us j hj]

/-- The running maximum depends on the set of the values only. -/
theorem foldl_max_congr (l1 l2 : List Int) (init : Int) (h : ∀ x, x ∈ l1 ↔ x ∈ l2) :
    l1.foldl max init = l2.foldl max init := by
  obtain ⟨a1, a2, a3⟩ := foldl_max_spec l1 init
  obtain ⟨b1, b2, b3⟩ := foldl_max_spec l2 init
  apply le_antisymm
  · rcases a3 with a3 | a3
    · rw [a3]
      exact b1
    · exact b2 _ ((h _).1 a3)
  · rcases b3 with b3 | b3
    · rw [b3]
      exact a1
    · exact a2 _ ((h _).2 b3)

theorem slotwise_max_congr (init : List Int) (us vs : List (Int × Int))
    (h : ∀ u, u ∈ vs ↔ u ∈ us) : slotwise_max init vs = slotwise_max init us := by
  unfold slotwise_max
  apply List.map_congr_left
  intro j _
  apply foldl_max_congr
  intro x
  simp only [List.mem_map, List.mem_filter]
  constructor
  · rintro ⟨u, ⟨hu, hs⟩, hx⟩
    exact ⟨u, ⟨(h u).1 hu, hs⟩, hx⟩
  · rintro ⟨u, ⟨hu, hs⟩, hx⟩
    exact ⟨u, ⟨(h u).2 hu, hs⟩, hx⟩

theorem deliver_depths_congr (b : CommBlock) (us vs : List (Int × Int))
    (h : ∀ u, u ∈ vs ↔ u ∈ us) : deliver_depths b vs = deliver_depths b us := by
  rw [(deliver_depths_frame b vs).1, (deliver_depths_frame b us).1,
    deliver_depths_eq_slotwise_max, deliver_depths_eq_slotwise_max,
    slotwise_max_congr b.depth_ us vs h]

theorem deliver_depths_mono (b : CommBlock) (us : List (Int × Int)) (j : Nat) :
    b.depth_.getD j 0 ≤ (deliver_depths b us).depth_.getD j 0 := by
  by_cases hj : j < b.depth_.length
  · rw [deliver_depths_getD b us j hj]
    exact (foldl_max_spec _ _).1
  · have h1 : b.depth_.getD j 0 = 0 := by
      rw [List.getD_eq_getElem?_getD, List.getElem?_eq_none (by omega)]
      rfl
    have h2 : (deliver_depths b us).depth_.getD j 0 = 0 := by
      rw [List.getD_eq_getElem?_getD,
        List.getElem?_eq_none (by rw [(deliver_depths_frame b us).2]; omega)]
      rfl
    rw [h1, h2]

/-- C21: depth updates are insensitive to delivery order and duplication.  For
every block and every finite sequence of updates `p_update_depth(slot, depth)`
on slots of its depth vector (a slot outside the vector is undefined in C++):
(1) the block afterwards is the old block with the slot-wise maximum of the
old vector and the delivered depths as depth vector, (2) where entry `j` of
the result is at least the old entry and every depth delivered to slot `j`,
and is one of them, so that no delivered depth is lost; (3) every permutation of the sequence yields the same
block; (4) so does every sequence with the same set of updates, however often
each one is delivered, (5) in particular the redelivery of an update of the
sequence; (6) no entry ever decreases: after every prefix of the sequence
each entry is at most what it is at the end. -/
theorem depth_updates_order_insensitive (b : CommBlock) (updates : List (Int × Int))
    (hslot : ∀ u ∈ updates, 0 ≤ u.1 ∧ u.1 < (b.depth_.length : Int)) :
    deliver_depths b updates = { b with depth_ := slotwise_max b.depth_ updates } ∧
    (∀ j, j < b.depth_.length →
      b.depth_.getD j 0 ≤ (deliver_depths b updates).depth_.getD j 0 ∧
      (∀ u ∈ updates, u.1 = (j : Int) →
        u.2 ≤ (deliver_depths b updates).depth_.getD j 0) ∧
      ((deliver_depths b updates).depth_.getD j 0 = b.depth_.getD j 0 ∨
        ∃ u ∈ updates, u.1 = (j : Int) ∧
          (deliver_depths b updates).depth_.getD j 0 = u.2)) ∧
    (∀ u ∈ updates, u.2 ≤ (deliver_depths b updates).depth_.getD u.1.toNat 0) ∧
    (∀ updates2, updates2.Perm updates →
      deliver_depths b updates2 = deliver_depths b updates) ∧
    (∀ updates2, (∀ u, u ∈ updates2 ↔ u ∈ updates) →
      deliver_depths b updates2 = deliver_depths b updates) ∧
    (∀ u ∈ updates, deliver_depths b (updates ++ [u]) = deliver_depths b updates) ∧
    (∀ pre post, updates = pre ++ post → ∀ j,
      (deliver_depths b pre).depth_.getD j 0
        ≤ (deliver_depths b updates).depth_.getD j 0) := by
  have hmax : ∀ (j : Nat), j < b.depth_.length → ∀ u ∈ updates, u.1 = (j : Int) →
      u.2 ≤ (deliver_depths b updates).depth_.getD j 0 := by
    intro j hj u hu huj
    rw [deliver_depths_getD b updates j hj]
    apply (foldl_max_spec _ _).2.1
    exact List.mem_map.2 ⟨u, List.mem_filter.2 ⟨hu, by simpa using huj⟩, rfl⟩
  refine ⟨?_, ?_, ?_, ?_, ?_, ?_, ?_⟩
  · rw [(deliver_depths_frame b updates).1, deliver_depths_eq_slotwise_max]
  · intro j hj
    rw [deliver_depths_getD b updates j hj]
    obtain ⟨a1, a2, a3⟩ := foldl_max_spec
      ((updates.filter (fun u => decide (u.1 = (j : Int)))).map Prod.snd) (b.depth_.getD j 0)
    refine ⟨a1, ?_, ?_⟩
    · intro u hu huj
      apply a2
      exact List.mem_map.2 ⟨u, List.mem_filter.2 ⟨hu, by simpa using huj⟩, rfl⟩
    · rcases a3 with a3 | a3
      · exact Or.inl a3
      · obtain ⟨u, hu, hux⟩ := List.mem_map.1 a3
        obtain ⟨hu1, hu2⟩ := List.mem_filter.1 hu
        exact Or.inr ⟨u, hu1, by simpa using hu2, hux.symm⟩
  · intro u hu
    obtain ⟨h0, h1⟩ := hslot u hu
    exact hmax u.1.toNat (by omega) u hu (by omega)
  · intro updates2 hperm
    exact deliver_depths_congr b updates updates2 (fun u => hperm.mem_iff)
  · intro updates2 hset
    exact deliver_depths_congr b updates updates2 hset
  · intro u hu
    apply deliver_depths_congr
    intro x
    rw [List.mem_append, List.mem_singleton]
    constructor
    · rintro (hx | hx)
      · exact hx
      · rw [hx]
        exact hu
    · intro hx
      exact Or.inl hx
  · intro pre post hsplit j
    rw [hsplit, deliver_depths_append]
    exact deliver_depths_mono (deliver_depths b pre) post j

/-- Witness of C21: a block with depth vector `[0, 0]` receives the updates
`(0, 2)`, `(1, 1)` and `(0, 1)`. -/
theorem depth_updates_order_insensitive_witness :
    (∀ u ∈ [((0 : Int), (2 : Int)), (1, 1), (0, 1)],
      0 ≤ u.1 ∧ u.1 < (level_one_block.depth_.length : Int)) ∧
    deliver_depths level_one_block [(0, 2), (1, 1), (0, 1)]
      = { level_one_block with
          depth_ := slotwise_max level_one_block.depth_ [(0, 2), (1, 1), (0, 1)] } ∧
    (deliver_depths level_one_block [(0, 2), (1, 1), (0, 1)]).depth_ = [2, 1] :=
  ⟨by decide,
    (depth_updates_order_insensitive level_one_block [(0, 2), (1, 1), (0, 1)] (by decide)).1,
    by decide⟩

/-! ## The protocol with block creations in flight: one step -/

theorem net_foldl_apply_effect (sim : Simulation) (cycle : Int) (es : List Effect) (s : Net) :
    es.foldl (Net.apply_effect sim cycle) s
      = { blocks := s.blocks,
          creating := s.creating ++ es.filterMap (Effect.to_block sim cycle),
          inflight := s.inflight ++ es.filterMap Effect.to_msg,
          ctl := s.ctl ++ es.flatMap (Effect.to_ctl s.blocks),
          qd := s.qd ++ es.filterMap Effect.to_callback } := by
  induction es generalizing s with
  | nil => simp
  | cons e es ih =>
    rw [List.foldl_cons, ih]
    unfold Net.apply_effect
    cases h1 : e.to_block sim cycle <;> cases h2 : e.to_msg <;> cases h3 : e.to_callback <;>
      simp [List.filterMap_cons, List.flatMap_cons, h1, h2, h3]

theorem net_run_handler_some (sim : Simulation) (s : Net) (i : Index)
    (h : CommBlock → CommBlock × List Effect) (b : CommBlock)
    (hf : s.blocks.find? (fun b => decide (b.thisIndex = i)) = some b) :
    Net.run_handler sim s i h
      = { blocks := s.blocks.map (fun x => if x.thisIndex = i then (h b).1 else x),
          creating := s.creating ++ (h b).2.filterMap (Effect.to_block sim b.cycle_),
          inflight := s.inflight ++ (h b).2.filterMap Effect.to_msg,
          ctl := s.ctl ++ (h b).2.flatMap
            (Effect.to_ctl (s.blocks.map (fun x => if x.thisIndex = i then (h b).1 else x))),
          qd := s.qd ++ (h b).2.filterMap Effect.to_callback } := by
  unfold Net.run_handler
  rw [hf]
  simp only
  rw [net_foldl_apply_effect]

theorem indices_map_replace (blocks : List CommBlock) (i : Index) (r : CommBlock)
    (h : r.thisIndex = i) :
    indices (blocks.map (fun x => if x.thisIndex = i then r else x)) = indices blocks := by
  unfold indices
  rw [List.map_map]
  apply List.map_congr_left
  intro x _
  simp only [Function.comp]
  split
  · rename_i hx
    rw [h, hx]
  · rfl

theorem to_ctl_indices (e : Effect) (blocks : List CommBlock) :
    e.to_ctl blocks
      = match e with
        | .bcast_p_print c => (indices blocks).map (fun i => Ctl.p_print i c)
        | .bcast_p_adapt c => (indices blocks).map (fun i => Ctl.p_adapt i c)
        | .bcast_p_refresh => (indices blocks).map (fun i => Ctl.p_refresh i)
        | _ => [] := by
  cases e <;> simp [Effect.to_ctl, indices, List.map_map, Function.comp]

theorem to_ctl_congr (e : Effect) (b1 b2 : List CommBlock) (h : indices b1 = indices b2) :
    e.to_ctl b1 = e.to_ctl b2 := by
  rw [to_ctl_indices e b1, to_ctl_indices e b2, h]

theorem flatMap_to_ctl_congr (es : List Effect) (b1 b2 : List CommBlock)
    (h : indices b1 = indices b2) :
    es.flatMap (Effect.to_ctl b1) = es.flatMap (Effect.to_ctl b2) := by
  induction es with
  | nil => rfl
  | cons e es ih => rw [List.flatMap_cons, List.flatMap_cons, ih, to_ctl_congr e b1 b2 h]

theorem flatMap_to_ctl_filter (es : List Effect) (blocks : List CommBlock) :
    es.flatMap (Effect.to_ctl blocks)
      = (es.filter Effect.is_control).flatMap (Effect.to_ctl blocks) := by
  induction es with
  | nil => rfl
  | cons e es ih =>
    rw [List.flatMap_cons, ih, List.filter_cons]
    cases e <;> simp [Effect.is_control, Effect.to_ctl]

theorem filterMap_to_callback_filter (es : List Effect) :
    es.filterMap Effect.to_callback
      = (es.filter Effect.is_control).filterMap Effect.to_callback := by
  induction es with
  | nil => rfl
  | cons e es ih =>
    rw [List.filter_cons]
    cases e <;> simp [Effect.is_control, Effect.to_callback, List.filterMap_cons, ih]

/-- The block that a handler returns keeps its index. -/
theorem handler_index (sim : Simulation) (msg : Ctl) (b : CommBlock) :
    (msg.handler sim b).1.thisIndex = b.thisIndex := by
  cases msg with
  | p_adapt_enter i =>
    exact (p_adapt_block sim (enter_count sim b)
      { b with count_adapt_ := enter_count sim b }).1
  | p_adapt i n => exact (p_adapt_block sim n b).1
  | q_adapt i =>
    show (q_adapt b).1.thisIndex = _
    rw [(q_adapt_quiet b sim).1]
  | q_adapt_exit i =>
    show (q_adapt_exit b).1.thisIndex = _
    rw [(q_adapt_quiet b sim).2.2.2.1]
  | p_print i c => rfl
  | p_refresh i => rfl

theorem p_adapt_creates (sim : Simulation) (n : Int) (b : CommBlock) (cycle : Int) :
    ∀ c ∈ (p_adapt sim n b).2.filterMap (Effect.to_block sim cycle),
      c.thisIndex ≠ Index.root := by
  intro c hc hroot
  have hk := p_adapt_kids sim n b cycle
  have hm : (c.thisIndex, c.count_adapt_) ∈ kids_view sim b (decide (refines sim b)) := by
    rw [← hk]
    exact List.mem_map.2 ⟨c, hc, rfl⟩
  unfold kids_view at hm
  split at hm
  · obtain ⟨ic, _, hic⟩ := List.mem_map.1 hm
    have h1 := (Prod.mk.inj hic).1
    have h2 := congrArg Index.level h1
    rw [refine_child_index_level, hroot] at h2
    exact absurd h2 (by simp [Index.root])
  · simp at hm

/-- No handler requests the creation of a block with the index of the root. -/
theorem handler_creates (sim : Simulation) (msg : Ctl) (b : CommBlock) (cycle : Int) :
    ∀ c ∈ (msg.handler sim b).2.filterMap (Effect.to_block sim cycle),
      c.thisIndex ≠ Index.root := by
  cases msg with
  | p_adapt_enter i =>
    exact p_adapt_creates sim (enter_count sim b)
      { b with count_adapt_ := enter_count sim b } cycle
  | p_adapt i n => exact p_adapt_creates sim n b cycle
  | q_adapt i =>
    intro c hc
    have : (q_adapt b).2.filterMap (Effect.to_block sim cycle) = [] :=
      (q_adapt_quiet b sim).2.1 cycle
    have hc2 : c ∈ (q_adapt b).2.filterMap (Effect.to_block sim cycle) := hc
    rw [this] at hc2
    simp at hc2
  | q_adapt_exit i =>
    intro c hc
    have : (q_adapt_exit b).2.filterMap (Effect.to_block sim cycle) = [] :=
      (q_adapt_quiet b sim).2.2.2.2.1 cycle
    have hc2 : c ∈ (q_adapt_exit b).2.filterMap (Effect.to_block sim cycle) := hc
    rw [this] at hc2
    simp at hc2
  | p_print i c =>
    intro c hc
    simp [Ctl.handler] at hc
  | p_refresh i =>
    intro c hc
    simp [Ctl.handler] at hc

/-- A call of `p_adapt` or `p_adapt_enter` broadcasts nothing and registers
exactly one callback, for the block itself. -/
theorem handler_step (sim : Simulation) (msg : Ctl) (b : CommBlock) (blocks : List CommBlock)
    (hs : msg.is_step = true) :
    (msg.handler sim b).2.flatMap (Effect.to_ctl blocks) = [] ∧
    ∃ cb, (msg.handler sim b).2.filterMap Effect.to_callback = [(cb, b.thisIndex)] := by
  have key : ∀ n x, (p_adapt sim n x).2.flatMap (Effect.to_ctl blocks) = [] ∧
      (p_adapt sim n x).2.filterMap Effect.to_callback
        = [(callback_of x.count_adapt_, x.thisIndex)] := by
    intro n x
    rw [flatMap_to_ctl_filter, filterMap_to_callback_filter, p_adapt_control]
    exact ⟨rfl, rfl⟩
  cases msg with
  | p_adapt_enter i =>
    obtain ⟨k1, k2⟩ := key (enter_count sim b) { b with count_adapt_ := enter_count sim b }
    exact ⟨k1, _, k2⟩
  | p_adapt i n =>
    obtain ⟨k1, k2⟩ := key n b
    exact ⟨k1, _, k2⟩
  | q_adapt i => simp [Ctl.is_step] at hs
  | q_adapt_exit i => simp [Ctl.is_step] at hs
  | p_print i c => simp [Ctl.is_step] at hs
  | p_refresh i => simp [Ctl.is_step] at hs

/-- A callback sends no depth message, requests no block and registers
nothing. -/
theorem handler_callback (sim : Simulation) (msg : Ctl) (b : CommBlock) (cycle : Int)
    (hs : msg.is_step = false) :
    (msg.handler sim b).2.filterMap (Effect.to_block sim cycle) = [] ∧
    (msg.handler sim b).2.filterMap Effect.to_msg = [] ∧
    (msg.handler sim b).2.filterMap Effect.to_callback = [] := by
  cases msg with
  | p_adapt_enter i => simp [Ctl.is_step] at hs
  | p_adapt i n => simp [Ctl.is_step] at hs
  | q_adapt i =>
    show (q_adapt b).2.filterMap _ = [] ∧ (q_adapt b).2.filterMap _ = [] ∧
      (q_adapt b).2.filterMap _ = []
    unfold q_adapt
    split <;> simp [Effect.to_block, Effect.to_msg, Effect.to_callback]
  | q_adapt_exit i =>
    show (q_adapt_exit b).2.filterMap _ = [] ∧ (q_adapt_exit b).2.filterMap _ = [] ∧
      (q_adapt_exit b).2.filterMap _ = []
    unfold q_adapt_exit
    split <;> simp [Effect.to_block, Effect.to_msg, Effect.to_callback]
  | p_print i c => simp [Ctl.handler]
  | p_refresh i => simp [Ctl.handler]

/-- The messages that a handler broadcasts: the root sends `p_print` and
`p_adapt` with its stored counter from `q_adapt`, and `p_refresh` from
`q_adapt_exit`; nothing else is ever broadcast. -/
theorem handler_broadcast (sim : Simulation) (msg : Ctl) (b : CommBlock)
    (blocks : List CommBlock) (hb : b.thisIndex = msg.target) :
    (msg = Ctl.q_adapt Index.root ∧
      (msg.handler sim b).2.flatMap (Effect.to_ctl blocks)
        = (indices blocks).map (fun i => Ctl.p_print i b.count_adapt_)
          ++ (indices blocks).map (fun i => Ctl.p_adapt i b.count_adapt_)) ∨
    (msg = Ctl.q_adapt_exit Index.root ∧
      (msg.handler sim b).2.flatMap (Effect.to_ctl blocks)
        = (indices blocks).map (fun i => Ctl.p_refresh i)) ∨
    (msg ≠ Ctl.q_adapt Index.root ∧ msg ≠ Ctl.q_adapt_exit Index.root ∧
      (msg.handler sim b).2.flatMap (Effect.to_ctl blocks) = []) := by
  cases msg with
  | p_adapt_enter i =>
    exact Or.inr (Or.inr ⟨by simp, by simp,
      (handler_step sim (Ctl.p_adapt_enter i) b blocks rfl).1⟩)
  | p_adapt i n =>
    exact Or.inr (Or.inr ⟨by simp, by simp, (handler_step sim (Ctl.p_adapt i n) b blocks rfl).1⟩)
  | p_print i c => exact Or.inr (Or.inr ⟨by simp, by simp, rfl⟩)
  | p_refresh i => exact Or.inr (Or.inr ⟨by simp, by simp, rfl⟩)
  | q_adapt i =>
    have hbi : b.thisIndex = i := hb
    by_cases hi : i = Index.root
    · refine Or.inl ⟨by rw [hi], ?_⟩
      show (q_adapt b).2.flatMap (Effect.to_ctl blocks) = _
      have hr : b.thisIndex.is_root = true := by simp [Index.is_root, hbi, hi]
      unfold q_adapt
      rw [if_pos hr]
      simp [List.flatMap_cons, to_ctl_indices]
    · refine Or.inr (Or.inr ⟨by simpa using hi, by simp, ?_⟩)
      show (q_adapt b).2.flatMap (Effect.to_ctl blocks) = _
      have hr : ¬ b.thisIndex.is_root = true := by simp [Index.is_root, hbi, hi]
      unfold q_adapt
      rw [if_neg hr]
      simp [List.flatMap_cons, Effect.to_ctl]
  | q_adapt_exit i =>
    have hbi : b.thisIndex = i := hb
    by_cases hi : i = Index.root
    · refine Or.inr (Or.inl ⟨by rw [hi], ?_⟩)
      show (q_adapt_exit b).2.flatMap (Effect.to_ctl blocks) = _
      have hr : b.thisIndex.is_root = true := by simp [Index.is_root, hbi, hi]
      unfold q_adapt_exit
      rw [if_pos hr]
      simp [List.flatMap_cons, to_ctl_indices]
    · refine Or.inr (Or.inr ⟨by simp, by simpa using hi, ?_⟩)
      show (q_adapt_exit b).2.flatMap (Effect.to_ctl blocks) = _
      have hr : ¬ b.thisIndex.is_root = true := by simp [Index.is_root, hbi, hi]
      unfold q_adapt_exit
      rw [if_neg hr]
      simp [List.flatMap_cons, Effect.to_ctl]

theorem net_step_ctl_none (sim : Simulation) (s : Net) (k : Nat) (h : s.ctl[k]? = none) :
    Net.step sim s (NEvent.ctl k) = s := by
  simp only [Net.step]
  rw [h]

theorem net_step_ctl_dead (sim : Simulation) (s : Net) (k : Nat) (msg : Ctl)
    (h : s.ctl[k]? = some msg)
    (hf : s.blocks.find? (fun b => decide (b.thisIndex = msg.target)) = none) :
    Net.step sim s (NEvent.ctl k) = s := by
  simp only [Net.step]
  rw [h]
  simp only
  rw [hf]
  rfl

/-- The delivery of a control message to its live target. -/
theorem net_step_ctl (sim : Simulation) (s : Net) (k : Nat) (msg : Ctl) (b : CommBlock)
    (h : s.ctl[k]? = some msg)
    (hf : s.blocks.find? (fun b => decide (b.thisIndex = msg.target)) = some b) :
    Net.step sim s (NEvent.ctl k)
      = { blocks := s.blocks.map
            (fun x => if x.thisIndex = msg.target then (msg.handler sim b).1 else x),
          creating := s.creating ++ (msg.handler sim b).2.filterMap (Effect.to_block sim b.cycle_),
          inflight := s.inflight ++ (msg.handler sim b).2.filterMap Effect.to_msg,
          ctl := s.ctl.eraseIdx k ++ (msg.handler sim b).2.flatMap (Effect.to_ctl s.blocks),
          qd := s.qd ++ (msg.handler sim b).2.filterMap Effect.to_callback } := by
  have hbi : b.thisIndex = msg.target := by simpa using List.find?_some hf
  simp only [Net.step]
  rw [h]
  simp only
  rw [hf]
  simp only [Option.isSome_some, if_true]
  rw [net_run_handler_some sim { s with ctl := s.ctl.eraseIdx k } msg.target (msg.handler sim) b
    hf]
  simp only
  rw [flatMap_to_ctl_congr _ _ s.blocks
    (indices_map_replace s.blocks msg.target _ ((handler_index sim msg b).trans hbi))]

theorem forward_effects_quiet (sim : Simulation) (b : CommBlock) (d : Int) (cycle : Int)
    (blocks : List CommBlock) :
    (forward_effects b d).filterMap (Effect.to_block sim cycle) = [] ∧
    (forward_effects b d).flatMap (Effect.to_ctl blocks) = [] ∧
    (forward_effects b d).filterMap Effect.to_callback = [] := by
  unfold forward_effects
  split <;> simp [Effect.to_block, Effect.to_ctl, Effect.to_callback]

/-- The delivery of a depth message to its live target. -/
theorem net_step_depth (sim : Simulation) (s : Net) (k : Nat) (msg : Msg) (b : CommBlock)
    (h : s.inflight[k]? = some msg)
    (hf : s.blocks.find? (fun b => decide (b.thisIndex = msg.target)) = some b) :
    Net.step sim s (NEvent.depth k)
      = { blocks := s.blocks.map
            (fun x => if x.thisIndex = msg.target then (p_update_depth b msg.ic msg.depth).1
              else x),
          creating := s.creating,
          inflight := s.inflight.eraseIdx k
            ++ (forward_effects b msg.depth).filterMap Effect.to_msg,
          ctl := s.ctl,
          qd := s.qd } := by
  simp only [Net.step]
  rw [h]
  simp only
  rw [hf]
  simp only [Option.isSome_some, if_true]
  rw [net_run_handler_some sim { s with inflight := s.inflight.eraseIdx k } msg.target
    (fun b => p_update_depth b msg.ic msg.depth) b hf]
  simp only
  obtain ⟨q1, q2, q3⟩ := forward_effects_quiet sim b msg.depth b.cycle_
    (s.blocks.map (fun x => if x.thisIndex = msg.target then
      (p_update_depth b msg.ic msg.depth).1 else x))
  rw [p_update_depth_effects, q1, q2, q3]
  simp only [List.append_nil]

/-! ## The invariant of the protocol with creations in flight -/

theorem count_root_steps (l : List Index) (c : Int) :
    ((l.map (fun i => Ctl.p_adapt i c)).filter Ctl.is_root_step).length
      = l.count Index.root := by
  induction l with
  | nil => rfl
  | cons i l ih =>
    rw [List.map_cons, List.filter_cons]
    by_cases hi : i = Index.root
    · have : Ctl.is_root_step (Ctl.p_adapt i c) = true := by
        simp [Ctl.is_root_step, Ctl.is_step, Ctl.target, hi]
      rw [if_pos this, List.length_cons, ih, hi, List.count_cons_self]
    · have : ¬ Ctl.is_root_step (Ctl.p_adapt i c) = true := by
        simp [Ctl.is_root_step, Ctl.is_step, Ctl.target, hi]
      rw [if_neg this, ih, List.count_cons_of_ne (Ne.symm hi)]

theorem filter_root_step_nil (l : List Ctl) (h : ∀ m ∈ l, m.is_step = false) :
    l.filter Ctl.is_root_step = [] := by
  rw [List.filter_eq_nil_iff]
  intro m hm
  simp [Ctl.is_root_step, h m hm]

theorem callback_not_step (m : Ctl) (h : m.is_callback = true) : m.is_step = false := by
  cases m <;> simp_all [Ctl.is_callback, Ctl.is_step]

/-- The invariant holds at the start of a cycle on any blocks among which
exactly one is the root. -/
theorem net_inv_start (blocks : List CommBlock)
    (hroot : (indices blocks).count Index.root = 1) : NetInv (Net.start blocks) := by
  refine ⟨hroot, ?_, Or.inl ⟨?_, ?_, ?_⟩⟩
  · intro c hc
    simp [Net.start] at hc
  · intro m hm
    simp only [Net.start, List.mem_singleton] at hm
    rw [hm]
    intro h
    simp [Ctl.is_callback] at h
  · intro i c j c2 hi
    simp [Net.start] at hi
  · simp [Net.start, Ctl.is_root_step, Ctl.is_step, Ctl.target]

theorem net_inv_create (sim : Simulation) (s : Net) (k : Nat) (hInv : NetInv s) :
    NetInv (Net.step sim s (NEvent.create k)) := by
  simp only [Net.step]
  cases hk : s.creating[k]? with
  | none => exact hInv
  | some c =>
    have hc := mem_of_getElem?_eq_some _ _ _ hk
    refine ⟨?_, ?_, ?_⟩
    · show (indices (s.blocks ++ [c])).count Index.root = 1
      unfold indices
      rw [List.map_append, List.count_append]
      have h1 : (indices s.blocks).count Index.root = 1 := hInv.root_live
      unfold indices at h1
      rw [h1]
      have : c.thisIndex ≠ Index.root := hInv.root_creating c hc
      have h0 : List.count Index.root [c.thisIndex] = 0 := by
        rw [List.count_cons_of_ne (Ne.symm this)]
        rfl
      show 1 + List.count Index.root [c.thisIndex] = 1
      omega
    · intro x hx
      exact hInv.root_creating x ((List.eraseIdx_sublist _ _).subset hx)
    · rcases hInv.phase with hw | ⟨_, f2, _⟩
      · exact Or.inl hw
      · rw [f2] at hk
        simp at hk

theorem net_inv_depth (sim : Simulation) (s : Net) (k : Nat) (hInv : NetInv s) :
    NetInv (Net.step sim s (NEvent.depth k)) := by
  cases hk : s.inflight[k]? with
  | none =>
    have : Net.step sim s (NEvent.depth k) = s := by
      simp only [Net.step]
      rw [hk]
    rw [this]
    exact hInv
  | some msg =>
    cases hf : s.blocks.find? (fun b => decide (b.thisIndex = msg.target)) with
    | none =>
      have : Net.step sim s (NEvent.depth k) = s := by
        simp only [Net.step]
        rw [hk]
        simp only
        rw [hf]
        rfl
      rw [this]
      exact hInv
    | some b =>
      have hbi : b.thisIndex = msg.target := by simpa using List.find?_some hf
      rw [net_step_depth sim s k msg b hk hf]
      refine ⟨?_, hInv.root_creating, ?_⟩
      · show (indices (s.blocks.map _)).count Index.root = 1
        have hidx : (p_update_depth b msg.ic msg.depth).1.thisIndex = msg.target := by
          rw [p_update_depth_block]
          exact hbi
        rw [indices_map_replace _ _ _ hidx]
        exact hInv.root_live
      · rcases hInv.phase with hw | ⟨f1, _⟩
        · exact Or.inl hw
        · rw [f1] at hk
          simp at hk

theorem net_inv_quiesce (sim : Simulation) (s : Net) (hInv : NetInv s) :
    NetInv (Net.step sim s NEvent.quiesce) := by
  have hs : Net.step sim s NEvent.quiesce
      = if s.inflight = [] ∧ s.creating = [] ∧ s.ctl = [] ∧ s.qd ≠ [] then
          { s with ctl := s.qd.map callback_msg, qd := [] }
        else s := rfl
  by_cases he : s.inflight = [] ∧ s.creating = [] ∧ s.ctl = [] ∧ s.qd ≠ []
  · rw [hs, if_pos he]
    refine ⟨hInv.root_live, hInv.root_creating, Or.inr ⟨he.1, he.2.1, rfl, ?_, ?_⟩⟩
    · intro m hm
      obtain ⟨x, _, hx⟩ := List.mem_map.1 hm
      obtain ⟨cb, i⟩ := x
      rw [← hx]
      cases cb <;> rfl
    · show ((s.qd.map callback_msg).map Ctl.target).count Index.root ≤ 1
      have hmap : (s.qd.map callback_msg).map Ctl.target = s.qd.map Prod.snd := by
        rw [List.map_map]
        apply List.map_congr_left
        intro x _
        exact callback_msg_target x.1 x.2
      rw [hmap]
      rcases hInv.phase with ⟨_, _, w3⟩ | ⟨_, _, f3, _⟩
      · omega
      · exact absurd f3 he.2.2.2
  · rw [hs, if_neg he]
    exact hInv

theorem not_mem_of_count_le (l : List Ctl) (k : Nat) (msg : Ctl) (h : l[k]? = some msg)
    (hr : msg.target = Index.root) (hc : (l.map Ctl.target).count Index.root ≤ 1) :
    ∀ m ∈ l.eraseIdx k, m.target ≠ Index.root := by
  intro m hm hmr
  have hp := ((perm_cons_eraseIdx l k msg h).map Ctl.target).count_eq Index.root
  rw [List.map_cons, hr, List.count_cons_self] at hp
  have : 0 < ((l.eraseIdx k).map Ctl.target).count Index.root :=
    List.count_pos_iff.2 (List.mem_map.2 ⟨m, hm, hmr⟩)
  omega

theorem net_inv_ctl (sim : Simulation) (s : Net) (k : Nat) (hInv : NetInv s) :
    NetInv (Net.step sim s (NEvent.ctl k)) := by
  cases h : s.ctl[k]? with
  | none =>
    rw [net_step_ctl_none sim s k h]
    exact hInv
  | some msg =>
    cases hf : s.blocks.find? (fun b => decide (b.thisIndex = msg.target)) with
    | none =>
      rw [net_step_ctl_dead sim s k msg h hf]
      exact hInv
    | some b =>
      have hbi : b.thisIndex = msg.target := by simpa using List.find?_some hf
      have hmem := mem_of_getElem?_eq_some _ _ _ h
      have hsub : (s.ctl.eraseIdx k).Sublist s.ctl := List.eraseIdx_sublist _ _
      rw [net_step_ctl sim s k msg b h hf]
      refine ⟨?_, ?_, ?_⟩
      · show (indices (s.blocks.map _)).count Index.root = 1
        rw [indices_map_replace _ _ _ ((handler_index sim msg b).trans hbi)]
        exact hInv.root_live
      · intro c hc
        rcases List.mem_append.1 hc with hc | hc
        · exact hInv.root_creating c hc
        · exact handler_creates sim msg b _ c hc
      · dsimp only
        by_cases hs : msg.is_step = true
        · obtain ⟨hX, cb, hY⟩ := handler_step sim msg b s.blocks hs
          rw [hX, hY, List.append_nil]
          rcases hInv.phase with ⟨w1, w2, w3⟩ | ⟨_, _, _, f4, _⟩
          · left
            refine ⟨fun m hm => w1 m (hsub.subset hm),
              fun i c j c2 hi hj => w2 i c j c2 (hsub.subset hi) (hsub.subset hj), ?_⟩
            rw [List.map_append, List.count_append, hbi]
            by_cases hr : msg.target = Index.root
            · have hrs : msg.is_root_step = true := by simp [Ctl.is_root_step, hs, hr]
              have e1 := filter_eraseIdx_true Ctl.is_root_step s.ctl k msg h hrs
              have e2 : List.count Index.root ([(cb, msg.target)].map Prod.snd) = 1 := by
                rw [hr]
                simp
              omega
            · have hrs : msg.is_root_step = false := by simp [Ctl.is_root_step, hr]
              rw [filter_eraseIdx_false Ctl.is_root_step s.ctl k msg h hrs]
              have e2 : List.count Index.root ([(cb, msg.target)].map Prod.snd) = 0 := by
                rw [List.map_cons, List.map_nil, List.count_cons_of_ne (Ne.symm hr)]
                rfl
              omega
          · exfalso
            have := f4 msg hmem
            rw [callback_not_step msg this] at hs
            exact absurd hs (by decide)
        · rw [Bool.not_eq_true] at hs
          obtain ⟨_, _, hY⟩ := handler_callback sim msg b b.cycle_ hs
          obtain ⟨hB, hM, _⟩ := handler_callback sim msg b b.cycle_ hs
          rw [hY, hB, hM, List.append_nil, List.append_nil, List.append_nil]
          have hroot_case : ∀ X : List Ctl, msg.target = Index.root → msg.is_callback = true →
              (∀ m ∈ X, m.is_callback = false) →
              (∀ i c j c2, Ctl.p_adapt i c ∈ X → Ctl.p_adapt j c2 ∈ X → c2 = c) →
              (X.filter Ctl.is_root_step).length ≤ 1 →
              ((∀ m ∈ s.ctl.eraseIdx k ++ X, m.is_callback = true → m.target ≠ Index.root) ∧
                (∀ i c j c2, Ctl.p_adapt i c ∈ s.ctl.eraseIdx k ++ X →
                  Ctl.p_adapt j c2 ∈ s.ctl.eraseIdx k ++ X → c2 = c) ∧
                ((s.ctl.eraseIdx k ++ X).filter Ctl.is_root_step).length
                  + (s.qd.map Prod.snd).count Index.root ≤ 1) ∨
              (s.inflight = [] ∧ s.creating = [] ∧ s.qd = [] ∧
                (∀ m ∈ s.ctl.eraseIdx k ++ X, m.is_callback = true) ∧
                ((s.ctl.eraseIdx k ++ X).map Ctl.target).count Index.root ≤ 1) := by
            intro X hr hcb hX1 hX2 hX3
            rcases hInv.phase with ⟨w1, _, _⟩ | ⟨_, _, f3, f4, f5⟩
            · exact absurd hr (w1 msg hmem hcb)
            · left
              have hrest := not_mem_of_count_le s.ctl k msg h hr f5
              have hcbs : ∀ m ∈ s.ctl.eraseIdx k, m.is_callback = true :=
                fun m hm => f4 m (hsub.subset hm)
              have hnoadapt : ∀ i c, Ctl.p_adapt i c ∉ s.ctl.eraseIdx k := by
                intro i c hm
                have := hcbs _ hm
                simp [Ctl.is_callback] at this
              refine ⟨?_, ?_, ?_⟩
              · intro m hm hmc
                rcases List.mem_append.1 hm with hm | hm
                · exact hrest m hm
                · rw [hX1 m hm] at hmc
                  exact absurd hmc (by decide)
              · intro i c j c2 hi hj
                rcases List.mem_append.1 hi with hi | hi
                · exact absurd hi (hnoadapt i c)
                · rcases List.mem_append.1 hj with hj | hj
                  · exact absurd hj (hnoadapt j c2)
                  · exact hX2 i c j c2 hi hj
              · rw [List.filter_append, List.length_append,
                  filter_root_step_nil _ (fun m hm => callback_not_step m (hcbs m hm)), f3]
                simp only [List.length_nil, List.map_nil, List.count_nil]
                omega
          rcases handler_broadcast sim msg b s.blocks hbi with ⟨hq, hX⟩ | ⟨hq, hX⟩ |
            ⟨hn1, hn2, hX⟩
          · rw [hX]
            apply hroot_case _ (by rw [hq]; rfl) (by rw [hq]; rfl)
            · intro m hm
              rcases List.mem_append.1 hm with hm | hm
              · obtain ⟨i, _, hi⟩ := List.mem_map.1 hm
                rw [← hi]
                rfl
              · obtain ⟨i, _, hi⟩ := List.mem_map.1 hm
                rw [← hi]
                rfl
            · intro i c j c2 hi hj
              have key : ∀ x y, Ctl.p_adapt x y ∈
                  (indices s.blocks).map (fun i => Ctl.p_print i b.count_adapt_)
                    ++ (indices s.blocks).map (fun i => Ctl.p_adapt i b.count_adapt_) →
                  y = b.count_adapt_ := by
                intro x y hxy
                rcases List.mem_append.1 hxy with hxy | hxy
                · obtain ⟨z, _, hz⟩ := List.mem_map.1 hxy
                  simp at hz
                · obtain ⟨z, _, hz⟩ := List.mem_map.1 hxy
                  simp only [Ctl.p_adapt.injEq] at hz
                  exact hz.2.symm
              rw [key i c hi, key j c2 hj]
            · rw [List.filter_append, List.length_append, count_root_steps,
                filter_root_step_nil]
              · have := hInv.root_live
                simp only [List.length_nil]
                omega
              · intro m hm
                obtain ⟨i, _, hi⟩ := List.mem_map.1 hm
                rw [← hi]
                rfl
          · rw [hX]
            apply hroot_case _ (by rw [hq]; rfl) (by rw [hq]; rfl)
            · intro m hm
              obtain ⟨i, _, hi⟩ := List.mem_map.1 hm
              rw [← hi]
              rfl
            · intro i c j c2 hi _
              obtain ⟨z, _, hz⟩ := List.mem_map.1 hi
              simp at hz
            · rw [filter_root_step_nil]
              · simp
              · intro m hm
                obtain ⟨i, _, hi⟩ := List.mem_map.1 hm
                rw [← hi]
                rfl
          · rw [hX, List.append_nil]
            rcases hInv.phase with ⟨w1, w2, w3⟩ | ⟨f1, f2, f3, f4, f5⟩
            · left
              refine ⟨fun m hm => w1 m (hsub.subset hm),
                fun i c j c2 hi hj => w2 i c j c2 (hsub.subset hi) (hsub.subset hj), ?_⟩
              have := (hsub.filter Ctl.is_root_step).length_le
              omega
            · right
              refine ⟨f1, f2, f3, fun m hm => f4 m (hsub.subset hm), ?_⟩
              have := (hsub.map Ctl.target).count_le Index.root
              omega

/-- Every event preserves the invariant of the protocol with creations in
flight. -/
theorem net_inv_step (sim : Simulation) (s : Net) (e : NEvent) (hInv : NetInv s) :
    NetInv (Net.step sim s e) := by
  cases e with
  | create k => exact net_inv_create sim s k hInv
  | depth k => exact net_inv_depth sim s k hInv
  | ctl k => exact net_inv_ctl sim s k hInv
  | quiesce => exact net_inv_quiesce sim s hInv

theorem net_inv_run (sim : Simulation) (events : List NEvent) (s : Net) (hInv : NetInv s) :
    NetInv (Net.run sim events s) := by
  induction events generalizing s with
  | nil => exact hInv
  | cons e es ih => exact ih (Net.step sim s e) (net_inv_step sim s e hInv)


/-- What an event does to the control messages in flight: nothing, or the
quiescence detector sends the callbacks, or one message is delivered to its
live target and the broadcasts of its handler are added. -/
theorem net_ctl_shape (sim : Simulation) (s : Net) (e : NEvent) :
    (Net.step sim s e).ctl = s.ctl ∨
    (e = NEvent.quiesce ∧ s.inflight = [] ∧ s.creating = [] ∧ s.ctl = [] ∧
      (Net.step sim s e).ctl = s.qd.map callback_msg) ∨
    (∃ (k : Nat) (msg : Ctl) (b : CommBlock), e = NEvent.ctl k ∧ s.ctl[k]? = some msg ∧
      b ∈ s.blocks ∧ b.thisIndex = msg.target ∧
      (Net.step sim s e).ctl
        = s.ctl.eraseIdx k ++ (msg.handler sim b).2.flatMap (Effect.to_ctl s.blocks)) := by
  cases e with
  | create k =>
    left
    simp only [Net.step]
    cases s.creating[k]? <;> rfl
  | depth k =>
    left
    cases hk : s.inflight[k]? with
    | none =>
      simp only [Net.step]
      rw [hk]
    | some msg =>
      cases hf : s.blocks.find? (fun b => decide (b.thisIndex = msg.target)) with
      | none =>
        simp only [Net.step]
        rw [hk]
        simp only
        rw [hf]
        rfl
      | some b => rw [net_step_depth sim s k msg b hk hf]
  | quiesce =>
    have hs : Net.step sim s NEvent.quiesce
        = if s.inflight = [] ∧ s.creating = [] ∧ s.ctl = [] ∧ s.qd ≠ [] then
            { s with ctl := s.qd.map callback_msg, qd := [] }
          else s := rfl
    by_cases he : s.inflight = [] ∧ s.creating = [] ∧ s.ctl = [] ∧ s.qd ≠ []
    · rw [hs, if_pos he]
      exact Or.inr (Or.inl ⟨rfl, he.1, he.2.1, he.2.2.1, rfl⟩)
    · rw [hs, if_neg he]
      exact Or.inl rfl
  | ctl k =>
    cases h : s.ctl[k]? with
    | none =>
      rw [net_step_ctl_none sim s k h]
      exact Or.inl rfl
    | some msg =>
      cases hf : s.blocks.find? (fun b => decide (b.thisIndex = msg.target)) with
      | none =>
        rw [net_step_ctl_dead sim s k msg h hf]
        exact Or.inl rfl
      | some b =>
        rw [net_step_ctl sim s k msg b h hf]
        exact Or.inr (Or.inr ⟨k, msg, b, rfl, h, List.mem_of_find?_eq_some hf,
          by simpa using List.find?_some hf, rfl⟩)

theorem count_map_ctl_zero (l : List Index) (f : Index → Ctl) (m : Ctl)
    (h : ∀ x, f x ≠ m) : (l.map f).count m = 0 := by
  apply List.count_eq_zero_of_not_mem
  intro hm
  obtain ⟨x, _, hx⟩ := List.mem_map.1 hm
  exact h x hx

theorem count_callback_msgs (qd : List (Callback × Index)) (m : Ctl)
    (h : m.is_callback = false) : (qd.map callback_msg).count m = 0 := by
  apply List.count_eq_zero_of_not_mem
  intro hm
  obtain ⟨x, _, hx⟩ := List.mem_map.1 hm
  obtain ⟨cb, i⟩ := x
  rw [← hx] at h
  cases cb <;> simp [callback_msg, Ctl.is_callback] at h

/-- The messages that a handler broadcasts are no callbacks. -/
theorem handler_broadcast_no_callback (sim : Simulation) (msg : Ctl) (b : CommBlock)
    (blocks : List CommBlock) (hb : b.thisIndex = msg.target) (m : Ctl)
    (hm : m.is_callback = true) :
    ((msg.handler sim b).2.flatMap (Effect.to_ctl blocks)).count m = 0 := by
  apply List.count_eq_zero_of_not_mem
  intro hmem
  rcases handler_broadcast sim msg b blocks hb with ⟨_, hX⟩ | ⟨_, hX⟩ | ⟨_, _, hX⟩
  · rw [hX] at hmem
    rcases List.mem_append.1 hmem with hmem | hmem
    · obtain ⟨i, _, hi⟩ := List.mem_map.1 hmem
      rw [← hi] at hm
      simp [Ctl.is_callback] at hm
    · obtain ⟨i, _, hi⟩ := List.mem_map.1 hmem
      rw [← hi] at hm
      simp [Ctl.is_callback] at hm
  · rw [hX] at hmem
    obtain ⟨i, _, hi⟩ := List.mem_map.1 hmem
    rw [← hi] at hm
    simp [Ctl.is_callback] at hm
  · rw [hX] at hmem
    simp at hmem

/-! ## Phase ordering -/

/-- C19: phase ordering under every schedule, with every message in flight
modelled, the creation requests included.  A cycle starts on any live blocks
among which exactly one is the root, with the call of `p_adapt_enter` on the
root in flight.  In every state that it reaches, under any order of delivery:
(1) all calls of `p_adapt` in flight carry one and the same argument, so calls
of two steps are never in flight together; (2) an event puts a new call
`p_adapt(c)` in flight only if it is the delivery of the callback `q_adapt` to
the root, and at that moment no depth message and no creation request is in
flight, no callback is registered, and the control messages in flight are
callbacks only, so every call of the step before has been handled and every
message its handling produced has been delivered; the event then puts exactly
one call `p_adapt(c)` in flight for every live block; (3) a callback is put in
flight only by the quiescence detector, when no depth message, no creation
request and no control message is in flight; (4) a control message leaves the
messages in flight only by its delivery to its live target, whose handler
runs to completion in that event. -/
theorem phase_ordering (sim : Simulation) (blocks : List CommBlock)
    (hroot : (indices blocks).count Index.root = 1)
    (events : List NEvent) (e : NEvent) :
    (∀ i c j c2, Ctl.p_adapt i c ∈ (Net.reached sim blocks events).ctl →
      Ctl.p_adapt j c2 ∈ (Net.reached sim blocks events).ctl → c2 = c) ∧
    (∀ j c, (Net.reached sim blocks events).ctl.count (Ctl.p_adapt j c)
        < ((Net.reached sim blocks events).step sim e).ctl.count (Ctl.p_adapt j c) →
      (∃ k, e = NEvent.ctl k ∧
        (Net.reached sim blocks events).ctl[k]? = some (Ctl.q_adapt Index.root)) ∧
      (Net.reached sim blocks events).inflight = [] ∧
      (Net.reached sim blocks events).creating = [] ∧
      (Net.reached sim blocks events).qd = [] ∧
      (∀ m ∈ (Net.reached sim blocks events).ctl,
        ∃ i, m = Ctl.q_adapt i ∨ m = Ctl.q_adapt_exit i) ∧
      (∀ i, ((Net.reached sim blocks events).step sim e).ctl.count (Ctl.p_adapt i c)
        = (indices (Net.reached sim blocks events).blocks).count i)) ∧
    (∀ i, (Net.reached sim blocks events).ctl.count (Ctl.q_adapt i)
          < ((Net.reached sim blocks events).step sim e).ctl.count (Ctl.q_adapt i) ∨
        (Net.reached sim blocks events).ctl.count (Ctl.q_adapt_exit i)
          < ((Net.reached sim blocks events).step sim e).ctl.count (Ctl.q_adapt_exit i) →
      e = NEvent.quiesce ∧ (Net.reached sim blocks events).inflight = [] ∧
      (Net.reached sim blocks events).creating = [] ∧
      (Net.reached sim blocks events).ctl = []) ∧
    (∀ m, ((Net.reached sim blocks events).step sim e).ctl.count m
        < (Net.reached sim blocks events).ctl.count m →
      ∃ k, e = NEvent.ctl k ∧ (Net.reached sim blocks events).ctl[k]? = some m ∧
        ∃ b ∈ (Net.reached sim blocks events).blocks, b.thisIndex = m.target) := by
  have hInv : NetInv (Net.reached sim blocks events) :=
    net_inv_run sim events _ (net_inv_start blocks hroot)
  generalize Net.reached sim blocks events = s at hInv ⊢
  have hcallback : ∀ m : Ctl, m.is_callback = true →
      s.ctl.count m < (s.step sim e).ctl.count m →
      e = NEvent.quiesce ∧ s.inflight = [] ∧ s.creating = [] ∧ s.ctl = [] := by
    intro m hm hnew
    rcases net_ctl_shape sim s e with hsame | ⟨he, hinf, hcr, hctl0, _⟩ |
      ⟨k, msg, b, _, hk, _, hbi, hctl⟩
    · rw [hsame] at hnew
      omega
    · exact ⟨he, hinf, hcr, hctl0⟩
    · exfalso
      rw [hctl, List.count_append, handler_broadcast_no_callback sim msg b s.blocks hbi m hm]
        at hnew
      have := (List.eraseIdx_sublist s.ctl k).count_le m
      omega
  refine ⟨?_, ?_, ?_, ?_⟩
  · rcases hInv.phase with ⟨_, w2, _⟩ | ⟨_, _, _, f4, _⟩
    · exact w2
    · intro i c j c2 hi
      have := f4 _ hi
      simp [Ctl.is_callback] at this
  · intro j c hnew
    rcases net_ctl_shape sim s e with hsame | ⟨_, _, _, _, hctl⟩ |
      ⟨k, msg, b, he, hk, hb, hbi, hctl⟩
    · rw [hsame] at hnew
      omega
    · rw [hctl, count_callback_msgs s.qd (Ctl.p_adapt j c) rfl] at hnew
      omega
    · have hmem := mem_of_getElem?_eq_some _ _ _ hk
      have herase := (List.eraseIdx_sublist s.ctl k).count_le (Ctl.p_adapt j c)
      rcases handler_broadcast sim msg b s.blocks hbi with ⟨hq, hX⟩ | ⟨hq, hX⟩ | ⟨_, _, hX⟩
      · rw [hq] at hk hmem
        rcases hInv.phase with ⟨w1, _, _⟩ | ⟨f1, f2, f3, f4, _⟩
        · exact absurd rfl (w1 _ hmem rfl)
        · have hnone : ∀ i x, (s.ctl.eraseIdx k).count (Ctl.p_adapt i x) = 0 := by
            intro i x
            apply List.count_eq_zero_of_not_mem
            intro hm
            have := f4 _ ((List.eraseIdx_sublist s.ctl k).subset hm)
            simp [Ctl.is_callback] at this
          have hprint : ∀ i x, ((indices s.blocks).map
              (fun y => Ctl.p_print y b.count_adapt_)).count (Ctl.p_adapt i x) = 0 :=
            fun i x => count_map_ctl_zero _ _ _ (by simp)
          rw [hctl, hX, List.count_append, List.count_append, hnone, hprint] at hnew
          have hc : c = b.count_adapt_ := by
            have hpos : 0 < ((indices s.blocks).map
                (fun y => Ctl.p_adapt y b.count_adapt_)).count (Ctl.p_adapt j c) := by omega
            obtain ⟨x, _, hx⟩ := List.mem_map.1 (List.count_pos_iff.1 hpos)
            simp only [Ctl.p_adapt.injEq] at hx
            exact hx.2.symm
          refine ⟨⟨k, he, hk⟩, f1, f2, f3, ?_, ?_⟩
          · intro m hm
            have := f4 m hm
            cases m <;> simp [Ctl.is_callback] at this
            · exact ⟨_, Or.inl rfl⟩
            · exact ⟨_, Or.inr rfl⟩
          · intro i
            rw [hctl, hX, List.count_append, List.count_append, hnone, hprint, hc]
            simp only [Nat.zero_add]
            exact List.count_map_of_injective _ (fun y => Ctl.p_adapt y b.count_adapt_)
              (by intro x y hxy; simpa using hxy) i
      · exfalso
        rw [hctl, hX, List.count_append, count_map_ctl_zero _ _ _ (by simp)] at hnew
        omega
      · exfalso
        rw [hctl, hX, List.append_nil] at hnew
        omega
  · intro i hnew
    rcases hnew with hnew | hnew
    · exact hcallback (Ctl.q_adapt i) rfl hnew
    · exact hcallback (Ctl.q_adapt_exit i) rfl hnew
  · intro m hless
    rcases net_ctl_shape sim s e with hsame | ⟨_, _, _, hctl0, _⟩ |
      ⟨k, msg, b, he, hk, hb, hbi, hctl⟩
    · rw [hsame] at hless
      omega
    · rw [hctl0] at hless
      simp at hless
    · have hp := (perm_cons_eraseIdx s.ctl k msg hk).count_eq m
      rw [hctl, List.count_append] at hless
      by_cases hm : msg = m
      · rw [← hm]
        exact ⟨k, he, hk, b, hb, hbi⟩
      · exfalso
        rw [List.count_cons_of_ne (Ne.symm hm)] at hp
        omega

/-- Witness of C19: on a one-dimensional mesh whose criterion always refines,
the root enters and refines, the two creation requests are delivered and the
barrier fires; the delivery of the callback to the root then puts `p_adapt(0)`
in flight, once for each of the three live blocks. -/
theorem phase_ordering_witness :
    (indices [fresh_root 2 0]).count Index.root = 1 ∧
    (Net.reached sim_always_refine [fresh_root 2 0]
        [NEvent.ctl 0, NEvent.create 0, NEvent.create 0, NEvent.quiesce]).ctl.count
          (Ctl.p_adapt Index.root 0)
      < ((Net.reached sim_always_refine [fresh_root 2 0]
        [NEvent.ctl 0, NEvent.create 0, NEvent.create 0, NEvent.quiesce]).step
          sim_always_refine (NEvent.ctl 0)).ctl.count (Ctl.p_adapt Index.root 0) ∧
    (Net.reached sim_always_refine [fresh_root 2 0]
        [NEvent.ctl 0, NEvent.create 0, NEvent.create 0, NEvent.quiesce]).creating = [] ∧
    (indices (Net.reached sim_always_refine [fresh_root 2 0]
        [NEvent.ctl 0, NEvent.create 0, NEvent.create 0, NEvent.quiesce]).blocks).length = 3 :=
  ⟨by decide, by decide,
    ((phase_ordering sim_always_refine [fresh_root 2 0] (by decide)
      [NEvent.ctl 0, NEvent.create 0, NEvent.create 0, NEvent.quiesce]
      (NEvent.ctl 0)).2.1 Index.root 0 (by decide)).2.2.1,
    by decide⟩

/-! ## A cycle on an arbitrary mesh: the invariant -/

end Cello
